import Mathlib

/-!
CCPX chaincode (`ccpx.go`): a shallow embedding and its verified properties.

The chaincode keeps asset records ("points"), an index of asset identifiers and
a transaction log in a flat key/value ledger, every aggregate being stored as a
JSON text.  The development has three layers:

* the JSON codec the chaincode calls (`json.Marshal` / `json.Unmarshal` of the Go
  standard library), modelled as a document tree with a renderer and a parser,
* the ledger stub (`GetState`, `PutState`, `DelState`) with an error oracle,
* the chaincode functions themselves, one Lean function per Go function.
-/

namespace CCPX

/-! ## JSON documents -/

/-- JSON document tree produced by the parser; a number keeps its source text. -/
inductive Json where
  | null
  | bool (b : Bool)
  | num (raw : List Char)
  | str (s : List Char)
  | arr (xs : List Json)
  | obj (kvs : List (List Char × Json))

/-- JSON insignificant whitespace: space, tab, carriage return, line feed. -/
def isWs (c : Char) : Bool := c = ' ' || c = '\t' || c = '\r' || c = '\n'

/-- Drop leading whitespace. -/
def skipWs : List Char → List Char
  | [] => []
  | c :: cs => if isWs c then skipWs cs else c :: cs

/-- Value of a hexadecimal digit, either case. -/
def hexVal (c : Char) : Option Nat :=
  if 48 ≤ c.toNat ∧ c.toNat ≤ 57 then some (c.toNat - 48)
  else if 97 ≤ c.toNat ∧ c.toNat ≤ 102 then some (c.toNat - 87)
  else if 65 ≤ c.toNat ∧ c.toNat ≤ 70 then some (c.toNat - 55)
  else none

/-- Value of the four hexadecimal digits of a `\u` escape. -/
def hex4 (a b c d : Char) : Option Nat :=
  match hexVal a, hexVal b, hexVal c, hexVal d with
  | some x, some y, some z, some w => some (((x * 16 + y) * 16 + z) * 16 + w)
  | _, _, _, _ => none

/-- Lower-case hexadecimal digit of a value below sixteen. -/
def hexDigit (n : Nat) : Char :=
  if n < 10 then Char.ofNat (48 + n) else Char.ofNat (87 + n)

/-- The Unicode replacement character, written for an unpaired surrogate escape. -/
def replacementChar : Char := Char.ofNat 0xFFFD

/-- A pending high surrogate that found no partner decodes to U+FFFD. -/
def flushSurrogate : Option Nat → List Char
  | none => []
  | some _ => [replacementChar]

/-- Character denoted by a one-letter escape of a JSON string. -/
def unescape (e : Char) : Option Char :=
  if e = '"' then some '"'
  else if e = '\\' then some '\\'
  else if e = '/' then some '/'
  else if e = 'b' then some (Char.ofNat 8)
  else if e = 'f' then some (Char.ofNat 12)
  else if e = 'n' then some '\n'
  else if e = 'r' then some '\r'
  else if e = 't' then some '\t'
  else none

/-- Prepend decoded characters to the result of scanning the rest of a string. -/
def emit (pre : List Char) : Option (List Char × List Char) → Option (List Char × List Char)
  | none => none
  | some (s, rest) => some (pre ++ s, rest)

/-- Scan the body of a JSON string, the opening quote already consumed: returns the
decoded text and the input after the closing quote.  A raw control character, an
unknown escape or a missing closing quote is a syntax error.  The first argument is a
high surrogate of a preceding `\u` escape still waiting for its low surrogate. -/
def scanString : Option Nat → List Char → Option (List Char × List Char)
  | _, [] => none
  | p, c :: rest =>
    if c = '"' then some (flushSurrogate p, rest)
    else if c = '\\' then
      match rest with
      | [] => none
      | e :: r =>
        if e = 'u' then
          match r with
          | a :: b :: x :: y :: r2 =>
            match hex4 a b x y with
            | none => none
            | some v =>
              if 0xD800 ≤ v ∧ v < 0xDC00 then
                emit (flushSurrogate p) (scanString (some v) r2)
              else if 0xDC00 ≤ v ∧ v < 0xE000 then
                match p with
                | some hi =>
                  emit [Char.ofNat (0x10000 + (hi - 0xD800) * 0x400 + (v - 0xDC00))]
                    (scanString none r2)
                | none => emit [replacementChar] (scanString none r2)
              else emit (flushSurrogate p ++ [Char.ofNat v]) (scanString none r2)
          | _ => none
        else
          match unescape e with
          | none => none
          | some x => emit (flushSurrogate p ++ [x]) (scanString none r)
    else if c.toNat < 0x20 then none
    else emit (flushSurrogate p ++ [c]) (scanString none rest)

/-- Decimal digit test. -/
def isDigit (c : Char) : Bool := decide (48 ≤ c.toNat ∧ c.toNat ≤ 57)

/-- Characters that can occur inside a JSON number. -/
def isNumChar (c : Char) : Bool :=
  isDigit c || c = '-' || c = '+' || c = '.' || c = 'e' || c = 'E'

/-- Exponent part of a number, or nothing. -/
def validExp : List Char → Bool
  | [] => true
  | e :: r =>
    (e = 'e' || e = 'E') &&
      (match r with
       | [] => false
       | s :: t =>
         if s = '+' || s = '-' then (!t.isEmpty && t.all isDigit)
         else (s :: t).all isDigit)

/-- Fraction part of a number followed by its exponent part, both optional. -/
def validFrac : List Char → Bool
  | [] => true
  | c :: r =>
    if c = '.' then
      (!(r.takeWhile isDigit).isEmpty && validExp (r.dropWhile isDigit))
    else validExp (c :: r)

/-- Integer part of a number (no leading zero) followed by the optional parts. -/
def validInt : List Char → Bool
  | [] => false
  | c :: r =>
    if c = '0' then validFrac r
    else if isDigit c then validFrac (r.dropWhile isDigit)
    else false

/-- The JSON number grammar. -/
def validNumber : List Char → Bool
  | [] => false
  | c :: r => if c = '-' then validInt r else validInt (c :: r)

/-- Scan a number: the longest run of number characters, which must be a number. -/
def scanNumber (cs : List Char) : Option (List Char × List Char) :=
  if validNumber (cs.takeWhile isNumChar) then
    some (cs.takeWhile isNumChar, cs.dropWhile isNumChar)
  else none

/-- Consume the given literal text from the front of the input. -/
def expect : List Char → List Char → Option (List Char)
  | [], cs => some cs
  | _ :: _, [] => none
  | l :: ls, c :: cs => if l = c then expect ls cs else none

mutual
/-- Parse one JSON value at the front of the input (no leading whitespace); the
first argument bounds the number of nested parser calls. -/
def parseValue : Nat → List Char → Option (Json × List Char)
  | 0, _ => none
  | n + 1, cs =>
    match cs with
    | [] => none
    | c :: rest =>
      if c = '"' then
        match scanString none rest with
        | some (s, r) => some (Json.str s, r)
        | none => none
      else if c = '[' then
        match skipWs rest with
        | [] => none
        | d :: r =>
          if d = ']' then some (Json.arr [], r)
          else
            match parseElems n (d :: r) with
            | some (vs, r2) => some (Json.arr vs, r2)
            | none => none
      else if c = '{' then
        match skipWs rest with
        | [] => none
        | d :: r =>
          if d = '}' then some (Json.obj [], r)
          else
            match parseMembers n (d :: r) with
            | some (kvs, r2) => some (Json.obj kvs, r2)
            | none => none
      else if c = 'n' then
        match expect ['u', 'l', 'l'] rest with
        | some r => some (Json.null, r)
        | none => none
      else if c = 't' then
        match expect ['r', 'u', 'e'] rest with
        | some r => some (Json.bool true, r)
        | none => none
      else if c = 'f' then
        match expect ['a', 'l', 's', 'e'] rest with
        | some r => some (Json.bool false, r)
        | none => none
      else if c = '-' || isDigit c then
        match scanNumber (c :: rest) with
        | some (raw, r) => some (Json.num raw, r)
        | none => none
      else none
/-- Parse the elements of a non-empty array up to and including the closing bracket. -/
def parseElems : Nat → List Char → Option (List Json × List Char)
  | 0, _ => none
  | n + 1, cs =>
    match parseValue n cs with
    | none => none
    | some (v, r) =>
      match skipWs r with
      | [] => none
      | d :: r2 =>
        if d = ',' then
          match parseElems n (skipWs r2) with
          | some (vs, r3) => some (v :: vs, r3)
          | none => none
        else if d = ']' then some ([v], r2)
        else none
/-- Parse the members of a non-empty object up to and including the closing brace. -/
def parseMembers : Nat → List Char → Option (List (List Char × Json) × List Char)
  | 0, _ => none
  | n + 1, cs =>
    match cs with
    | [] => none
    | q :: r0 =>
      if q = '"' then
        match scanString none r0 with
        | none => none
        | some (k, r1) =>
          match skipWs r1 with
          | [] => none
          | col :: r2 =>
            if col = ':' then
              match parseValue n (skipWs r2) with
              | none => none
              | some (v, r3) =>
                match skipWs r3 with
                | [] => none
                | d :: r4 =>
                  if d = ',' then
                    match parseMembers n (skipWs r4) with
                    | some (kvs, r5) => some ((k, v) :: kvs, r5)
                    | none => none
                  else if d = '}' then some ([(k, v)], r4)
                  else none
            else none
      else none
end

/-- Parse a complete JSON text: one value, with optional whitespace around it and
nothing else.  This is the validity check `json.Unmarshal` runs before it decodes.
The bound on the parser calls grows with the text; `parseJson_bound` shows that no
larger bound would accept more. -/
def parseJson (cs : List Char) : Option Json :=
  match parseValue (2 * cs.length + 2) (skipWs cs) with
  | none => none
  | some (v, r) =>
    match skipWs r with
    | [] => some v
    | _ :: _ => none

/-- How `json.Marshal` writes one character of a string (HTML escaping on). -/
def escapeChar (c : Char) : List Char :=
  if c = '"' then ['\\', '"']
  else if c = '\\' then ['\\', '\\']
  else if c = '\n' then ['\\', 'n']
  else if c = '\r' then ['\\', 'r']
  else if c = '\t' then ['\\', 't']
  else if c.toNat < 0x20 ∨ c = '<' ∨ c = '>' ∨ c = '&' then
    ['\\', 'u', '0', '0', hexDigit (c.toNat / 16), hexDigit (c.toNat % 16)]
  else if c.toNat = 0x2028 ∨ c.toNat = 0x2029 then
    ['\\', 'u', '2', '0', '2', hexDigit (c.toNat % 16)]
  else [c]

/-- Body of a quoted string: every character escaped as needed. -/
def escapeAll : List Char → List Char
  | [] => []
  | c :: cs => escapeChar c ++ escapeAll cs

/-- A JSON string literal as `json.Marshal` writes it. -/
def quote (s : List Char) : List Char := '"' :: (escapeAll s ++ ['"'])

mutual
/-- Compact JSON text of a document, the form `json.Marshal` emits. -/
def render : Json → List Char
  | .null => ['n', 'u', 'l', 'l']
  | .bool true => ['t', 'r', 'u', 'e']
  | .bool false => ['f', 'a', 'l', 's', 'e']
  | .num raw => raw
  | .str s => quote s
  | .arr xs => '[' :: renderElems xs
  | .obj kvs => '{' :: renderMembers kvs
/-- Comma-separated elements and the closing bracket. -/
def renderElems : List Json → List Char
  | [] => [']']
  | [x] => render x ++ [']']
  | x :: y :: r => render x ++ ',' :: renderElems (y :: r)
/-- Comma-separated members and the closing brace. -/
def renderMembers : List (List Char × Json) → List Char
  | [] => ['}']
  | [(k, v)] => quote k ++ ':' :: (render v ++ ['}'])
  | (k, v) :: y :: r => quote k ++ ':' :: (render v ++ ',' :: renderMembers (y :: r))
end

mutual
/-- Documents without numbers: everything the chaincode marshals is of this kind,
since no marshalled Go type has a numeric field. -/
def Json.noNum : Json → Bool
  | .num _ => false
  | .arr xs => noNumElems xs
  | .obj kvs => noNumMembers kvs
  | _ => true
/-- No number in a list of documents. -/
def noNumElems : List Json → Bool
  | [] => true
  | x :: r => x.noNum && noNumElems r
/-- No number in the values of a member list. -/
def noNumMembers : List (List Char × Json) → Bool
  | [] => true
  | (_, v) :: r => v.noNum && noNumMembers r
end

mutual
/-- Number of nested parser calls that parsing the rendering of a document takes. -/
def Json.need : Json → Nat
  | .arr xs => 1 + needElems xs
  | .obj kvs => 1 + needMembers kvs
  | _ => 1
/-- Parser calls taken by the elements of an array. -/
def needElems : List Json → Nat
  | [] => 0
  | x :: r => 1 + x.need + needElems r
/-- Parser calls taken by the members of an object. -/
def needMembers : List (List Char × Json) → Nat
  | [] => 0
  | (_, v) :: r => 1 + v.need + needMembers r
end

/-! ## Go values and their JSON encoding -/

/-- The `Point` struct: an asset and its owner. -/
structure Point where
  Id : String := ""
  Owner : String := ""
deriving DecidableEq

/-- The `Transaction` struct; a nil `Related` slice is `none`. -/
structure Transaction where
  Id : String := ""
  Timestamp : String := ""
  TraderA : String := ""
  TraderB : String := ""
  PointA : String := ""
  PointB : String := ""
  Related : Option (List Point) := none
deriving DecidableEq

/-- The `AllTx` struct: the transaction log; a nil `TXs` slice is `none`. -/
structure AllTx where
  TXs : Option (List Transaction) := none
deriving DecidableEq

/-- Elements of a Go slice, the nil slice having none. -/
def elems {α : Type} : Option (List α) → List α
  | none => []
  | some xs => xs

/-- Go `append(s, x)`: appending to the nil slice allocates. -/
def goAppend {α : Type} (s : Option (List α)) (x : α) : Option (List α) :=
  some (elems s ++ [x])

/-- Encoding of a Go string. -/
def encString (s : String) : Json := Json.str s.data

/-- Encoding of a slice: `null` for the nil slice, an array otherwise. -/
def encSlice {α : Type} (enc : α → Json) : Option (List α) → Json
  | none => Json.null
  | some xs => Json.arr (xs.map enc)

/-- Encoding of a `Point`, fields in declaration order under their tags. -/
def encPoint (p : Point) : Json :=
  Json.obj [("id".data, encString p.Id), ("owner".data, encString p.Owner)]

/-- Encoding of a `Transaction`. -/
def encTransaction (t : Transaction) : Json :=
  Json.obj [("txID".data, encString t.Id), ("timestamp".data, encString t.Timestamp),
    ("traderA".data, encString t.TraderA), ("traderB".data, encString t.TraderB),
    ("pointA".data, encString t.PointA), ("pointB".data, encString t.PointB),
    ("related".data, encSlice encPoint t.Related)]

/-- Encoding of an `AllTx`. -/
def encAllTx (a : AllTx) : Json :=
  Json.obj [("tx".data, encSlice encTransaction a.TXs)]

/-- The call `json.Marshal(v)` for a `[]string`. -/
def marshalStrings (v : Option (List String)) : String :=
  String.mk (render (encSlice encString v))

/-- The call `json.Marshal(v)` for a `Point`. -/
def marshalPoint (v : Point) : String := String.mk (render (encPoint v))

/-- The call `json.Marshal(v)` for a `Transaction`. -/
def marshalTransaction (v : Transaction) : String := String.mk (render (encTransaction v))

/-- The call `json.Marshal(v)` for an `AllTx`. -/
def marshalAllTx (v : AllTx) : String := String.mk (render (encAllTx v))

/-- Case folding of the decoder's field lookup: ASCII letters, and the two
non-ASCII characters that fold to an ASCII letter. -/
def foldChar (c : Char) : Char :=
  if 65 ≤ c.toNat ∧ c.toNat ≤ 90 then Char.ofNat (c.toNat + 32)
  else if c.toNat = 0x17F then 's'
  else if c.toNat = 0x212A then 'k'
  else c

/-- An object key selects the struct field whose tag it equals up to case. -/
def sameField (key : List Char) (tag : String) : Bool :=
  key.map foldChar = tag.data.map foldChar

/-- Decoding into a string: a JSON string replaces it, `null` and every value of
another type leave it as it is. -/
def decString (j : Json) (cur : String) : String :=
  match j with
  | Json.str s => String.mk s
  | _ => cur

/-- Decoding array elements into slice elements: an element already present is
decoded into, a new one starts from the zero value. -/
def decElems {α : Type} (dec : Json → α → α) (zero : α) : List Json → List α → List α
  | [], _ => []
  | x :: xs, [] => dec x zero :: decElems dec zero xs []
  | x :: xs, c :: cs => dec x c :: decElems dec zero xs cs

/-- Decoding into a slice: `null` makes it nil, an array fills it, a value of
another type leaves it as it is. -/
def decSlice {α : Type} (dec : Json → α → α) (zero : α) (j : Json)
    (cur : Option (List α)) : Option (List α) :=
  match j with
  | Json.null => none
  | Json.arr xs => some (decElems dec zero xs (elems cur))
  | _ => cur

/-- Decoding one object member into a `Point`. -/
def decPointMember (p : Point) (kv : List Char × Json) : Point :=
  if sameField kv.1 "id" then { p with Id := decString kv.2 p.Id }
  else if sameField kv.1 "owner" then { p with Owner := decString kv.2 p.Owner }
  else p

/-- Decoding into a `Point`: members of an object in order, unknown keys skipped;
a value that is no object leaves the struct as it is. -/
def decPoint (j : Json) (cur : Point) : Point :=
  match j with
  | Json.obj kvs => kvs.foldl decPointMember cur
  | _ => cur

/-- Decoding one object member into a `Transaction`. -/
def decTransactionMember (t : Transaction) (kv : List Char × Json) : Transaction :=
  if sameField kv.1 "txID" then { t with Id := decString kv.2 t.Id }
  else if sameField kv.1 "timestamp" then { t with Timestamp := decString kv.2 t.Timestamp }
  else if sameField kv.1 "traderA" then { t with TraderA := decString kv.2 t.TraderA }
  else if sameField kv.1 "traderB" then { t with TraderB := decString kv.2 t.TraderB }
  else if sameField kv.1 "pointA" then { t with PointA := decString kv.2 t.PointA }
  else if sameField kv.1 "pointB" then { t with PointB := decString kv.2 t.PointB }
  else if sameField kv.1 "related" then
    { t with Related := decSlice decPoint {} kv.2 t.Related }
  else t

/-- Decoding into a `Transaction`. -/
def decTransaction (j : Json) (cur : Transaction) : Transaction :=
  match j with
  | Json.obj kvs => kvs.foldl decTransactionMember cur
  | _ => cur

/-- Decoding one object member into an `AllTx`. -/
def decAllTxMember (a : AllTx) (kv : List Char × Json) : AllTx :=
  if sameField kv.1 "tx" then { a with TXs := decSlice decTransaction {} kv.2 a.TXs }
  else a

/-- Decoding into an `AllTx`. -/
def decAllTx (j : Json) (cur : AllTx) : AllTx :=
  match j with
  | Json.obj kvs => kvs.foldl decAllTxMember cur
  | _ => cur

/-- The call `json.Unmarshal(data, &v)` with its error dropped, as the chaincode
always does: data that is absent or no valid JSON text leaves `v` untouched,
valid data is decoded into `v`. -/
def unmarshal {α : Type} (dec : Json → α → α) (data : Option String) (v : α) : α :=
  match data with
  | none => v
  | some s =>
    match parseJson s.data with
    | none => v
    | some j => dec j v

/-! ## The ledger stub and the execution environment -/

/-- Everything a chaincode call can see or change: the ledger (`kv`, key to stored
bytes), the package-level variable `tmpRelatedPoint` (the only global the code ever
passes by address), and the environment: which ledger calls fail and with what
error, the text `time.Now().String()` yields, and the rune mapping behind
`strings.ToLower` (the Unicode case table is not part of the repository). -/
structure World where
  kv : String → Option String
  tmpRelatedPoint : String
  getErr : String → Option String
  putErr : String → Option String
  delErr : String → Option String
  now : String
  lowerRune : Char → Char

/-- Result of a chaincode function, a Go pair `([]byte, error)`: `ok p` is
`return p, nil` (`none` the nil slice), `fail m` is `return nil, err` with the
error text `m`, and `crash` is a run-time panic of the call. -/
inductive Outcome where
  | ok (payload : Option String)
  | fail (msg : String)
  | crash
deriving DecidableEq

/-- Key of the asset index. -/
def pointIndexStr : String := "_pointindex"
/-- Key of the open trades aggregate. -/
def transectionStr : String := "_tx"
/-- Initial value of the variable `tmpRelatedPoint`. -/
def tmpRelatedPointInit : String := "_tmpRelatedPoint"
/-- Key of the scratch index. -/
def tmpStr : String := "_tmpIndex"
/-- Key of the transaction log. -/
def minimalTxStr : String := "_minimaltx"

/-- The call `stub.GetState(key)`: an error, or the stored bytes, nil when the key
holds nothing. -/
def GetState (w : World) (key : String) : Except String (Option String) :=
  match w.getErr key with
  | some e => Except.error e
  | none => Except.ok (w.kv key)

/-- The call `stub.PutState(key, value)`: the new world and the error, if any. -/
def PutState (w : World) (key value : String) : World × Option String :=
  match w.putErr key with
  | some e => (w, some e)
  | none => ({ w with kv := fun k => if k = key then some value else w.kv k }, none)

/-- The call `stub.DelState(key)`: the new world and the error, if any. -/
def DelState (w : World) (key : String) : World × Option String :=
  match w.delErr key with
  | some e => (w, some e)
  | none => ({ w with kv := fun k => if k = key then none else w.kv k }, none)

/-- The call `strings.ToLower(s)`. -/
def toLower (w : World) (s : String) : String := String.mk (s.data.map w.lowerRune)

/-- The call `strings.Contains(s, substr)` on character lists. -/
def containsChars (sub : List Char) : List Char → Bool
  | [] => sub.isEmpty
  | c :: cs => sub.isPrefixOf (c :: cs) || containsChars sub cs

/-- The call `strings.Contains(s, substr)`. -/
def strContains (s substr : String) : Bool := containsChars substr.data s.data

/-- Value of a run of decimal digits, most significant first. -/
def digitsValue : List Char → Nat → Nat
  | [], acc => acc
  | c :: cs, acc => digitsValue cs (acc * 10 + (c.toNat - 48))

/-- The call `strconv.Atoi(s)` for a 64-bit `int`: an optional sign and at least one
decimal digit, the value within range; `none` is an error. -/
def atoi (s : String) : Option Int :=
  let neg := s.data.head? = some '-'
  let ds := if s.data.head? = some '-' ∨ s.data.head? = some '+' then s.data.tail else s.data
  if ds.isEmpty || !ds.all isDigit then none
  else
    let v : Int := if neg then -(digitsValue ds 0 : Int) else (digitsValue ds 0 : Int)
    if -(2 : Int) ^ 63 ≤ v ∧ v < (2 : Int) ^ 63 then some v else none

/-- The call `strconv.Itoa(i)`. -/
def itoa (i : Int) : String := toString i

/-! ## The chaincode -/

/-- Init resets the ledger: the test variable, the empty index, the scratch slots
and the empty trade aggregates. -/
def Init (w : World) (_function : String) (args : List String) : World × Outcome :=
  match args with
  | [a0] =>
    match atoi a0 with
    | none => (w, Outcome.fail "Expecting integer value for asset holding")
    | some Aval =>
      match PutState w "abc" (itoa Aval) with
      | (w1, some e) => (w1, Outcome.fail e)
      | (w1, none) =>
        match PutState w1 pointIndexStr (marshalStrings none) with
        | (w2, some e) => (w2, Outcome.fail e)
        | (w2, none) =>
          match PutState w2 w2.tmpRelatedPoint (marshalStrings none) with
          | (w3, some e) => (w3, Outcome.fail e)
          | (w3, none) =>
            match PutState w3 tmpStr (marshalStrings none) with
            | (w4, some e) => (w4, Outcome.fail e)
            | (w4, none) =>
              match PutState w4 transectionStr (marshalAllTx {}) with
              | (w5, some e) => (w5, Outcome.fail e)
              | (w5, none) =>
                match PutState w5 minimalTxStr (marshalAllTx {}) with
                | (w6, some e) => (w6, Outcome.fail e)
                | (w6, none) => (w6, Outcome.ok none)
  | _ => (w, Outcome.fail "Incorrect number of arguments. Expecting 1")

/-- The branch of `read` for the mode `findLatest`: the loop that collects the
transactions whose id contains the token. -/
def findLatestLoop (seller : String) :
    List Transaction → Option (List Transaction) → Option (List Transaction)
  | [], processed => processed
  | t :: rest, processed =>
    if strContains t.Id seller then findLatestLoop seller rest (goAppend processed t)
    else findLatestLoop seller rest processed

/-- Read a variable from the ledger (`read`) or filter the log (`findLatest`). -/
def read (w : World) (args : List String) : World × Outcome :=
  match args with
  | [] => (w, Outcome.crash)
  | fcn :: tl =>
    if fcn = "read" then
      match tl with
      | [] => (w, Outcome.crash)
      | a1 :: _ =>
        match GetState w a1 with
        | Except.error _ =>
          (w, Outcome.fail ("\x7b\"Error\":\"Failed to get state for " ++ a1 ++ "\"\x7d"))
        | Except.ok valAsbytes => (w, Outcome.ok valAsbytes)
    else if fcn = "findLatest" then
      match tl with
      | [] => (w, Outcome.crash)
      | seller :: _ =>
        match GetState w minimalTxStr with
        | Except.error _ =>
          (w, Outcome.fail ("\x7b\"Error\":\"Failed to get state for " ++ seller ++ "\"\x7d"))
        | Except.ok txAsbytes =>
          let trans : AllTx := unmarshal decAllTx txAsbytes {}
          let processed : AllTx := { TXs := findLatestLoop seller (elems trans.TXs) none }
          (w, Outcome.ok (some (marshalAllTx processed)))
    else (w, Outcome.ok none)

/-- The loop of `Delete` over the index: at the first entry equal to `id` the
entries before it and after it are joined and the loop ends. -/
def deleteLoop (id : String) (pointIndex : List String) : Nat → List String → List String
  | _, [] => pointIndex
  | i, val :: rest =>
    if val = id then pointIndex.take i ++ pointIndex.drop (i + 1)
    else deleteLoop id pointIndex (i + 1) rest

/-- Delete removes a key from the ledger and its first entry from the index. -/
def Delete (w : World) (args : List String) : World × Outcome :=
  match args with
  | [id] =>
    match DelState w id with
    | (w1, some _) => (w1, Outcome.fail "Failed to delete state")
    | (w1, none) =>
      match GetState w1 pointIndexStr with
      | Except.error _ => (w1, Outcome.fail "Failed to get marble index")
      | Except.ok pointAsBytes =>
        let pointIndex : Option (List String) :=
          unmarshal (decSlice decString "") pointAsBytes none
        let pointIndex : Option (List String) :=
          match pointIndex with
          | none => none
          | some xs => some (deleteLoop id xs 0 xs)
        ((PutState w1 pointIndexStr (marshalStrings pointIndex)).1, Outcome.ok none)
  | _ => (w, Outcome.fail "Incorrect number of arguments. Expecting 1")

/-- Write stores a value under a key. -/
def Write (w : World) (args : List String) : World × Outcome :=
  match args with
  | [name, value] =>
    match PutState w name value with
    | (w1, some e) => (w1, Outcome.fail e)
    | (w1, none) => (w1, Outcome.ok none)
  | _ =>
    (w, Outcome.fail
      "Incorrect number of arguments. Expecting 2. name of the variable and value to set")

/-- Create a new point and list it in the index (`init_point`). -/
def init_point (w : World) (args : List String) : World × Outcome :=
  match args with
  | [a0, a1] =>
    if a0.length ≤ 0 then (w, Outcome.fail "1st argument must be a non-empty string")
    else if a1.length ≤ 0 then (w, Outcome.fail "2nd argument must be a non-empty string")
    else
      let id := a0
      let owner := toLower w a1
      match GetState w id with
      | Except.error _ => (w, Outcome.fail "Failed to get point id")
      | Except.ok pointAsBytes =>
        let res : Point := unmarshal decPoint pointAsBytes {}
        if res.Id = id then (w, Outcome.fail "This point arleady exists")
        else
          let str := "\x7b\"id\": \"" ++ id ++ "\", \"owner\": \"" ++ owner ++ "\"\x7d"
          match PutState w id str with
          | (w1, some e) => (w1, Outcome.fail e)
          | (w1, none) =>
            match GetState w1 pointIndexStr with
            | Except.error _ => (w1, Outcome.fail "Failed to get marble index")
            | Except.ok pointAsByte =>
              let pointIndex : Option (List String) :=
                unmarshal (decSlice decString "") pointAsByte none
              let pointIndex := goAppend pointIndex id
              ((PutState w1 pointIndexStr (marshalStrings pointIndex)).1, Outcome.ok none)
  | _ => (w, Outcome.fail "Incorrect number of arguments. Expecting 2")

/-- Append a transaction to the log (`init_transaction`). -/
def init_transaction (w : World) (args : List String) : World × Outcome :=
  if args.length < 3 then
    (w, Outcome.fail "Incorrect number of arguments. Expecting like 4?")
  else
    match args with
    | a0 :: a1 :: a2 :: a3 :: a4 :: _ =>
      let open_ : Transaction :=
        { Id := a0, Timestamp := w.now, TraderA := a1, TraderB := a2, PointA := a3,
          PointB := a4 }
      let w1 := (PutState w "_debug1" (marshalTransaction open_)).1
      match GetState w1 minimalTxStr with
      | Except.error _ => (w1, Outcome.fail "Failed to get TXs")
      | Except.ok tradesAsBytes =>
        let trades : AllTx := unmarshal decAllTx tradesAsBytes {}
        let trades : AllTx := { trades with TXs := goAppend trades.TXs open_ }
        match PutState w1 minimalTxStr (marshalAllTx trades) with
        | (w2, some e) => (w2, Outcome.fail e)
        | (w2, none) => (w2, Outcome.ok none)
    | _ => (w, Outcome.crash)

/-- Change the owner of a point (`set_user`). -/
def set_user (w : World) (args : List String) : World × Outcome :=
  match args with
  | a0 :: a1 :: _ =>
    match GetState w a0 with
    | Except.error _ => (w, Outcome.fail "Failed to get thing")
    | Except.ok pointAsBytes =>
      let res : Point := unmarshal decPoint pointAsBytes {}
      let res : Point := { res with Owner := a1 }
      match PutState w a0 (marshalPoint res) with
      | (w1, some e) => (w1, Outcome.fail e)
      | (w1, none) => (w1, Outcome.ok none)
  | _ => (w, Outcome.fail "Incorrect number of arguments. Expecting 2")

/-- The function `test`: reads the scratch index and returns nothing. -/
def test (w : World) (args : List String) : World × Outcome :=
  match args with
  | _ :: _ :: _ =>
    match GetState w tmpStr with
    | Except.error _ => (w, Outcome.fail "Failed to get TXs")
    | Except.ok _ => (w, Outcome.ok none)
  | _ => (w, Outcome.fail "Incorrect number of arguments. Expecting 2")

/-- The loop of `findPointWithOwner`: `k` iterations are left, `i` is the loop
variable, `pointIndex` the current value of the slice variable.  The second
component is the early return of the loop body, if it made one. -/
def findLoop (owner : String) : Nat → Nat → World → List String → World × Option Outcome
  | 0, _, w, _ => (w, none)
  | k + 1, i, w, pointIndex =>
    match pointIndex[i]? with
    | none => (w, some Outcome.crash)
    | some key =>
      match GetState w key with
      | Except.error _ => (w, some (Outcome.fail "Failed to get marble"))
      | Except.ok pointAsBytes =>
        let res : Point := unmarshal decPoint pointAsBytes {}
        if toLower w res.Owner = toLower w owner then
          match GetState w w.tmpRelatedPoint with
          | Except.error _ => (w, some (Outcome.fail "Failed to get marble index"))
          | Except.ok pointAsByte =>
            let w1 := { w with tmpRelatedPoint := unmarshal decString pointAsByte w.tmpRelatedPoint }
            let pointIndex1 := pointIndex ++ [res.Id]
            let w2 := (PutState w1 w1.tmpRelatedPoint (marshalStrings (some pointIndex1))).1
            findLoop owner k (i + 1) w2 pointIndex1
        else findLoop owner k (i + 1) w pointIndex

/-- Look for the points of an owner (`findPointWithOwner`). -/
def findPointWithOwner (w : World) (args : List String) : World × Outcome :=
  match args with
  | [] => (w, Outcome.crash)
  | owner :: _ =>
    match GetState w pointIndexStr with
    | Except.error _ => (w, Outcome.fail "Failed to get marble index")
    | Except.ok pointAsBytes =>
      let pointIndex : Option (List String) :=
        unmarshal (decSlice decString "") pointAsBytes none
      let pointRelated : Option (List String) := none
      match findLoop owner (elems pointIndex).length 0 w (elems pointIndex) with
      | (w1, some out) => (w1, out)
      | (w1, none) =>
        if pointRelated = none then (w1, Outcome.ok (some "success"))
        else (w1, Outcome.fail "Did not find marble to use in this trade")

/-- Invoke, the entry point for invocations, dispatches on the function name. -/
def Invoke (w : World) (function : String) (args : List String) : World × Outcome :=
  if function = "init" then Init w "init" args
  else if function = "delete" then Delete w args
  else if function = "write" then Write w args
  else if function = "init_point" then init_point w args
  else if function = "set_user" then set_user w args
  else if function = "findPointWithOwner" then findPointWithOwner w args
  else if function = "test" then test w args
  else if function = "init_transaction" then init_transaction w args
  else (w, Outcome.fail "Received unknown function invocation")

/-- Run, the legacy entry point, forwards to `Invoke`. -/
def Run (w : World) (function : String) (args : List String) : World × Outcome :=
  Invoke w function args

/-- Query, the entry point for queries, knows the function `read` only. -/
def Query (w : World) (function : String) (args : List String) : World × Outcome :=
  if function = "read" then read w args
  else (w, Outcome.fail "Received unknown function query")

/-! ## Notions the properties are stated with -/

/-- No ledger call fails. -/
def healthy (w : World) : Prop :=
  ∀ k, w.getErr k = none ∧ w.putErr k = none ∧ w.delErr k = none

/-- The index as the chaincode reads it: the stored value under the index key
decoded into a nil `[]string`. -/
def indexSlice (w : World) : Option (List String) :=
  unmarshal (decSlice decString "") (w.kv pointIndexStr) none

/-- Identifiers listed in the index. -/
def index (w : World) : List String := elems (indexSlice w)

/-- The asset record stored under a key, as the chaincode reads it: the stored
value decoded into a zero `Point`. -/
def record (w : World) (k : String) : Point := unmarshal decPoint (w.kv k) {}

/-- A key holds a live asset record: it has a value, and the value decodes to a
point carrying the key as its id (the test `init_point` makes for existence). -/
def live (w : World) (k : String) : Prop := (w.kv k).isSome = true ∧ (record w k).Id = k

instance (w : World) (k : String) : Decidable (live w k) := by
  unfold live; exact inferInstance

/-- The index invariant: no identifier is listed twice, and the identifiers listed
are exactly the keys that hold a live asset record. -/
def IndexInv (w : World) : Prop :=
  (index w).Nodup ∧ ∀ k, k ∈ index w ↔ live w k

/-- A character a JSON string can hold as it is: no quote, no backslash, no
control character. -/
def plainChar (c : Char) : Bool := c ≠ '"' && c ≠ '\\' && decide (0x20 ≤ c.toNat)

/-- A string of characters that need no escaping inside a JSON string. -/
def jsonPlain (s : String) : Prop := s.data.all plainChar = true

instance (s : String) : Decidable (jsonPlain s) := by
  unfold jsonPlain; exact inferInstance

/-- A registry call: creation (`init_point`) or deletion (`Delete`), with its
argument list. -/
inductive Call where
  | create (args : List String)
  | delete (args : List String)

/-- World after one registry call. -/
def step (w : World) : Call → World
  | Call.create args => (init_point w args).1
  | Call.delete args => (Delete w args).1

/-- World after a sequence of registry calls. -/
def run (w : World) : List Call → World
  | [] => w
  | c :: cs => run (step w c) cs

/-- Calls that stay clear of the index key and whose creation arguments need no
escaping inside a JSON string (the owner after lower-casing). -/
def admissible (w : World) : Call → Prop
  | Call.create args =>
    ∀ id owner, args = [id, owner] →
      id ≠ pointIndexStr ∧ jsonPlain id ∧ jsonPlain (toLower w owner)
  | Call.delete args => args ≠ [pointIndexStr]

/-- A world with an empty ledger in which no ledger call fails; the rune mapping
is the ASCII one. -/
def blank : World :=
  { kv := fun _ => none, tmpRelatedPoint := tmpRelatedPointInit, getErr := fun _ => none,
    putErr := fun _ => none, delErr := fun _ => none, now := "2016-08-01 00:00:00 +0000 UTC",
    lowerRune := Char.toLower }

/-- The freshly initialised state: `Init` run on the empty ledger. -/
def fresh : World := (Init blank "init" ["0"]).1

/-- The scenario state: two points created on the fresh ledger. -/
def twoPoints : World :=
  run fresh [Call.create ["p1", "alice"], Call.create ["p2", "bob"]]

/-- The transaction log as the chaincode reads it: the stored value under the log
key decoded into a zero `AllTx`. -/
def log (w : World) : List Transaction :=
  elems (unmarshal decAllTx (w.kv minimalTxStr) {}).TXs

/-- The transaction `init_transaction` builds from five arguments at the time
`now`. -/
def newTransaction (now id traderA traderB assetA assetB : String) : Transaction :=
  { Id := id, Timestamp := now, TraderA := traderA, TraderB := traderB, PointA := assetA,
    PointB := assetB, Related := none }

/-- The scenario state: one transaction appended on the fresh ledger. -/
def oneTx : World :=
  (init_transaction fresh ["order-bob-1", "bob", "alice", "p2", "p1"]).1

/-- The fresh ledger with a store whose put under the index key fails. -/
def indexPutFails : World :=
  { fresh with putErr := fun k => if k = pointIndexStr then some "ledger unavailable" else none }

/-- The two-point scenario with a store whose put under the index key fails. -/
def twoPointsPutFails : World :=
  { twoPoints with
    putErr := fun k => if k = pointIndexStr then some "ledger unavailable" else none }

/-- The scratch slot leaves the key variable `tmpRelatedPoint` alone: decoding the
value under the key it names into the variable does not change the variable (the
value is no JSON string, or the string is the key itself). -/
def scratchStable (w : World) : Prop :=
  unmarshal decString (w.kv w.tmpRelatedPoint) w.tmpRelatedPoint = w.tmpRelatedPoint

instance (w : World) : Decidable (scratchStable w) := by
  unfold scratchStable; exact inferInstance

/-- The fresh ledger with a point created under the key of the scratch slot. -/
def scratchAsset : World := (init_point fresh [tmpRelatedPointInit, "bob"]).1

/-- The two-point scenario after a raw write that puts a JSON string, the index key,
into the scratch slot. -/
def scratchString : World := (Write twoPoints [tmpRelatedPointInit, "\"_pointindex\""]).1

/-- A call that may change the ledger, one of the five named functions with its
argument list. -/
inductive Op where
  | create (args : List String)
  | setOwner (args : List String)
  | delete (args : List String)
  | query (args : List String)
  | append (args : List String)

/-- World after a call. -/
def perform (w : World) : Op → World
  | Op.create args => (init_point w args).1
  | Op.setOwner args => (set_user w args).1
  | Op.delete args => (Delete w args).1
  | Op.query args => (findPointWithOwner w args).1
  | Op.append args => (init_transaction w args).1

/-- Calls that stay clear of the log key: the id of a creation, change of owner or
deletion is not the log key, and a query runs while the key variable does not name
the log key and the scratch slot leaves the variable alone. -/
def sparesLog (w : World) : Op → Prop
  | Op.create args => args.head? ≠ some minimalTxStr
  | Op.setOwner args => args.head? ≠ some minimalTxStr
  | Op.delete args => args.head? ≠ some minimalTxStr
  | Op.query _ => w.tmpRelatedPoint ≠ minimalTxStr ∧ scratchStable w
  | Op.append _ => True

instance (w : World) (op : Op) : Decidable (sparesLog w op) := by
  cases op <;> unfold sparesLog <;> exact inferInstance

/-- The fresh ledger after a raw write that puts a one-entry index under the index
key: `p1` is listed while the key `p1` holds nothing. -/
def listedOnly : World := (Write fresh [pointIndexStr, "[\"p1\"]"]).1

/-- The keys `Init` writes, in the order of the writes; the third is the key the
variable `tmpRelatedPoint` names at the time of the call. -/
def resetKeys (w : World) : List String :=
  ["abc", pointIndexStr, w.tmpRelatedPoint, tmpStr, transectionStr, minimalTxStr]

/-- The fresh ledger after a raw write that puts a point record under the index
key, the record carrying the index key as its id. -/
def indexKeyRecord : World :=
  (Write fresh [pointIndexStr, "\x7b\"id\":\"_pointindex\",\"owner\":\"x\"\x7d"]).1

/-! ## The codec: parsing undoes rendering -/

theorem hexVal_hexDigit : ∀ k, k < 16 → hexVal (hexDigit k) = some k := by decide

theorem hex4_low (n : Nat) (h : n < 256) :
    hex4 '0' '0' (hexDigit (n / 16)) (hexDigit (n % 16)) = some n := by
  have h1 := hexVal_hexDigit (n / 16) (by omega)
  have h2 := hexVal_hexDigit (n % 16) (by omega)
  have h0 : hexVal '0' = some 0 := by decide
  simp only [hex4, h0, h1, h2]
  congr 1
  omega

theorem scanString_cons (p : Option Nat) (c : Char) (rest : List Char) :
    scanString p (c :: rest) =
    if c = '"' then some (flushSurrogate p, rest)
    else if c = '\\' then
      match rest with
      | [] => none
      | e :: r =>
        if e = 'u' then
          match r with
          | a :: b :: x :: y :: r2 =>
            match hex4 a b x y with
            | none => none
            | some v =>
              if 0xD800 ≤ v ∧ v < 0xDC00 then
                emit (flushSurrogate p) (scanString (some v) r2)
              else if 0xDC00 ≤ v ∧ v < 0xE000 then
                match p with
                | some hi =>
                  emit [Char.ofNat (0x10000 + (hi - 0xD800) * 0x400 + (v - 0xDC00))]
                    (scanString none r2)
                | none => emit [replacementChar] (scanString none r2)
              else emit (flushSurrogate p ++ [Char.ofNat v]) (scanString none r2)
          | _ => none
        else
          match unescape e with
          | none => none
          | some x => emit (flushSurrogate p ++ [x]) (scanString none r)
    else if c.toNat < 0x20 then none
    else emit (flushSurrogate p ++ [c]) (scanString none rest) := by
  rw [scanString.eq_def]

/-- A character that a JSON string holds literally: no quote, no backslash, no
control character. -/
theorem scanString_literal (c : Char) (tail : List Char)
    (h1 : c ≠ '"') (h2 : c ≠ '\\') (h3 : 0x20 ≤ c.toNat) :
    scanString none (c :: tail) = emit [c] (scanString none tail) := by
  rw [scanString_cons]
  simp [h1, h2, flushSurrogate, Nat.not_lt.mpr h3]

/-- Scanning the escaped form of one character yields that character. -/
theorem scanString_escapeChar (c : Char) (tail : List Char) :
    scanString none (escapeChar c ++ tail) = emit [c] (scanString none tail) := by
  unfold escapeChar
  split_ifs with h1 h2 h3 h4 h5 h6 h7
  · subst h1; rw [List.cons_append, scanString_cons]; simp [unescape, flushSurrogate]
  · subst h2; rw [List.cons_append, scanString_cons]; simp [unescape, flushSurrogate]
  · subst h3; rw [List.cons_append, scanString_cons]; simp [unescape, flushSurrogate]
  · subst h4; rw [List.cons_append, scanString_cons]; simp [unescape, flushSurrogate]
  · subst h5; rw [List.cons_append, scanString_cons]; simp [unescape, flushSurrogate]
  · have hlt : c.toNat < 256 := by
      rcases h6 with h | h | h | h
      · omega
      · subst h; decide
      · subst h; decide
      · subst h; decide
    have hh := hex4_low c.toNat hlt
    rw [List.cons_append, scanString_cons]
    simp only [List.cons_append, List.nil_append]
    simp [hh, flushSurrogate, Char.ofNat_toNat]
    rw [if_neg, if_neg] <;> omega
  · have hh : hex4 '2' '0' '2' (hexDigit (c.toNat % 16)) = some c.toNat := by
      rcases h7 with h | h <;> rw [h] <;> decide
    rw [List.cons_append, scanString_cons]
    simp only [List.cons_append, List.nil_append]
    simp [hh, flushSurrogate, Char.ofNat_toNat]
    have : c.toNat < 55296 := by rcases h7 with h | h <;> omega
    rw [if_neg, if_neg] <;> omega
  · have h3 : 0x20 ≤ c.toNat := by
      by_contra hc
      exact h6 (Or.inl (by omega))
    simpa using scanString_literal c tail h1 h2 h3

/-- Scanning a rendered string body up to its closing quote returns the text. -/
theorem scanString_escapeAll (s rest : List Char) :
    scanString none (escapeAll s ++ '"' :: rest) = some (s, rest) := by
  induction s with
  | nil => simp [escapeAll, scanString_cons, flushSurrogate]
  | cons c cs ih =>
    simp only [escapeAll, List.append_assoc]
    rw [scanString_escapeChar, ih]
    rfl

theorem skipWs_cons (c : Char) (cs : List Char) (h : isWs c = false) :
    skipWs (c :: cs) = c :: cs := by
  simp [skipWs, h]

/-- A rendered document starts with a character that is neither whitespace nor a
closing bracket. -/
theorem render_head (j : Json) (h : j.noNum = true) :
    ∃ c t, render j = c :: t ∧ isWs c = false ∧ c ≠ ']' ∧ c ≠ '}' := by
  cases j with
  | null => exact ⟨'n', ['u', 'l', 'l'], rfl, by decide, by decide, by decide⟩
  | bool b =>
    cases b
    · exact ⟨'f', ['a', 'l', 's', 'e'], rfl, by decide, by decide, by decide⟩
    · exact ⟨'t', ['r', 'u', 'e'], rfl, by decide, by decide, by decide⟩
  | num raw => simp [Json.noNum] at h
  | str s => exact ⟨'"', escapeAll s ++ ['"'], by simp [render, quote], by decide, by decide, by decide⟩
  | arr xs => exact ⟨'[', renderElems xs, by simp [render], by decide, by decide, by decide⟩
  | obj kvs => exact ⟨'{', renderMembers kvs, by simp [render], by decide, by decide, by decide⟩

theorem parseValue_succ (n : Nat) (c : Char) (rest : List Char) :
    parseValue (n + 1) (c :: rest) =
      if c = '"' then
        match scanString none rest with
        | some (s, r) => some (Json.str s, r)
        | none => none
      else if c = '[' then
        match skipWs rest with
        | [] => none
        | d :: r =>
          if d = ']' then some (Json.arr [], r)
          else
            match parseElems n (d :: r) with
            | some (vs, r2) => some (Json.arr vs, r2)
            | none => none
      else if c = '{' then
        match skipWs rest with
        | [] => none
        | d :: r =>
          if d = '}' then some (Json.obj [], r)
          else
            match parseMembers n (d :: r) with
            | some (kvs, r2) => some (Json.obj kvs, r2)
            | none => none
      else if c = 'n' then
        match expect ['u', 'l', 'l'] rest with
        | some r => some (Json.null, r)
        | none => none
      else if c = 't' then
        match expect ['r', 'u', 'e'] rest with
        | some r => some (Json.bool true, r)
        | none => none
      else if c = 'f' then
        match expect ['a', 'l', 's', 'e'] rest with
        | some r => some (Json.bool false, r)
        | none => none
      else if c = '-' || isDigit c then
        match scanNumber (c :: rest) with
        | some (raw, r) => some (Json.num raw, r)
        | none => none
      else none := by
  rw [parseValue.eq_def]

theorem parseElems_succ (n : Nat) (cs : List Char) :
    parseElems (n + 1) cs =
      match parseValue n cs with
      | none => none
      | some (v, r) =>
        match skipWs r with
        | [] => none
        | d :: r2 =>
          if d = ',' then
            match parseElems n (skipWs r2) with
            | some (vs, r3) => some (v :: vs, r3)
            | none => none
          else if d = ']' then some ([v], r2)
          else none := by
  rw [parseElems.eq_def]

theorem parseMembers_succ (n : Nat) (q : Char) (r0 : List Char) :
    parseMembers (n + 1) (q :: r0) =
      if q = '"' then
        match scanString none r0 with
        | none => none
        | some (k, r1) =>
          match skipWs r1 with
          | [] => none
          | col :: r2 =>
            if col = ':' then
              match parseValue n (skipWs r2) with
              | none => none
              | some (v, r3) =>
                match skipWs r3 with
                | [] => none
                | d :: r4 =>
                  if d = ',' then
                    match parseMembers n (skipWs r4) with
                    | some (kvs, r5) => some ((k, v) :: kvs, r5)
                    | none => none
                  else if d = '}' then some ([(k, v)], r4)
                  else none
            else none
      else none := by
  rw [parseMembers.eq_def]

theorem renderElems_head (x : Json) (r : List Json) (h : x.noNum = true) :
    ∃ c t, renderElems (x :: r) = c :: t ∧ isWs c = false ∧ c ≠ ']' := by
  obtain ⟨c, t, e, hw, hb, _⟩ := render_head x h
  cases r with
  | nil => exact ⟨c, t ++ [']'], by simp [renderElems, e], hw, hb⟩
  | cons y r2 => exact ⟨c, t ++ ',' :: renderElems (y :: r2), by simp [renderElems, e], hw, hb⟩

theorem renderMembers_head (k : List Char) (v : Json) (r : List (List Char × Json)) :
    renderMembers ((k, v) :: r) = '"' :: (escapeAll k ++ '"' :: ':' ::
      (render v ++ (match r with
        | [] => ['}']
        | y :: r2 => ',' :: renderMembers (y :: r2)))) := by
  cases r with
  | nil => simp [renderMembers, quote]
  | cons y r2 => simp [renderMembers, quote]

theorem skipWs_renderMembers (k : List Char) (v : Json) (r : List (List Char × Json))
    (rest : List Char) :
    skipWs (renderMembers ((k, v) :: r) ++ rest) = renderMembers ((k, v) :: r) ++ rest := by
  rw [renderMembers_head, List.cons_append]
  exact skipWs_cons _ _ (by decide)

mutual
/-- Parsing the rendering of a number-free document returns the document and
leaves the rest of the input, for every sufficient bound on the parser calls. -/
theorem parseValue_render (j : Json) (n : Nat) (rest : List Char)
    (hn : j.need ≤ n) (hj : j.noNum = true) :
    parseValue n (render j ++ rest) = some (j, rest) := by
  obtain ⟨m, rfl⟩ : ∃ m, n = m + 1 := by
    cases n with
    | zero => cases j <;> simp [Json.need] at hn
    | succ m => exact ⟨m, rfl⟩
  cases j with
  | null => simp [render, parseValue_succ, expect]
  | bool b => cases b <;> simp [render, parseValue_succ, expect]
  | num raw => simp [Json.noNum] at hj
  | str s =>
    simp only [render, quote, List.cons_append, List.append_assoc, parseValue_succ]
    simp [scanString_escapeAll]
  | arr xs =>
    cases xs with
    | nil => simp [render, renderElems, parseValue_succ, skipWs, isWs]
    | cons x r =>
      have h1 : needElems (x :: r) ≤ m := by simp [Json.need] at hn; omega
      have h2 : noNumElems (x :: r) = true := by simpa [Json.noNum] using hj
      have h3 := parseElems_render (x :: r) m rest h1 h2 (by simp)
      have hx : x.noNum = true := by simp [noNumElems] at h2; exact h2.1
      obtain ⟨c, t, e, hw, hb⟩ := renderElems_head x r hx
      rw [e, List.cons_append] at h3
      simp only [render, List.cons_append, parseValue_succ, e]
      rw [skipWs_cons c _ hw]
      simp [hb, h3]
  | obj kvs =>
    cases kvs with
    | nil => simp [render, renderMembers, parseValue_succ, skipWs, isWs]
    | cons kv r =>
      obtain ⟨k, v⟩ := kv
      have h1 : needMembers ((k, v) :: r) ≤ m := by simp [Json.need] at hn; omega
      have h2 : noNumMembers ((k, v) :: r) = true := by simpa [Json.noNum] using hj
      have h3 := parseMembers_render ((k, v) :: r) m rest h1 h2 (by simp)
      rw [renderMembers_head] at h3
      simp only [List.cons_append, List.append_assoc] at h3
      simp only [render, List.cons_append, List.append_assoc, parseValue_succ, renderMembers_head]
      rw [skipWs_cons '"' _ (by decide)]
      simp [h3]
theorem parseElems_render (xs : List Json) (n : Nat) (rest : List Char)
    (hn : needElems xs ≤ n) (hj : noNumElems xs = true) (hne : xs ≠ []) :
    parseElems n (renderElems xs ++ rest) = some (xs, rest) := by
  cases xs with
  | nil => exact absurd rfl hne
  | cons x r =>
    obtain ⟨m, rfl⟩ : ∃ m, n = m + 1 := by
      cases n with
      | zero => simp [needElems] at hn
      | succ m => exact ⟨m, rfl⟩
    have hx : x.noNum = true := by simp [noNumElems] at hj; exact hj.1
    have hnx : x.need ≤ m := by simp [needElems] at hn; omega
    cases r with
    | nil =>
      have h3 := parseValue_render x m (']' :: rest) hnx hx
      simp [renderElems, parseElems_succ, h3, skipWs, isWs]
    | cons y r2 =>
      have hr : noNumElems (y :: r2) = true := by simp [noNumElems] at hj ⊢; exact hj.2
      have hnr : needElems (y :: r2) ≤ m := by simp [needElems] at hn ⊢; omega
      have h3 := parseValue_render x m (',' :: (renderElems (y :: r2) ++ rest)) hnx hx
      have h4 := parseElems_render (y :: r2) m rest hnr hr (by simp)
      have hy : y.noNum = true := by simp [noNumElems] at hr; exact hr.1
      obtain ⟨c, t, e, hw, hb⟩ := renderElems_head y r2 hy
      rw [e, List.cons_append] at h4
      simp only [renderElems, List.append_assoc, List.cons_append, parseElems_succ, h3]
      rw [skipWs_cons ',' _ (by decide)]
      simp only [e, List.cons_append]
      rw [skipWs_cons c _ hw]
      simp [h4]
theorem parseMembers_render (kvs : List (List Char × Json)) (n : Nat) (rest : List Char)
    (hn : needMembers kvs ≤ n) (hj : noNumMembers kvs = true) (hne : kvs ≠ []) :
    parseMembers n (renderMembers kvs ++ rest) = some (kvs, rest) := by
  cases kvs with
  | nil => exact absurd rfl hne
  | cons kv r =>
    obtain ⟨k, v⟩ := kv
    obtain ⟨m, rfl⟩ : ∃ m, n = m + 1 := by
      cases n with
      | zero => simp [needMembers] at hn
      | succ m => exact ⟨m, rfl⟩
    have hv : v.noNum = true := by simp [noNumMembers] at hj; exact hj.1
    have hnv : v.need ≤ m := by simp [needMembers] at hn; omega
    obtain ⟨c, t, e, hw, _, _⟩ := render_head v hv
    cases r with
    | nil =>
      have h3 := parseValue_render v m ('}' :: rest) hnv hv
      rw [e, List.cons_append] at h3
      simp only [renderMembers, quote, List.cons_append, List.append_assoc, parseMembers_succ,
        scanString_escapeAll, e, List.nil_append, if_true]
      rw [skipWs_cons ':' _ (by decide)]
      simp only [if_true]
      rw [skipWs_cons c _ hw]
      simp [h3, skipWs, isWs]
    | cons y r2 =>
      obtain ⟨k2, v2⟩ := y
      have hr : noNumMembers ((k2, v2) :: r2) = true := by
        simp [noNumMembers] at hj ⊢; exact hj.2
      have hnr : needMembers ((k2, v2) :: r2) ≤ m := by simp [needMembers] at hn ⊢; omega
      have h3 := parseValue_render v m (',' :: (renderMembers ((k2, v2) :: r2) ++ rest)) hnv hv
      have h4 := parseMembers_render ((k2, v2) :: r2) m rest hnr hr (by simp)
      rw [e, List.cons_append] at h3
      simp only [renderMembers, quote, List.cons_append, List.append_assoc, parseMembers_succ,
        scanString_escapeAll, e, List.nil_append, if_true]
      rw [skipWs_cons ':' _ (by decide)]
      simp only [if_true]
      rw [skipWs_cons c _ hw]
      simp only [h3]
      rw [skipWs_cons ',' _ (by decide)]
      simp only [if_true]
      rw [skipWs_renderMembers, h4]
end

mutual
theorem need_le_length (j : Json) (h : j.noNum = true) : j.need ≤ (render j).length := by
  cases j with
  | null => simp [Json.need, render]
  | bool b => cases b <;> simp [Json.need, render]
  | num raw => simp [Json.noNum] at h
  | str s => simp [Json.need, render, quote]
  | arr xs =>
    have h2 : noNumElems xs = true := by simpa [Json.noNum] using h
    have := needElems_le_length xs h2
    simp [Json.need, render]; omega
  | obj kvs =>
    have h2 : noNumMembers kvs = true := by simpa [Json.noNum] using h
    have := needMembers_le_length kvs h2
    simp [Json.need, render]; omega
theorem needElems_le_length (xs : List Json) (h : noNumElems xs = true) :
    needElems xs ≤ (renderElems xs).length := by
  cases xs with
  | nil => simp [needElems]
  | cons x r =>
    have hx : x.noNum = true := by simp [noNumElems] at h; exact h.1
    have hr : noNumElems r = true := by simp [noNumElems] at h; exact h.2
    have h1 := need_le_length x hx
    have h2 := needElems_le_length r hr
    cases r with
    | nil => simp [needElems, renderElems]; omega
    | cons y r2 => simp only [needElems, renderElems, List.length_append, List.length_cons] at h2 ⊢; omega
theorem needMembers_le_length (kvs : List (List Char × Json)) (h : noNumMembers kvs = true) :
    needMembers kvs ≤ (renderMembers kvs).length := by
  cases kvs with
  | nil => simp [needMembers]
  | cons kv r =>
    obtain ⟨k, v⟩ := kv
    have hv : v.noNum = true := by simp [noNumMembers] at h; exact h.1
    have hr : noNumMembers r = true := by simp [noNumMembers] at h; exact h.2
    have h1 := need_le_length v hv
    have h2 := needMembers_le_length r hr
    cases r with
    | nil => simp [needMembers, renderMembers]; omega
    | cons y r2 =>
      simp only [needMembers, renderMembers, List.length_append, List.length_cons] at h2 ⊢
      omega
end

theorem skipWs_render (j : Json) (h : j.noNum = true) (rest : List Char) :
    skipWs (render j ++ rest) = render j ++ rest := by
  obtain ⟨c, t, e, hw, _, _⟩ := render_head j h
  rw [e, List.cons_append]
  exact skipWs_cons _ _ hw

/-- Parsing a rendered number-free document gives the document back. -/
theorem parseJson_render (j : Json) (h : j.noNum = true) : parseJson (render j) = some j := by
  unfold parseJson
  have h1 := skipWs_render j h []
  rw [List.append_nil] at h1
  have h2 := parseValue_render j (2 * (render j).length + 2) [] (by
    have := need_le_length j h; omega) h
  rw [List.append_nil] at h2
  rw [h1, h2]
  rfl

/-! ## Round trips of the Go values -/

theorem noNumElems_encString (xs : List String) : noNumElems (xs.map encString) = true := by
  induction xs with
  | nil => rfl
  | cons x r ih => simp [noNumElems, encString, Json.noNum, ih]

theorem noNum_encStrings (v : Option (List String)) : (encSlice encString v).noNum = true := by
  cases v with
  | none => rfl
  | some xs => simpa [encSlice, Json.noNum] using noNumElems_encString xs

theorem noNum_encPoint (p : Point) : (encPoint p).noNum = true := by
  simp [encPoint, Json.noNum, noNumMembers, encString]

theorem decElems_encString (xs : List String) :
    decElems decString "" (xs.map encString) [] = xs := by
  induction xs with
  | nil => rfl
  | cons x r ih => simp [decElems, ih, decString, encString]

/-- Decoding a marshalled string slice gives the slice back, nil as nil. -/
theorem unmarshal_marshalStrings (v : Option (List String)) :
    unmarshal (decSlice decString "") (some (marshalStrings v)) none = v := by
  simp only [unmarshal, marshalStrings, parseJson_render _ (noNum_encStrings v)]
  cases v with
  | none => rfl
  | some xs => simp [encSlice, decSlice, elems, decElems_encString]

theorem decPoint_encPoint (p cur : Point) : decPoint (encPoint p) cur = p := by
  have h1 : sameField "id".data "id" = true := by decide
  have h2 : sameField "owner".data "id" = false := by decide
  have h3 : sameField "owner".data "owner" = true := by decide
  simp [decPoint, encPoint, decPointMember, h1, h2, h3, decString, encString]

/-- Decoding a marshalled point gives the point back, whatever was there before. -/
theorem unmarshal_marshalPoint (p cur : Point) :
    unmarshal decPoint (some (marshalPoint p)) cur = p := by
  simp only [unmarshal, marshalPoint, parseJson_render _ (noNum_encPoint p)]
  exact decPoint_encPoint p cur

/-- A marshalled string slice does not decode as a point: the struct stays as it is. -/
theorem unmarshal_point_of_strings (v : Option (List String)) (cur : Point) :
    unmarshal decPoint (some (marshalStrings v)) cur = cur := by
  simp only [unmarshal, marshalStrings, parseJson_render _ (noNum_encStrings v)]
  cases v <;> rfl

/-- A plain text is scanned literally up to the closing quote. -/
theorem scanString_plain (s rest : List Char) (h : s.all plainChar = true) :
    scanString none (s ++ '"' :: rest) = some (s, rest) := by
  induction s with
  | nil => simp [scanString_cons, flushSurrogate]
  | cons c cs ih =>
    simp only [List.all_cons, Bool.and_eq_true] at h
    have hc := h.1
    simp only [plainChar, Bool.and_eq_true, decide_eq_true_eq, bne_iff_ne, ne_eq] at hc
    rw [List.cons_append, scanString_literal c _ (by simpa using hc.1.1) (by simpa using hc.1.2) hc.2, ih h.2]
    rfl

/-- The record text `init_point` builds by concatenation parses to an object with
the two fields, provided both texts are plain. -/
theorem parseJson_record (id owner : String) (h1 : jsonPlain id) (h2 : jsonPlain owner) :
    parseJson ("\x7b\"id\": \"" ++ id ++ "\", \"owner\": \"" ++ owner ++ "\"\x7d").data
      = some (Json.obj [("id".data, Json.str id.data), ("owner".data, Json.str owner.data)]) := by
  have e1 : ("\x7b\"id\": \"" : String).data = ['{', '"', 'i', 'd', '"', ':', ' ', '"'] := rfl
  have e2 : ("\", \"owner\": \"" : String).data
      = ['"', ',', ' ', '"', 'o', 'w', 'n', 'e', 'r', '"', ':', ' ', '"'] := rfl
  have e3 : ("\"\x7d" : String).data = ['"', '}'] := rfl
  have e4 : ("id" : String).data = ['i', 'd'] := rfl
  have e5 : ("owner" : String).data = ['o', 'w', 'n', 'e', 'r'] := rfl
  have s1 : ∀ rest, scanString none ('i' :: 'd' :: '"' :: rest) = some (['i', 'd'], rest) :=
    fun rest => scanString_plain ['i', 'd'] rest (by decide)
  have s2 : ∀ rest, scanString none ('o' :: 'w' :: 'n' :: 'e' :: 'r' :: '"' :: rest)
      = some (['o', 'w', 'n', 'e', 'r'], rest) :=
    fun rest => scanString_plain ['o', 'w', 'n', 'e', 'r'] rest (by decide)
  have s3 := fun rest => scanString_plain id.data rest h1
  have s4 := fun rest => scanString_plain owner.data rest h2
  simp only [String.data_append, e1, e2, e3, e4, e5, List.cons_append, List.nil_append,
    List.append_assoc]
  unfold parseJson
  obtain ⟨k, hk⟩ : ∃ k, 2 * ('{' :: '"' :: 'i' :: 'd' :: '"' :: ':' :: ' ' :: '"' :: (id.data ++
      '"' :: ',' :: ' ' :: '"' :: 'o' :: 'w' :: 'n' :: 'e' :: 'r' :: '"' :: ':' :: ' ' :: '"' ::
      (owner.data ++ ['"', '}']))).length + 2 = k + 4 := ⟨_, by simp; rfl⟩
  rw [hk]
  simp [parseValue_succ, parseMembers_succ, skipWs, isWs, s1, s2, s3, s4]

/-! ## The parser's bound is never the reason for a rejection -/

theorem skipWs_length (cs : List Char) : (skipWs cs).length ≤ cs.length := by
  induction cs with
  | nil => simp [skipWs]
  | cons c cs ih =>
    simp only [skipWs]
    split
    · simp only [List.length_cons]; omega
    · exact le_refl _

theorem emit_some {pre s r : List Char} {x : Option (List Char × List Char)}
    (h : emit pre x = some (s, r)) : ∃ s2, x = some (s2, r) := by
  cases x with
  | none => simp [emit] at h
  | some p =>
    obtain ⟨a, b⟩ := p
    simp only [emit, Option.some.injEq, Prod.mk.injEq] at h
    exact ⟨a, by rw [h.2]⟩

/-- Scanning a string consumes input. -/
theorem scanString_length (k : Nat) :
    ∀ (cs : List Char) (p : Option Nat) (s r : List Char), cs.length ≤ k →
      scanString p cs = some (s, r) → r.length < cs.length := by
  induction k with
  | zero =>
    intro cs p s r hk h
    have : cs = [] := List.length_eq_zero.mp (Nat.le_zero.mp hk)
    subst this
    simp [scanString] at h
  | succ k ih =>
    intro cs p s r hk h
    cases cs with
    | nil => simp [scanString] at h
    | cons c rest =>
      rw [scanString_cons] at h
      simp only [List.length_cons] at hk ⊢
      split_ifs at h with h1 h2 h3
      · simp only [Option.some.injEq, Prod.mk.injEq] at h
        rw [← h.2]; omega
      · have key : ∀ (pre : List Char) (q : Option Nat) (r2 : List Char), r2.length ≤ k →
            emit pre (scanString q r2) = some (s, r) → r.length < r2.length := by
          intro pre q r2 hr he
          obtain ⟨s2, h4⟩ := emit_some he
          exact ih r2 q s2 r hr h4
        cases rest with
        | nil => simp at h
        | cons e r2 =>
          simp only [List.length_cons] at hk ⊢
          simp only at h
          split_ifs at h with h5
          · match r2, h, hk with
            | [], h, _ => simp at h
            | [_], h, _ => simp at h
            | [_, _], h, _ => simp at h
            | [_, _, _], h, _ => simp at h
            | a :: b :: x :: y :: r3, h, hk =>
              simp only [List.length_cons] at hk ⊢
              simp only at h
              split at h
              · cases h
              · split_ifs at h
                · have := key _ _ r3 (by omega) h; omega
                · split at h
                  · have := key _ _ r3 (by omega) h; omega
                  · have := key _ _ r3 (by omega) h; omega
                · have := key _ _ r3 (by omega) h; omega
          · split at h
            · cases h
            · have := key _ _ r2 (by omega) h; omega
      · obtain ⟨s2, h4⟩ := emit_some h
        have := ih rest none s2 r (by omega) h4
        omega

theorem scanString_shrinks {cs : List Char} {p : Option Nat} {s r : List Char}
    (h : scanString p cs = some (s, r)) : r.length < cs.length :=
  scanString_length cs.length cs p s r (le_refl _) h

theorem expect_length (ls : List Char) :
    ∀ (cs r : List Char), expect ls cs = some r → r.length ≤ cs.length := by
  induction ls with
  | nil => intro cs r h; simp only [expect, Option.some.injEq] at h; rw [h]
  | cons l ls ih =>
    intro cs r h
    cases cs with
    | nil => simp [expect] at h
    | cons c cs =>
      simp only [expect] at h
      split_ifs at h
      have := ih cs r h
      simp only [List.length_cons]; omega

theorem scanNumber_shrinks {cs raw r : List Char} (h : scanNumber cs = some (raw, r)) :
    r.length < cs.length := by
  simp only [scanNumber] at h
  split_ifs at h with hv
  simp only [Option.some.injEq, Prod.mk.injEq] at h
  have hne : cs.takeWhile isNumChar ≠ [] := by
    intro e
    rw [e] at hv
    simp [validNumber] at hv
  have hlen : (cs.takeWhile isNumChar).length + (cs.dropWhile isNumChar).length = cs.length := by
    rw [← List.length_append, List.takeWhile_append_dropWhile]
  have hpos : 0 < (cs.takeWhile isNumChar).length := List.length_pos.mpr hne
  rw [← h.2]
  omega

/-- Every successful parser call consumes input. -/
theorem parse_shrinks (n : Nat) :
    (∀ cs v r, parseValue n cs = some (v, r) → r.length < cs.length) ∧
    (∀ cs vs r, parseElems n cs = some (vs, r) → r.length < cs.length) ∧
    (∀ cs kvs r, parseMembers n cs = some (kvs, r) → r.length < cs.length) := by
  induction n with
  | zero =>
    refine ⟨?_, ?_, ?_⟩ <;> intro cs v r h
    · simp [parseValue] at h
    · simp [parseElems] at h
    · simp [parseMembers] at h
  | succ n ih =>
    obtain ⟨ihv, ihe, ihm⟩ := ih
    refine ⟨?_, ?_, ?_⟩
    · intro cs v r h
      cases cs with
      | nil => simp [parseValue] at h
      | cons c rest =>
        rw [parseValue_succ] at h
        simp only [List.length_cons]
        split_ifs at h
        · split at h
          · next s r2 hs =>
            simp only [Option.some.injEq, Prod.mk.injEq] at h
            have := scanString_shrinks hs
            rw [← h.2]; omega
          · cases h
        · split at h
          · cases h
          · next d r2 hd =>
            have hl := skipWs_length rest
            rw [hd, List.length_cons] at hl
            split_ifs at h
            · simp only [Option.some.injEq, Prod.mk.injEq] at h
              rw [← h.2]; omega
            · split at h
              · next vs r3 he =>
                simp only [Option.some.injEq, Prod.mk.injEq] at h
                have := ihe _ _ _ he
                simp only [List.length_cons] at this
                rw [← h.2]; omega
              · cases h
        · split at h
          · cases h
          · next d r2 hd =>
            have hl := skipWs_length rest
            rw [hd, List.length_cons] at hl
            split_ifs at h
            · simp only [Option.some.injEq, Prod.mk.injEq] at h
              rw [← h.2]; omega
            · split at h
              · next vs r3 he =>
                simp only [Option.some.injEq, Prod.mk.injEq] at h
                have := ihm _ _ _ he
                simp only [List.length_cons] at this
                rw [← h.2]; omega
              · cases h
        · split at h
          · next r2 he =>
            simp only [Option.some.injEq, Prod.mk.injEq] at h
            have := expect_length _ _ _ he
            rw [← h.2]; omega
          · cases h
        · split at h
          · next r2 he =>
            simp only [Option.some.injEq, Prod.mk.injEq] at h
            have := expect_length _ _ _ he
            rw [← h.2]; omega
          · cases h
        · split at h
          · next r2 he =>
            simp only [Option.some.injEq, Prod.mk.injEq] at h
            have := expect_length _ _ _ he
            rw [← h.2]; omega
          · cases h
        · split at h
          · next raw r2 he =>
            simp only [Option.some.injEq, Prod.mk.injEq] at h
            have := scanNumber_shrinks he
            simp only [List.length_cons] at this
            rw [← h.2]; omega
          · cases h
    · intro cs vs r h
      rw [parseElems_succ] at h
      split at h
      · cases h
      · next v r1 hv =>
        have h1 := ihv _ _ _ hv
        split at h
        · cases h
        · next d r2 hd =>
          have hl := skipWs_length r1
          rw [hd, List.length_cons] at hl
          split_ifs at h
          · split at h
            · next vs2 r3 he =>
              simp only [Option.some.injEq, Prod.mk.injEq] at h
              have h2 := ihe _ _ _ he
              have h3 := skipWs_length r2
              rw [← h.2]; omega
            · cases h
          · simp only [Option.some.injEq, Prod.mk.injEq] at h
            rw [← h.2]; omega
    · intro cs kvs r h
      cases cs with
      | nil => simp [parseMembers] at h
      | cons q r0 =>
        rw [parseMembers_succ] at h
        simp only [List.length_cons]
        split_ifs at h
        split at h
        · cases h
        · next k r1 hk =>
          have h1 := scanString_shrinks hk
          split at h
          · cases h
          · next col r2 hc =>
            have hl := skipWs_length r1
            rw [hc, List.length_cons] at hl
            split_ifs at h
            split at h
            · cases h
            · next v r3 hv =>
              have h2 := ihv _ _ _ hv
              have h3 := skipWs_length r2
              split at h
              · cases h
              · next d r4 hd =>
                have hl2 := skipWs_length r3
                rw [hd, List.length_cons] at hl2
                split_ifs at h
                · split at h
                  · next kvs2 r5 hm =>
                    simp only [Option.some.injEq, Prod.mk.injEq] at h
                    have h4 := ihm _ _ _ hm
                    have h5 := skipWs_length r4
                    rw [← h.2]; omega
                  · cases h
                · simp only [Option.some.injEq, Prod.mk.injEq] at h
                  rw [← h.2]; omega

theorem parseValue_nil (n : Nat) : parseValue n [] = none := by
  cases n <;> simp [parseValue]

theorem parseElems_nil (n : Nat) : parseElems n [] = none := by
  cases n with
  | zero => simp [parseElems]
  | succ n => simp [parseElems_succ, parseValue_nil]

theorem parseMembers_nil (n : Nat) : parseMembers n [] = none := by
  cases n <;> simp [parseMembers]

/-- Above a bound that is linear in the length of the input the result of the parser
does not depend on the bound on its calls. -/
theorem parse_fuel (k : Nat) :
    (∀ cs n m, cs.length ≤ k → 2 * cs.length + 1 ≤ n → 2 * cs.length + 1 ≤ m →
      parseValue n cs = parseValue m cs) ∧
    (∀ cs n m, cs.length ≤ k → 2 * cs.length + 2 ≤ n → 2 * cs.length + 2 ≤ m →
      parseElems n cs = parseElems m cs) ∧
    (∀ cs n m, cs.length ≤ k → 2 * cs.length + 2 ≤ n → 2 * cs.length + 2 ≤ m →
      parseMembers n cs = parseMembers m cs) := by
  induction k with
  | zero =>
    refine ⟨?_, ?_, ?_⟩ <;> intro cs n m hk _ _
    all_goals
      have : cs = [] := List.length_eq_zero.mp (Nat.le_zero.mp hk)
      subst this
    · rw [parseValue_nil, parseValue_nil]
    · rw [parseElems_nil, parseElems_nil]
    · rw [parseMembers_nil, parseMembers_nil]
  | succ k ih =>
    obtain ⟨ihv, ihe, ihm⟩ := ih
    have hv : ∀ cs n m, cs.length ≤ k + 1 → 2 * cs.length + 1 ≤ n → 2 * cs.length + 1 ≤ m →
        parseValue n cs = parseValue m cs := by
      intro cs n m hk hn hm
      cases cs with
      | nil => rw [parseValue_nil, parseValue_nil]
      | cons c rest =>
        simp only [List.length_cons] at hk hn hm
        obtain ⟨n, rfl⟩ : ∃ n2, n = n2 + 1 := ⟨n - 1, by omega⟩
        obtain ⟨m, rfl⟩ : ∃ m2, m = m2 + 1 := ⟨m - 1, by omega⟩
        rw [parseValue_succ, parseValue_succ]
        cases hsk : skipWs rest with
        | nil => rfl
        | cons d r =>
          have hl := skipWs_length rest
          rw [hsk, List.length_cons] at hl
          have e1 := ihe (d :: r) n m (by simp only [List.length_cons]; omega)
            (by simp only [List.length_cons]; omega) (by simp only [List.length_cons]; omega)
          have e2 := ihm (d :: r) n m (by simp only [List.length_cons]; omega)
            (by simp only [List.length_cons]; omega) (by simp only [List.length_cons]; omega)
          simp only [e1, e2]
    refine ⟨hv, ?_, ?_⟩
    · intro cs n m hk hn hm
      obtain ⟨n, rfl⟩ : ∃ n2, n = n2 + 1 := ⟨n - 1, by omega⟩
      obtain ⟨m, rfl⟩ : ∃ m2, m = m2 + 1 := ⟨m - 1, by omega⟩
      rw [parseElems_succ, parseElems_succ, hv cs n m hk (by omega) (by omega)]
      cases hp : parseValue m cs with
      | none => rfl
      | some p =>
        obtain ⟨v, r⟩ := p
        have h1 := (parse_shrinks m).1 _ _ _ hp
        dsimp only
        cases hsk : skipWs r with
        | nil => rfl
        | cons d r2 =>
          have hl := skipWs_length r
          rw [hsk, List.length_cons] at hl
          have hl2 := skipWs_length r2
          have e1 := ihe (skipWs r2) n m (by omega) (by omega) (by omega)
          simp only [e1]
    · intro cs n m hk hn hm
      cases cs with
      | nil => rw [parseMembers_nil, parseMembers_nil]
      | cons q r0 =>
        simp only [List.length_cons] at hk hn hm
        obtain ⟨n, rfl⟩ : ∃ n2, n = n2 + 1 := ⟨n - 1, by omega⟩
        obtain ⟨m, rfl⟩ : ∃ m2, m = m2 + 1 := ⟨m - 1, by omega⟩
        rw [parseMembers_succ, parseMembers_succ]
        cases hs : scanString none r0 with
        | none => rfl
        | some p =>
          obtain ⟨key, r1⟩ := p
          have h1 := scanString_shrinks hs
          dsimp only
          cases hsk : skipWs r1 with
          | nil => rfl
          | cons col r2 =>
            have hl := skipWs_length r1
            rw [hsk, List.length_cons] at hl
            have hl2 := skipWs_length r2
            have e1 := hv (skipWs r2) n m (by omega) (by omega) (by omega)
            simp only [e1]
            cases hp : parseValue m (skipWs r2) with
            | none => rfl
            | some p2 =>
              obtain ⟨v, r3⟩ := p2
              have h2 := (parse_shrinks m).1 _ _ _ hp
              dsimp only
              cases hsk2 : skipWs r3 with
              | nil => rfl
              | cons d r4 =>
                have hl3 := skipWs_length r3
                rw [hsk2, List.length_cons] at hl3
                have hl4 := skipWs_length r4
                have e2 := ihm (skipWs r4) n m (by omega) (by omega) (by omega)
                simp only [e2]

/-- The bound `parseJson` passes to the parser is large enough: any larger bound
gives the same result, so a text is never rejected for want of parser calls. -/
theorem parseJson_bound (cs : List Char) (n : Nat) (hn : 2 * cs.length + 2 ≤ n) :
    parseValue n (skipWs cs) = parseValue (2 * cs.length + 2) (skipWs cs) := by
  have hl := skipWs_length cs
  exact (parse_fuel (skipWs cs).length).1 (skipWs cs) n _ (le_refl _) (by omega) (by omega)

/-! ## The ledger stub -/

theorem GetState_healthy {w : World} (hw : healthy w) (k : String) :
    GetState w k = Except.ok (w.kv k) := by
  simp [GetState, (hw k).1]

theorem PutState_healthy {w : World} (hw : healthy w) (k v : String) :
    PutState w k v
      = ({ w with kv := fun x => if x = k then some v else w.kv x }, none) := by
  simp [PutState, (hw k).2.1]

theorem DelState_healthy {w : World} (hw : healthy w) (k : String) :
    DelState w k = ({ w with kv := fun x => if x = k then none else w.kv x }, none) := by
  simp [DelState, (hw k).2.2]

theorem healthy_kv {w : World} (hw : healthy w) (f : String → Option String) :
    healthy { w with kv := f } := hw

theorem healthy_tmp {w : World} (hw : healthy w) (t : String) :
    healthy { w with tmpRelatedPoint := t } := hw

theorem healthy_PutState {w : World} (hw : healthy w) (k v : String) :
    healthy (PutState w k v).1 := by
  rw [PutState_healthy hw]; exact hw

/-! ## Deletion -/

/-- The loop of `Delete` removes the first entry equal to `id`, if there is one. -/
theorem deleteLoop_spec (id : String) (pre rest : List String) :
    deleteLoop id (pre ++ rest) pre.length rest = pre ++ rest.erase id := by
  induction rest generalizing pre with
  | nil => simp [deleteLoop]
  | cons val rest ih =>
    by_cases h : val = id
    · subst h
      simp [deleteLoop, List.take_append_eq_append_take, List.drop_append_eq_append_drop]
    · have := ih (pre ++ [val])
      simp only [List.append_assoc, List.singleton_append, List.length_append,
        List.length_singleton] at this
      simp [deleteLoop, h, this, List.erase_cons]

theorem deleteLoop_erase (id : String) (xs : List String) :
    deleteLoop id xs 0 xs = xs.erase id := by
  simpa using deleteLoop_spec id [] xs

/-- What `Delete` does when no ledger call fails. -/
theorem Delete_healthy {w : World} (hw : healthy w) (id : String) :
    Delete w [id] =
      ({ w with kv := fun x =>
          if x = pointIndexStr then
            some (marshalStrings
              (match unmarshal (decSlice decString "")
                  (if pointIndexStr = id then none else w.kv pointIndexStr) none with
               | none => none
               | some xs => some (xs.erase id)))
          else if x = id then none else w.kv x }, Outcome.ok none) := by
  simp only [Delete, DelState_healthy hw, GetState_healthy (healthy_kv hw _),
    PutState_healthy (healthy_kv hw _), deleteLoop_erase]

theorem healthy_blank : healthy blank := fun _ => ⟨rfl, rfl, rfl⟩

theorem healthy_fresh : healthy fresh := fun _ => ⟨rfl, rfl, rfl⟩

theorem healthy_twoPoints : healthy twoPoints := fun _ => ⟨rfl, rfl, rfl⟩

theorem index_Delete {w : World} (hw : healthy w) (id : String) (hid : id ≠ pointIndexStr) :
    index (Delete w [id]).1 = (index w).erase id := by
  have hne : ¬ pointIndexStr = id := fun h => hid h.symm
  simp only [Delete_healthy hw, index, indexSlice, if_pos, if_neg hne, unmarshal_marshalStrings]
  cases unmarshal (decSlice decString "") (w.kv pointIndexStr) none <;> simp [elems]

/-- Effect of a deletion under an id other than the index key, on a working
ledger. -/
theorem Delete_effect (w : World) (id : String) (hw : healthy w)
    (hid : id ≠ pointIndexStr) :
    (Delete w [id]).2 = Outcome.ok none ∧
    (Delete w [id]).1.kv id = none ∧
    index (Delete w [id]).1 = (index w).erase id ∧
    ∀ k, k ≠ id → k ≠ pointIndexStr → (Delete w [id]).1.kv k = w.kv k := by
  refine ⟨?_, ?_, index_Delete hw id hid, ?_⟩
  · rw [Delete_healthy hw]
  · rw [Delete_healthy hw]; simp [hid]
  · intro k h1 h2
    rw [Delete_healthy hw]; simp [h1, h2]

/-- C4 (amended): for every world in which no ledger call fails and every id other
than the index key, `Delete(id)` succeeds, leaves no value under the key `id`, turns
the index into the old index with only its first entry equal to `id` removed (every
other entry, later duplicates included, kept in order), and leaves every other key
as it was. -/
theorem Delete_postcondition (w : World) (id : String) (hw : healthy w)
    (hid : id ≠ pointIndexStr) :
    (Delete w [id]).2 = Outcome.ok none ∧
    (Delete w [id]).1.kv id = none ∧
    index (Delete w [id]).1 = (index w).erase id ∧
    ∀ k, k ≠ id → k ≠ pointIndexStr → (Delete w [id]).1.kv k = w.kv k :=
  Delete_effect w id hw hid

/-- Witness of C4 (amended): deleting `p1` from the two-point scenario. -/
theorem Delete_postcondition_witness :
    healthy twoPoints ∧ "p1" ≠ pointIndexStr ∧
    ((Delete twoPoints ["p1"]).2 = Outcome.ok none ∧
     (Delete twoPoints ["p1"]).1.kv "p1" = none ∧
     index (Delete twoPoints ["p1"]).1 = (index twoPoints).erase "p1" ∧
     ∀ k, k ≠ "p1" → k ≠ pointIndexStr → (Delete twoPoints ["p1"]).1.kv k = twoPoints.kv k) :=
  ⟨healthy_twoPoints, by decide, Delete_postcondition twoPoints "p1" healthy_twoPoints (by decide)⟩

/-- C4 as stated fails for the index key: `Delete("_pointindex")` on the two-point
scenario succeeds, but the key then holds the text `null` instead of nothing, and the
index is emptied although no entry equals the id. -/
theorem Delete_index_key_counterexample :
    (Delete twoPoints [pointIndexStr]).2 = Outcome.ok none ∧
    (Delete twoPoints [pointIndexStr]).1.kv pointIndexStr = some "null" ∧
    index twoPoints = ["p1", "p2"] ∧
    index (Delete twoPoints [pointIndexStr]).1 = [] := by
  decide

/-- C5 (amended): `read` in mode `read` returns whatever the ledger holds under the
key, a missing key giving a successful empty result; it fails only when the ledger's
get fails, and the world is unchanged. -/
theorem read_raw (w : World) (key : String) (rest : List String) :
    read w ("read" :: key :: rest) =
      (w, match w.getErr key with
          | some _ =>
            Outcome.fail ("\x7b\"Error\":\"Failed to get state for " ++ key ++ "\"\x7d")
          | none => Outcome.ok (w.kv key)) := by
  simp only [read, GetState, if_true]
  cases w.getErr key <;> rfl

/-- C5 as stated fails: in the scenario Create(p1), Create(p2), Delete(p1) the key
`p1` holds nothing, the index is `[p2]`, and Read(p1) succeeds with a nil payload
instead of failing. -/
theorem read_missing_counterexample :
    (Delete twoPoints ["p1"]).1.kv "p1" = none ∧
    index (Delete twoPoints ["p1"]).1 = ["p2"] ∧
    (read (Delete twoPoints ["p1"]).1 ["read", "p1"]).2 = Outcome.ok none := by
  decide

/-- Effect of deleting an id that holds no value and is not listed, on a working
ledger: the index key is rewritten with the encoding of the decoded index, every
other key is left alone. -/
theorem Delete_absent_effect (w : World) (id : String) (hw : healthy w)
    (hrec : w.kv id = none) (hidx : id ∉ index w) :
    (Delete w [id]).2 = Outcome.ok none ∧
    (Delete w [id]).1.kv pointIndexStr = some (marshalStrings (indexSlice w)) ∧
    ∀ k, k ≠ pointIndexStr → (Delete w [id]).1.kv k = w.kv k := by
  have hkv : (if pointIndexStr = id then none else w.kv pointIndexStr) = w.kv pointIndexStr := by
    split
    · next h => rw [h, hrec]
    · rfl
  refine ⟨?_, ?_, ?_⟩
  · rw [Delete_healthy hw]
  · rw [Delete_healthy hw]
    simp only [↓reduceIte, hkv]
    have hm : id ∉ elems (unmarshal (decSlice decString "") (w.kv pointIndexStr) none) := hidx
    simp only [indexSlice]
    cases h : unmarshal (decSlice decString "") (w.kv pointIndexStr) none with
    | none => rfl
    | some xs =>
      rw [h] at hm
      simp only [elems] at hm
      simp [List.erase_of_not_mem hm]
  · intro k hk
    rw [Delete_healthy hw]
    simp only [if_neg hk]
    split
    · next h => rw [h, hrec]
    · rfl

/-- Two worlds that differ in the ledger at most are equal when their ledgers hold
the same value under every key. -/
theorem world_ext {w1 w2 : World} (hkv : ∀ k, w1.kv k = w2.kv k)
    (h1 : w1.tmpRelatedPoint = w2.tmpRelatedPoint) (h2 : w1.getErr = w2.getErr)
    (h3 : w1.putErr = w2.putErr) (h4 : w1.delErr = w2.delErr) (h5 : w1.now = w2.now)
    (h6 : w1.lowerRune = w2.lowerRune) : w1 = w2 := by
  cases w1
  cases w2
  simp only [World.mk.injEq]
  exact ⟨funext hkv, h1, h2, h3, h4, h5, h6⟩

/-- C6 (amended): for every world in which no ledger call fails and every id that
has no value stored and does not occur in the index, `Delete(id)` succeeds, the
decoded index after the call equals the decoded index before it, and every key
other than the index key holds what it held before.  The index key is rewritten
with the encoding of the decoded index: the call changes nothing at all when that
key held such an encoding, and when that key held no live record every live record
is left as it was and stays live. -/
theorem Delete_absent (w : World) (id : String) (hw : healthy w)
    (hrec : w.kv id = none) (hidx : id ∉ index w) :
    (Delete w [id]).2 = Outcome.ok none ∧
    index (Delete w [id]).1 = index w ∧
    indexSlice (Delete w [id]).1 = indexSlice w ∧
    (∀ k, k ≠ pointIndexStr → (Delete w [id]).1.kv k = w.kv k) ∧
    (Delete w [id]).1.kv pointIndexStr = some (marshalStrings (indexSlice w)) ∧
    (∀ v, w.kv pointIndexStr = some (marshalStrings v) → (Delete w [id]).1 = w) ∧
    (¬ live w pointIndexStr → ∀ k, live w k →
      (Delete w [id]).1.kv k = w.kv k ∧ live (Delete w [id]).1 k) := by
  obtain ⟨hok, hkey, hframe⟩ := Delete_absent_effect w id hw hrec hidx
  have hs : indexSlice (Delete w [id]).1 = indexSlice w := by
    rw [indexSlice, hkey, unmarshal_marshalStrings]
  refine ⟨hok, by simp only [index, hs], hs, hframe, hkey, ?_, ?_⟩
  · intro v hv
    have hkv : ∀ k, (Delete w [id]).1.kv k = w.kv k := by
      intro k
      by_cases hk : k = pointIndexStr
      · rw [hk, hkey, hv, indexSlice, hv, unmarshal_marshalStrings]
      · exact hframe k hk
    apply world_ext hkv <;> rw [Delete_healthy hw]
  · intro hnl k hl
    have hk : k ≠ pointIndexStr := fun e => hnl (e ▸ hl)
    refine ⟨hframe k hk, ?_⟩
    simp only [live, record, hframe k hk]
    exact hl

/-- Witness of C6 (amended): deleting an id that was never created from the
two-point scenario, whose index key holds the encoding of `[p1, p2]`. -/
theorem Delete_absent_witness :
    healthy twoPoints ∧ twoPoints.kv "p9" = none ∧ "p9" ∉ index twoPoints ∧
    twoPoints.kv pointIndexStr = some (marshalStrings (some ["p1", "p2"])) ∧
    ((Delete twoPoints ["p9"]).2 = Outcome.ok none ∧
     index (Delete twoPoints ["p9"]).1 = index twoPoints ∧
     indexSlice (Delete twoPoints ["p9"]).1 = indexSlice twoPoints ∧
     (∀ k, k ≠ pointIndexStr → (Delete twoPoints ["p9"]).1.kv k = twoPoints.kv k) ∧
     (Delete twoPoints ["p9"]).1.kv pointIndexStr
       = some (marshalStrings (indexSlice twoPoints)) ∧
     (∀ v, twoPoints.kv pointIndexStr = some (marshalStrings v) →
       (Delete twoPoints ["p9"]).1 = twoPoints) ∧
     (¬ live twoPoints pointIndexStr → ∀ k, live twoPoints k →
       (Delete twoPoints ["p9"]).1.kv k = twoPoints.kv k ∧
       live (Delete twoPoints ["p9"]).1 k)) :=
  ⟨healthy_twoPoints, by decide, by decide, by decide,
    Delete_absent twoPoints "p9" healthy_twoPoints (by decide) (by decide)⟩

/-- C6 as stated fails when the index key holds an asset record: on the ledger
whose index key holds a live record (it carries the index key as its id, and the
index decodes to no entries), `p9` has no value and is not listed, `Delete(p9)`
succeeds and rewrites the index key to `null`; the record is gone. -/
theorem Delete_absent_counterexample :
    healthy indexKeyRecord ∧ indexKeyRecord.kv "p9" = none ∧ "p9" ∉ index indexKeyRecord ∧
    live indexKeyRecord pointIndexStr ∧
    record indexKeyRecord pointIndexStr = { Id := pointIndexStr, Owner := "x" } ∧
    (Delete indexKeyRecord ["p9"]).2 = Outcome.ok none ∧
    index (Delete indexKeyRecord ["p9"]).1 = index indexKeyRecord ∧
    (Delete indexKeyRecord ["p9"]).1.kv pointIndexStr = some "null" ∧
    record (Delete indexKeyRecord ["p9"]).1 pointIndexStr = {} ∧
    ¬ live (Delete indexKeyRecord ["p9"]).1 pointIndexStr := by
  refine ⟨fun _ => ⟨rfl, rfl, rfl⟩, ?_, ?_, ?_, ?_, ?_, ?_, ?_, ?_, ?_⟩ <;> decide

/-- The same through the asset functions alone: after `set_user("_pointindex",
carol)` in the two-point scenario the index key holds a record with the owner
`carol`; `zz` has no value and is not listed, and `Delete(zz)` rewrites the index key
to `null`. -/
theorem Delete_absent_after_set_user :
    (set_user twoPoints [pointIndexStr, "carol"]).1.kv "zz" = none ∧
    "zz" ∉ index (set_user twoPoints [pointIndexStr, "carol"]).1 ∧
    record (set_user twoPoints [pointIndexStr, "carol"]).1 pointIndexStr
      = { Id := "", Owner := "carol" } ∧
    (Delete (set_user twoPoints [pointIndexStr, "carol"]).1 ["zz"]).2 = Outcome.ok none ∧
    (Delete (set_user twoPoints [pointIndexStr, "carol"]).1 ["zz"]).1.kv pointIndexStr
      = some "null" := by
  refine ⟨?_, ?_, ?_, ?_, ?_⟩ <;> decide

/-! ## Change of owner -/

/-- What `set_user` does when no ledger call fails: the record under the id is
rewritten with the new owner. -/
theorem set_user_healthy {w : World} (hw : healthy w) (id newOwner : String)
    (rest : List String) :
    set_user w (id :: newOwner :: rest) =
      ({ w with kv := fun x =>
          if x = id then some (marshalPoint { record w id with Owner := newOwner })
          else w.kv x }, Outcome.ok none) := by
  simp only [set_user, GetState_healthy hw, PutState_healthy hw, record]

/-- C7 (amended): for every world in which no ledger call fails and every id whose
key is absent or holds a value that does not decode to a point with an id,
`set_user(id, newOwner)` does not fail: it returns success and stores under `id` the
record with the empty id and the new owner. -/
theorem set_user_missing (w : World) (id newOwner : String) (hw : healthy w)
    (hrec : (record w id).Id = "") :
    (set_user w [id, newOwner]).2 = Outcome.ok none ∧
    (set_user w [id, newOwner]).1.kv id
      = some (marshalPoint { Id := "", Owner := newOwner }) ∧
    record (set_user w [id, newOwner]).1 id = { Id := "", Owner := newOwner } := by
  have e : Point.mk (record w id).Id newOwner = Point.mk "" newOwner := by rw [hrec]
  rw [set_user_healthy hw]
  refine ⟨rfl, ?_, ?_⟩
  · simp only [↓reduceIte, e]
  · simp only [record, ↓reduceIte, unmarshal_marshalPoint]
    exact e

/-- Witness of C7 (amended): changing the owner of an id that was never created. -/
theorem set_user_missing_witness :
    healthy twoPoints ∧ (record twoPoints "ghost").Id = "" ∧
    ((set_user twoPoints ["ghost", "carol"]).2 = Outcome.ok none ∧
     (set_user twoPoints ["ghost", "carol"]).1.kv "ghost"
       = some (marshalPoint { Id := "", Owner := "carol" }) ∧
     record (set_user twoPoints ["ghost", "carol"]).1 "ghost"
       = { Id := "", Owner := "carol" }) :=
  ⟨healthy_twoPoints, by decide,
    set_user_missing twoPoints "ghost" "carol" healthy_twoPoints (by decide)⟩

/-- C7 as stated fails: `set_user` on a key that holds nothing returns success and
creates a record under the key. -/
theorem set_user_missing_counterexample :
    twoPoints.kv "ghost" = none ∧
    (set_user twoPoints ["ghost", "carol"]).2 = Outcome.ok none ∧
    (set_user twoPoints ["ghost", "carol"]).1.kv "ghost"
      = some "\x7b\"id\":\"\",\"owner\":\"carol\"\x7d" := by
  decide

/-- C8 (amended): for every world in which no ledger call fails, every id and every
new owner, `set_user(id, newOwner)` succeeds, the record under `id` afterwards is
the old one with only the owner replaced (the id field kept), and every other key
holds what it held before; hence the stored index is untouched for every id other
than the index key, the log for every id other than the log key, and the variable
`tmpRelatedPoint` always. -/
theorem set_user_frame (w : World) (id newOwner : String) (hw : healthy w) :
    (set_user w [id, newOwner]).2 = Outcome.ok none ∧
    record (set_user w [id, newOwner]).1 id = { record w id with Owner := newOwner } ∧
    (∀ k, k ≠ id → (set_user w [id, newOwner]).1.kv k = w.kv k) ∧
    (id ≠ pointIndexStr →
      (set_user w [id, newOwner]).1.kv pointIndexStr = w.kv pointIndexStr ∧
      index (set_user w [id, newOwner]).1 = index w) ∧
    (id ≠ minimalTxStr →
      (set_user w [id, newOwner]).1.kv minimalTxStr = w.kv minimalTxStr) ∧
    (set_user w [id, newOwner]).1.tmpRelatedPoint = w.tmpRelatedPoint := by
  rw [set_user_healthy hw]
  refine ⟨rfl, ?_, ?_, ?_, ?_, rfl⟩
  · simp [record, unmarshal_marshalPoint]
  · intro k hk; simp [hk]
  · intro h
    have h2 : ¬ pointIndexStr = id := fun e => h e.symm
    simp [index, indexSlice, h2]
  · intro h
    have h2 : ¬ minimalTxStr = id := fun e => h e.symm
    simp [h2]

/-- Witness of C8 (amended): a change of owner in the two-point scenario. -/
theorem set_user_frame_witness :
    healthy twoPoints ∧
    ((set_user twoPoints ["p1", "carol"]).2 = Outcome.ok none ∧
     record (set_user twoPoints ["p1", "carol"]).1 "p1"
       = { record twoPoints "p1" with Owner := "carol" } ∧
     (∀ k, k ≠ "p1" → (set_user twoPoints ["p1", "carol"]).1.kv k = twoPoints.kv k) ∧
     ("p1" ≠ pointIndexStr →
       (set_user twoPoints ["p1", "carol"]).1.kv pointIndexStr = twoPoints.kv pointIndexStr ∧
       index (set_user twoPoints ["p1", "carol"]).1 = index twoPoints) ∧
     ("p1" ≠ minimalTxStr →
       (set_user twoPoints ["p1", "carol"]).1.kv minimalTxStr = twoPoints.kv minimalTxStr) ∧
     (set_user twoPoints ["p1", "carol"]).1.tmpRelatedPoint = twoPoints.tmpRelatedPoint) :=
  ⟨healthy_twoPoints, set_user_frame twoPoints "p1" "carol" healthy_twoPoints⟩

/-- C8 as stated fails for the index key: `set_user("_pointindex", x)` replaces the
stored index by a point record, after which the index decodes to the empty list. -/
theorem set_user_index_key_counterexample :
    index twoPoints = ["p1", "p2"] ∧
    (set_user twoPoints [pointIndexStr, "carol"]).2 = Outcome.ok none ∧
    (set_user twoPoints [pointIndexStr, "carol"]).1.kv pointIndexStr
      = some "\x7b\"id\":\"\",\"owner\":\"carol\"\x7d" ∧
    index (set_user twoPoints [pointIndexStr, "carol"]).1 = [] := by
  decide

/-- C9, the code at the failing input: after Create(a1, Bob) and
SetOwner(a1, ALICE) the stored owner is `ALICE`, which is not its own lower-case
form `alice`; `init_point` lower-cases the owner, `set_user` does not. -/
theorem set_user_keeps_case :
    (record (init_point fresh ["a1", "Bob"]).1 "a1").Owner = "bob" ∧
    (record (set_user (init_point fresh ["a1", "Bob"]).1 ["a1", "ALICE"]).1 "a1").Owner
      = "ALICE" ∧
    toLower fresh "ALICE" = "alice" := by
  decide

/-! ## The ownership query -/

/-- The loop of `findPointWithOwner` never returns early when no ledger call fails
and the loop variable stays inside the slice. -/
theorem findLoop_healthy (owner : String) (k : Nat) :
    ∀ (i : Nat) (w : World) (pointIndex : List String), healthy w →
      i + k ≤ pointIndex.length → (findLoop owner k i w pointIndex).2 = none := by
  induction k with
  | zero => intro i w p _ _; rfl
  | succ k ih =>
    intro i w p hw hlen
    have hi : i < p.length := by omega
    simp only [findLoop, List.getElem?_eq_getElem hi, GetState_healthy hw]
    split
    · apply ih
      · exact healthy_PutState (healthy_tmp hw _) _ _
      · simp; omega
    · exact ih _ _ _ hw (by omega)

/-- With a working ledger `findPointWithOwner` reports success whatever the owner
is and whatever the ledger holds: the list its final test looks at is never
assigned. -/
theorem findPointWithOwner_always_success (w : World) (owner : String) (rest : List String)
    (hw : healthy w) :
    (findPointWithOwner w (owner :: rest)).2 = Outcome.ok (some "success") := by
  simp only [findPointWithOwner, GetState_healthy hw]
  have h := findLoop_healthy owner (index w).length 0 w (index w) hw (by omega)
  simp only [index, indexSlice] at h
  split
  · next w1 out heq =>
    rw [heq] at h
    cases h
  · rfl

/-- C10, the code at the failing input: after Create(a1, Bob) and
SetOwner(a1, ALICE) no record is owned by `bob`, and the query for `bob` returns
success all the same (as does the query for `alice`). -/
theorem findPointWithOwner_no_match_succeeds :
    index (set_user (init_point fresh ["a1", "Bob"]).1 ["a1", "ALICE"]).1 = ["a1"] ∧
    (record (set_user (init_point fresh ["a1", "Bob"]).1 ["a1", "ALICE"]).1 "a1").Owner
      = "ALICE" ∧
    (findPointWithOwner (set_user (init_point fresh ["a1", "Bob"]).1 ["a1", "ALICE"]).1
      ["bob"]).2 = Outcome.ok (some "success") ∧
    (findPointWithOwner (set_user (init_point fresh ["a1", "Bob"]).1 ["a1", "ALICE"]).1
      ["alice"]).2 = Outcome.ok (some "success") := by
  decide

/-! ## Creation -/

theorem length_le_zero_iff (s : String) : s.length ≤ 0 ↔ s = "" := by
  constructor
  · intro h
    have h0 : s.data.length = 0 := Nat.le_zero.mp h
    have h1 : s.data = [] := List.length_eq_zero.mp h0
    exact String.ext h1
  · intro h; subst h; decide

/-- The record text of `init_point` decodes to the point it was built from, provided
both texts are plain. -/
theorem unmarshal_record (id owner : String) (cur : Point) (h1 : jsonPlain id)
    (h2 : jsonPlain owner) :
    unmarshal decPoint
      (some ("\x7b\"id\": \"" ++ id ++ "\", \"owner\": \"" ++ owner ++ "\"\x7d")) cur
      = { Id := id, Owner := owner } := by
  simp only [unmarshal, parseJson_record id owner h1 h2]
  exact decPoint_encPoint { Id := id, Owner := owner } cur

/-- What `init_point` does when no ledger call fails, the arguments are not empty
and the existence test finds no point under the id. -/
theorem init_point_healthy {w : World} (hw : healthy w) (id owner : String)
    (hid : id ≠ "") (ho : owner ≠ "") (hnew : (record w id).Id ≠ id) :
    init_point w [id, owner] =
      ({ w with kv := fun x =>
          if x = pointIndexStr then
            some (marshalStrings (goAppend
              (unmarshal (decSlice decString "")
                (if pointIndexStr = id then
                  some ("\x7b\"id\": \"" ++ id ++ "\", \"owner\": \"" ++ toLower w owner ++ "\"\x7d")
                 else w.kv pointIndexStr) none) id))
          else if x = id then
            some ("\x7b\"id\": \"" ++ id ++ "\", \"owner\": \"" ++ toLower w owner ++ "\"\x7d")
          else w.kv x }, Outcome.ok none) := by
  have h1 : ¬ id.length ≤ 0 := fun h => hid ((length_le_zero_iff id).mp h)
  have h2 : ¬ owner.length ≤ 0 := fun h => ho ((length_le_zero_iff owner).mp h)
  have h3 : ¬ (unmarshal decPoint (w.kv id) {}).Id = id := hnew
  simp only [init_point, if_neg h1, if_neg h2, GetState_healthy hw, if_neg h3,
    PutState_healthy hw, GetState_healthy (healthy_kv hw _), PutState_healthy (healthy_kv hw _)]

/-- When the existence test of `init_point` finds the id, the call is rejected and
nothing changes. -/
theorem init_point_exists {w : World} (hw : healthy w) (id owner : String)
    (hid : id ≠ "") (ho : owner ≠ "") (hold : (record w id).Id = id) :
    init_point w [id, owner] = (w, Outcome.fail "This point arleady exists") := by
  have h1 : ¬ id.length ≤ 0 := fun h => hid ((length_le_zero_iff id).mp h)
  have h2 : ¬ owner.length ≤ 0 := fun h => ho ((length_le_zero_iff owner).mp h)
  have h3 : (unmarshal decPoint (w.kv id) {}).Id = id := hold
  simp only [init_point, if_neg h1, if_neg h2, GetState_healthy hw, if_pos h3]

/-- Effect of a creation that passes the existence test, on a working ledger. -/
theorem init_point_effect (w : World) (id owner : String) (hw : healthy w)
    (hid : id ≠ "") (ho : owner ≠ "") (hkey : id ≠ pointIndexStr)
    (hp1 : jsonPlain id) (hp2 : jsonPlain (toLower w owner))
    (hnew : (record w id).Id ≠ id) :
    (init_point w [id, owner]).2 = Outcome.ok none ∧
    record (init_point w [id, owner]).1 id = { Id := id, Owner := toLower w owner } ∧
    index (init_point w [id, owner]).1 = index w ++ [id] ∧
    ∀ k, k ≠ id → k ≠ pointIndexStr → (init_point w [id, owner]).1.kv k = w.kv k := by
  have hne : ¬ pointIndexStr = id := fun h => hkey h.symm
  rw [init_point_healthy hw id owner hid ho hnew]
  refine ⟨rfl, ?_, ?_, ?_⟩
  · simp only [record, if_neg hkey, ↓reduceIte]
    exact unmarshal_record id (toLower w owner) {} hp1 hp2
  · simp only [index, indexSlice, ↓reduceIte, if_neg hne, unmarshal_marshalStrings, goAppend, elems]
  · intro k h1 h2
    simp only [if_neg h1, if_neg h2]

/-- C3 (amended): for every world in which no ledger call fails, every non-empty id
other than the index key and every non-empty owner, the id and the lower-cased owner
free of characters that need escaping in JSON, such that the existence test finds no
point under `id`: `init_point(id, owner)` succeeds, the value under `id` then decodes
to the point with this id and the lower-cased owner, the index is the old index with
`id` appended at the end, and every other key holds what it held before. -/
theorem init_point_postcondition (w : World) (id owner : String) (hw : healthy w)
    (hid : id ≠ "") (ho : owner ≠ "") (hkey : id ≠ pointIndexStr)
    (hp1 : jsonPlain id) (hp2 : jsonPlain (toLower w owner))
    (hnew : (record w id).Id ≠ id) :
    (init_point w [id, owner]).2 = Outcome.ok none ∧
    record (init_point w [id, owner]).1 id = { Id := id, Owner := toLower w owner } ∧
    index (init_point w [id, owner]).1 = index w ++ [id] ∧
    ∀ k, k ≠ id → k ≠ pointIndexStr → (init_point w [id, owner]).1.kv k = w.kv k :=
  init_point_effect w id owner hw hid ho hkey hp1 hp2 hnew

/-- Witness of C3 (amended): creating `p3` in the two-point scenario. -/
theorem init_point_postcondition_witness :
    healthy twoPoints ∧ "p3" ≠ "" ∧ "Carol" ≠ "" ∧ "p3" ≠ pointIndexStr ∧
    jsonPlain "p3" ∧ jsonPlain (toLower twoPoints "Carol") ∧
    (record twoPoints "p3").Id ≠ "p3" ∧
    ((init_point twoPoints ["p3", "Carol"]).2 = Outcome.ok none ∧
     record (init_point twoPoints ["p3", "Carol"]).1 "p3"
       = { Id := "p3", Owner := toLower twoPoints "Carol" } ∧
     index (init_point twoPoints ["p3", "Carol"]).1 = index twoPoints ++ ["p3"] ∧
     ∀ k, k ≠ "p3" → k ≠ pointIndexStr →
       (init_point twoPoints ["p3", "Carol"]).1.kv k = twoPoints.kv k) :=
  ⟨healthy_twoPoints, by decide, by decide, by decide, by decide, by decide, by decide,
    init_point_postcondition twoPoints "p3" "Carol" healthy_twoPoints (by decide) (by decide)
      (by decide) (by decide) (by decide) (by decide)⟩

/-- C3 as stated fails for the index key: on the empty ledger nothing is stored
under `_pointindex`, `init_point("_pointindex", x)` succeeds, and afterwards the key
holds the index text, which does not decode to the point created. -/
theorem init_point_index_key_counterexample :
    blank.kv pointIndexStr = none ∧
    (init_point blank [pointIndexStr, "x"]).2 = Outcome.ok none ∧
    (init_point blank [pointIndexStr, "x"]).1.kv pointIndexStr = some "[\"_pointindex\"]" ∧
    record (init_point blank [pointIndexStr, "x"]).1 pointIndexStr
      ≠ { Id := pointIndexStr, Owner := "x" } := by
  decide

/-- C2 (amended): for every world in which no ledger call fails, every non-empty id
other than the index key and all non-empty owners, the id and the lower-cased first
owner free of characters that need escaping in JSON: when `init_point(id, owner)`
succeeds, a following `init_point(id, owner2)` fails with the already-exists error
and returns the world as it was, so that the record under `id` still has the first
owner and the index is the one the first call left. -/
theorem init_point_twice (w : World) (id owner owner2 : String) (hw : healthy w)
    (hid : id ≠ "") (ho : owner ≠ "") (ho2 : owner2 ≠ "") (hkey : id ≠ pointIndexStr)
    (hp1 : jsonPlain id) (hp2 : jsonPlain (toLower w owner))
    (hfirst : (init_point w [id, owner]).2 = Outcome.ok none) :
    init_point (init_point w [id, owner]).1 [id, owner2]
      = ((init_point w [id, owner]).1, Outcome.fail "This point arleady exists") ∧
    record (init_point w [id, owner]).1 id = { Id := id, Owner := toLower w owner } := by
  have hnew : (record w id).Id ≠ id := by
    intro hold
    rw [init_point_exists hw id owner hid ho hold] at hfirst
    cases hfirst
  have hpost := init_point_effect w id owner hw hid ho hkey hp1 hp2 hnew
  have hw1 : healthy (init_point w [id, owner]).1 := by
    rw [init_point_healthy hw id owner hid ho hnew]; exact hw
  refine ⟨?_, hpost.2.1⟩
  apply init_point_exists hw1 id owner2 hid ho2
  rw [hpost.2.1]

/-- Witness of C2 (amended): creating `p3` twice in the two-point scenario. -/
theorem init_point_twice_witness :
    healthy twoPoints ∧ "p3" ≠ "" ∧ "Carol" ≠ "" ∧ "Dave" ≠ "" ∧ "p3" ≠ pointIndexStr ∧
    jsonPlain "p3" ∧ jsonPlain (toLower twoPoints "Carol") ∧
    (init_point twoPoints ["p3", "Carol"]).2 = Outcome.ok none ∧
    (init_point (init_point twoPoints ["p3", "Carol"]).1 ["p3", "Dave"]
      = ((init_point twoPoints ["p3", "Carol"]).1, Outcome.fail "This point arleady exists") ∧
     record (init_point twoPoints ["p3", "Carol"]).1 "p3"
      = { Id := "p3", Owner := toLower twoPoints "Carol" }) :=
  ⟨healthy_twoPoints, by decide, by decide, by decide, by decide, by decide, by decide,
    by decide,
    init_point_twice twoPoints "p3" "Carol" "Dave" healthy_twoPoints (by decide) (by decide)
      (by decide) (by decide) (by decide) (by decide) (by decide)⟩

/-- C2 as stated fails for the index key: `init_point("_pointindex", x)` succeeds on
the fresh ledger, and the second creation under the same id succeeds as well instead
of failing, because the key then holds the index and no point. -/
theorem init_point_twice_counterexample :
    (init_point fresh [pointIndexStr, "x"]).2 = Outcome.ok none ∧
    (init_point (init_point fresh [pointIndexStr, "x"]).1 [pointIndexStr, "y"]).2
      = Outcome.ok none := by
  decide

/-- The record text is built by concatenation, without escaping: with a quote in the
owner the stored text is no JSON, the existence test does not see the point, a second
creation succeeds and the id is listed twice. -/
theorem init_point_unescaped_quote :
    (init_point fresh ["a", "x\"y"]).2 = Outcome.ok none ∧
    (init_point (init_point fresh ["a", "x\"y"]).1 ["a", "z"]).2 = Outcome.ok none ∧
    index (init_point (init_point fresh ["a", "x\"y"]).1 ["a", "z"]).1 = ["a", "a"] := by
  decide

/-! ## The index invariant -/

/-- Whether a key holds a live record depends on the value under that key only. -/
theorem live_congr {w1 w2 : World} {k : String} (h : w1.kv k = w2.kv k) :
    live w1 k ↔ live w2 k := by
  simp only [live, record, h]

/-- A key under which a marshalled index is stored holds no live record. -/
theorem not_live_of_strings {w : World} {k : String} (v : Option (List String))
    (h : w.kv k = some (marshalStrings v)) (hk : k ≠ "") : ¬ live w k := by
  intro hl
  have h2 := hl.2
  simp only [record, h, unmarshal_point_of_strings] at h2
  exact hk h2.symm

/-- When the index key holds a point, the index decodes to no entries. -/
theorem index_nil_of_live {w : World} (h : live w pointIndexStr) : index w = [] := by
  have h2 := h.2
  simp only [record, unmarshal] at h2
  simp only [index, indexSlice, unmarshal]
  cases hv : w.kv pointIndexStr with
  | none => rfl
  | some s =>
    rw [hv] at h2
    simp only at h2 ⊢
    cases hj : parseJson s.data with
    | none => rfl
    | some j =>
      rw [hj] at h2
      simp only at h2 ⊢
      cases j with
      | obj kvs => rfl
      | null => exact absurd h2 (by decide)
      | bool b => exact absurd (show "" = pointIndexStr from h2) (by decide)
      | num raw => exact absurd (show "" = pointIndexStr from h2) (by decide)
      | str s2 => exact absurd (show "" = pointIndexStr from h2) (by decide)
      | arr xs => exact absurd (show "" = pointIndexStr from h2) (by decide)

/-- Under the invariant the index key is not listed in the index. -/
theorem index_key_not_listed {w : World} (hinv : IndexInv w) : pointIndexStr ∉ index w := by
  intro hm
  have hl := (hinv.2 pointIndexStr).mp hm
  rw [index_nil_of_live hl] at hm
  cases hm

/-- Creation preserves the invariant. -/
theorem IndexInv_init_point {w : World} (hw : healthy w) (hinv : IndexInv w)
    (id owner : String) (hkey : id ≠ pointIndexStr)
    (hp1 : jsonPlain id) (hp2 : jsonPlain (toLower w owner)) :
    IndexInv (init_point w [id, owner]).1 := by
  by_cases hid : id = ""
  · subst hid; exact hinv
  by_cases ho : owner = ""
  · subst ho
    have : init_point w [id, ""] = (w, Outcome.fail "2nd argument must be a non-empty string") := by
      have h1 : ¬ id.length ≤ 0 := fun h => hid ((length_le_zero_iff id).mp h)
      simp [init_point, h1]
    rw [this]; exact hinv
  by_cases hold : (record w id).Id = id
  · rw [init_point_exists hw id owner hid ho hold]; exact hinv
  obtain ⟨_, hrec, hidx, hframe⟩ :=
    init_point_effect w id owner hw hid ho hkey hp1 hp2 hold
  have hkvid : ((init_point w [id, owner]).1.kv id).isSome = true := by
    rw [init_point_healthy hw id owner hid ho hold]
    simp [hkey]
  have hkvidx : ∃ v, (init_point w [id, owner]).1.kv pointIndexStr = some (marshalStrings v) := by
    rw [init_point_healthy hw id owner hid ho hold]
    simp only [↓reduceIte]
    exact ⟨_, rfl⟩
  have hnl : id ∉ index w := fun hm => hold ((hinv.2 id).mp hm).2
  refine ⟨?_, ?_⟩
  · rw [hidx]
    exact List.Nodup.append hinv.1 (List.nodup_singleton id) (by simpa using hnl)
  · intro k
    rw [hidx]
    by_cases hk1 : k = pointIndexStr
    · subst hk1
      obtain ⟨v, hv⟩ := hkvidx
      have h1 : ¬ live (init_point w [id, owner]).1 pointIndexStr :=
        not_live_of_strings v hv (by decide)
      have h2 := index_key_not_listed hinv
      simp [h1, h2, Ne.symm hkey]
    by_cases hk2 : k = id
    · subst hk2
      have h1 : live (init_point w [k, owner]).1 k := ⟨hkvid, by rw [hrec]⟩
      simp [h1]
    · rw [live_congr (hframe k hk2 hk1), ← hinv.2 k]
      simp [hk2]

/-- Deletion preserves the invariant. -/
theorem IndexInv_Delete {w : World} (hw : healthy w) (hinv : IndexInv w)
    (id : String) (hkey : id ≠ pointIndexStr) :
    IndexInv (Delete w [id]).1 := by
  obtain ⟨_, hgone, hidx, hframe⟩ := Delete_effect w id hw hkey
  have hkvidx : ∃ v, (Delete w [id]).1.kv pointIndexStr = some (marshalStrings v) := by
    rw [Delete_healthy hw]
    simp only [↓reduceIte]
    exact ⟨_, rfl⟩
  refine ⟨?_, ?_⟩
  · rw [hidx]; exact hinv.1.erase id
  · intro k
    rw [hidx, hinv.1.mem_erase_iff]
    by_cases hk1 : k = pointIndexStr
    · subst hk1
      obtain ⟨v, hv⟩ := hkvidx
      have h1 : ¬ live (Delete w [id]).1 pointIndexStr := not_live_of_strings v hv (by decide)
      have h2 := index_key_not_listed hinv
      simp [h1, h2]
    by_cases hk2 : k = id
    · subst hk2
      have h1 : ¬ live (Delete w [k]).1 k := by
        intro hl
        have := hl.1
        rw [hgone] at this
        cases this
      simp [h1]
    · rw [live_congr (hframe k hk2 hk1), ← hinv.2 k]
      simp [hk2]

/-- A registry call on a working ledger changes nothing but the ledger contents. -/
theorem step_world (w : World) (c : Call) (hw : healthy w) :
    ∃ f, step w c = { w with kv := f } := by
  cases c with
  | create args =>
    match args with
    | [] => exact ⟨w.kv, rfl⟩
    | [_] => exact ⟨w.kv, rfl⟩
    | _ :: _ :: _ :: _ => exact ⟨w.kv, rfl⟩
    | [id, owner] =>
      by_cases hid : id = ""
      · subst hid; exact ⟨w.kv, rfl⟩
      by_cases ho : owner = ""
      · subst ho
        have h1 : ¬ id.length ≤ 0 := fun h => hid ((length_le_zero_iff id).mp h)
        exact ⟨w.kv, by simp [step, init_point, h1]⟩
      by_cases hold : (record w id).Id = id
      · exact ⟨w.kv, by simp [step, init_point_exists hw id owner hid ho hold]⟩
      · exact ⟨_, by simp only [step, init_point_healthy hw id owner hid ho hold]; rfl⟩
  | delete args =>
    match args with
    | [] => exact ⟨w.kv, rfl⟩
    | _ :: _ :: _ => exact ⟨w.kv, rfl⟩
    | [id] => exact ⟨_, by simp only [step, Delete_healthy hw]; rfl⟩

/-- A registry call that is admissible preserves the invariant. -/
theorem IndexInv_step (w : World) (c : Call) (hw : healthy w) (hinv : IndexInv w)
    (hadm : admissible w c) : IndexInv (step w c) := by
  cases c with
  | create args =>
    match args, hadm with
    | [], _ => exact hinv
    | [_], _ => exact hinv
    | _ :: _ :: _ :: _, _ => exact hinv
    | [id, owner], hadm =>
      obtain ⟨h1, h2, h3⟩ := hadm id owner rfl
      exact IndexInv_init_point hw hinv id owner h1 h2 h3
  | delete args =>
    match args, hadm with
    | [], _ => exact hinv
    | _ :: _ :: _, _ => exact hinv
    | [id], hadm =>
      have hkey : id ≠ pointIndexStr := fun h => hadm (by rw [h])
      exact IndexInv_Delete hw hinv id hkey

theorem admissible_kv (w : World) (f : String → Option String) (c : Call) :
    admissible { w with kv := f } c ↔ admissible w c := by
  cases c <;> exact Iff.rfl

/-- Admissible registry calls preserve the invariant along a whole run. -/
theorem IndexInv_run (calls : List Call) :
    ∀ w : World, healthy w → IndexInv w → (∀ c ∈ calls, admissible w c) →
      IndexInv (run w calls) := by
  induction calls with
  | nil => intro w _ hinv _; exact hinv
  | cons c cs ih =>
    intro w hw hinv hadm
    have hc := hadm c (List.mem_cons_self c cs)
    obtain ⟨f, hf⟩ := step_world w c hw
    apply ih (step w c)
    · rw [hf]; exact hw
    · exact IndexInv_step w c hw hinv hc
    · intro c2 hc2
      rw [hf]
      exact (admissible_kv w f c2).mpr (hadm c2 (List.mem_cons_of_mem c hc2))

theorem fresh_kv (k : String) :
    fresh.kv k =
      if k = "_minimaltx" then some "\x7b\"tx\":null\x7d"
      else if k = "_tx" then some "\x7b\"tx\":null\x7d"
      else if k = "_tmpIndex" then some "null"
      else if k = "_tmpRelatedPoint" then some "null"
      else if k = "_pointindex" then some "null"
      else if k = "abc" then some "0"
      else none := by
  rfl

/-- The freshly initialised ledger has an empty index and no live record. -/
theorem IndexInv_fresh : IndexInv fresh := by
  refine ⟨by decide, ?_⟩
  intro k
  have h0 : index fresh = [] := by decide
  rw [h0]
  simp only [List.not_mem_nil, false_iff]
  intro hl
  have hk := fresh_kv k
  by_cases h1 : k = "_minimaltx"
  · subst h1; revert hl; decide
  by_cases h2 : k = "_tx"
  · subst h2; revert hl; decide
  by_cases h3 : k = "_tmpIndex"
  · subst h3; revert hl; decide
  by_cases h4 : k = "_tmpRelatedPoint"
  · subst h4; revert hl; decide
  by_cases h5 : k = "_pointindex"
  · subst h5; revert hl; decide
  by_cases h6 : k = "abc"
  · subst h6; revert hl; decide
  rw [if_neg h1, if_neg h2, if_neg h3, if_neg h4, if_neg h5, if_neg h6] at hk
  have := hl.1
  rw [hk] at this
  cases this

/-- C1 (amended): starting from any world in which no ledger call fails and the
invariant holds (the freshly initialised ledger is one), for every finite sequence
of `init_point` and `Delete` calls whose arguments are arbitrary but for two limits,
that no call names the index key as its id and that the id and the lower-cased owner
of a creation hold no character that needs escaping in JSON, after each call the
index has no duplicates and lists exactly the keys that hold a live asset record. -/
theorem index_invariant (w : World) (calls : List Call) (n : Nat) (hw : healthy w)
    (hinv : IndexInv w) (hadm : ∀ c ∈ calls, admissible w c) :
    IndexInv (run w (calls.take n)) :=
  IndexInv_run (calls.take n) w hw hinv (fun c hc => hadm c (List.mem_of_mem_take hc))

/-- Witness of C1 (amended): a run on the fresh ledger that creates, rejects a
second creation, deletes, re-creates and deletes an unknown id. -/
theorem index_invariant_witness :
    healthy fresh ∧ IndexInv fresh ∧
    (∀ c ∈ [Call.create ["p1", "alice"], Call.create ["p2", "Bob"],
        Call.create ["p1", "carol"], Call.delete ["p1"], Call.create ["p1", "Dave"],
        Call.delete ["p9"], Call.create ["p3"]], admissible fresh c) ∧
    IndexInv (run fresh (List.take 5 [Call.create ["p1", "alice"], Call.create ["p2", "Bob"],
        Call.create ["p1", "carol"], Call.delete ["p1"], Call.create ["p1", "Dave"],
        Call.delete ["p9"], Call.create ["p3"]])) := by
  have hadm : ∀ c ∈ [Call.create ["p1", "alice"], Call.create ["p2", "Bob"],
        Call.create ["p1", "carol"], Call.delete ["p1"], Call.create ["p1", "Dave"],
        Call.delete ["p9"], Call.create ["p3"]], admissible fresh c := by
    intro c hc
    simp only [List.mem_cons, List.mem_singleton, List.not_mem_nil, or_false] at hc
    rcases hc with h | h | h | h | h | h | h <;> subst h
    · intro id owner e; cases e; decide
    · intro id owner e; cases e; decide
    · intro id owner e; cases e; decide
    · show ["p1"] ≠ [pointIndexStr]; decide
    · intro id owner e; cases e; decide
    · show ["p9"] ≠ [pointIndexStr]; decide
    · intro id owner e; cases e
  exact ⟨healthy_fresh, IndexInv_fresh, hadm,
    index_invariant fresh _ 5 healthy_fresh IndexInv_fresh hadm⟩

/-- C1 as stated fails for the index key: after `init_point("_pointindex", x)` on
the fresh ledger the index lists `_pointindex`, a key that holds the index itself and
no live asset record. -/
theorem index_invariant_counterexample :
    ¬ IndexInv (run fresh [Call.create [pointIndexStr, "x"]]) := by
  intro h
  have h1 : pointIndexStr ∈ index (run fresh [Call.create [pointIndexStr, "x"]]) := by decide
  have h2 : ¬ live (run fresh [Call.create [pointIndexStr, "x"]]) pointIndexStr := by decide
  exact h2 ((h.2 pointIndexStr).mp h1)

/-! ## Round trip of the transaction log -/

theorem noNumElems_encPoint (ps : List Point) : noNumElems (ps.map encPoint) = true := by
  induction ps with
  | nil => rfl
  | cons p r ih => simp [noNumElems, noNum_encPoint, ih]

theorem noNum_encPoints (v : Option (List Point)) : (encSlice encPoint v).noNum = true := by
  cases v with
  | none => rfl
  | some ps => simpa [encSlice, Json.noNum] using noNumElems_encPoint ps

theorem noNum_encTransaction (t : Transaction) : (encTransaction t).noNum = true := by
  simp [encTransaction, Json.noNum, noNumMembers, encString, noNum_encPoints]

theorem noNumElems_encTransaction (ts : List Transaction) :
    noNumElems (ts.map encTransaction) = true := by
  induction ts with
  | nil => rfl
  | cons t r ih => simp [noNumElems, noNum_encTransaction, ih]

theorem noNum_encAllTx (a : AllTx) : (encAllTx a).noNum = true := by
  cases h : a.TXs with
  | none => simp [encAllTx, Json.noNum, noNumMembers, encSlice, h]
  | some ts =>
    simp [encAllTx, Json.noNum, noNumMembers, encSlice, h, noNumElems_encTransaction]

theorem decElems_encPoint (ps : List Point) :
    decElems decPoint {} (ps.map encPoint) [] = ps := by
  induction ps with
  | nil => rfl
  | cons p r ih => simp [decElems, ih, decPoint_encPoint]

theorem decSlice_encPoints (v : Option (List Point)) :
    decSlice decPoint {} (encSlice encPoint v) none = v := by
  cases v with
  | none => rfl
  | some ps => simp [encSlice, decSlice, elems, decElems_encPoint]

theorem decTransaction_encTransaction (t : Transaction) :
    decTransaction (encTransaction t) {} = t := by
  have h00 : sameField "txID".data "txID" = true := by decide
  have h10 : sameField "timestamp".data "txID" = false := by decide
  have h11 : sameField "timestamp".data "timestamp" = true := by decide
  have h20 : sameField "traderA".data "txID" = false := by decide
  have h21 : sameField "traderA".data "timestamp" = false := by decide
  have h22 : sameField "traderA".data "traderA" = true := by decide
  have h30 : sameField "traderB".data "txID" = false := by decide
  have h31 : sameField "traderB".data "timestamp" = false := by decide
  have h32 : sameField "traderB".data "traderA" = false := by decide
  have h33 : sameField "traderB".data "traderB" = true := by decide
  have h40 : sameField "pointA".data "txID" = false := by decide
  have h41 : sameField "pointA".data "timestamp" = false := by decide
  have h42 : sameField "pointA".data "traderA" = false := by decide
  have h43 : sameField "pointA".data "traderB" = false := by decide
  have h44 : sameField "pointA".data "pointA" = true := by decide
  have h50 : sameField "pointB".data "txID" = false := by decide
  have h51 : sameField "pointB".data "timestamp" = false := by decide
  have h52 : sameField "pointB".data "traderA" = false := by decide
  have h53 : sameField "pointB".data "traderB" = false := by decide
  have h54 : sameField "pointB".data "pointA" = false := by decide
  have h55 : sameField "pointB".data "pointB" = true := by decide
  have h60 : sameField "related".data "txID" = false := by decide
  have h61 : sameField "related".data "timestamp" = false := by decide
  have h62 : sameField "related".data "traderA" = false := by decide
  have h63 : sameField "related".data "traderB" = false := by decide
  have h64 : sameField "related".data "pointA" = false := by decide
  have h65 : sameField "related".data "pointB" = false := by decide
  have h66 : sameField "related".data "related" = true := by decide
  simp only [decTransaction, encTransaction, List.foldl_cons, List.foldl_nil, decTransactionMember,
    h00, h10, h11, h20, h21, h22, h30, h31, h32, h33, h40, h41, h42, h43, h44, h50, h51, h52, h53, h54, h55, h60, h61, h62, h63, h64, h65, h66, if_true, if_false, Bool.false_eq_true, decString, encString,
    decSlice_encPoints]


theorem decElems_encTransaction (ts : List Transaction) :
    decElems decTransaction {} (ts.map encTransaction) [] = ts := by
  induction ts with
  | nil => rfl
  | cons t r ih => simp [decElems, ih, decTransaction_encTransaction]

theorem decAllTx_encAllTx (a : AllTx) : decAllTx (encAllTx a) {} = a := by
  have h : sameField "tx".data "tx" = true := by decide
  obtain ⟨txs⟩ := a
  cases txs with
  | none => simp [decAllTx, encAllTx, decAllTxMember, h, encSlice, decSlice]
  | some ts =>
    simp [decAllTx, encAllTx, decAllTxMember, h, encSlice, decSlice, elems,
      decElems_encTransaction]

/-- Decoding a marshalled log into a zero `AllTx` gives the log back. -/
theorem unmarshal_marshalAllTx (a : AllTx) :
    unmarshal decAllTx (some (marshalAllTx a)) {} = a := by
  simp only [unmarshal, marshalAllTx, parseJson_render _ (noNum_encAllTx a)]
  exact decAllTx_encAllTx a

/-- A marshalled string slice does not decode as a string: the variable stays as it
is. -/
theorem unmarshal_string_of_strings (v : Option (List String)) (cur : String) :
    unmarshal decString (some (marshalStrings v)) cur = cur := by
  simp only [unmarshal, marshalStrings, parseJson_render _ (noNum_encStrings v)]
  cases v <;> rfl

/-! ## Frames of the ledger calls -/

theorem PutState_kv (w : World) (key value k : String) (hk : k ≠ key) :
    (PutState w key value).1.kv k = w.kv k := by
  unfold PutState
  split
  · rfl
  · simp [hk]

theorem DelState_kv (w : World) (key k : String) (hk : k ≠ key) :
    (DelState w key).1.kv k = w.kv k := by
  unfold DelState
  split
  · rfl
  · simp [hk]

theorem PutState_tmp (w : World) (key value : String) :
    (PutState w key value).1.tmpRelatedPoint = w.tmpRelatedPoint := by
  unfold PutState
  split <;> rfl

/-- A put either leaves the ledger as it is or stores the value. -/
theorem PutState_cases (w : World) (key value : String) :
    (PutState w key value).1 = w ∨ (PutState w key value).1.kv key = some value := by
  unfold PutState
  split
  · exact Or.inl rfl
  · right; simp

/-! ## The transaction log -/

/-- The log depends on the value under the log key only. -/
theorem log_congr {w1 w2 : World} (h : w1.kv minimalTxStr = w2.kv minimalTxStr) :
    log w1 = log w2 := by
  simp only [log, h]

/-- What `init_transaction` does with five or more arguments when no ledger call
fails: the debug copy is written, and the log is rewritten with the new transaction
at its end. -/
theorem init_transaction_healthy {w : World} (hw : healthy w)
    (id traderA traderB assetA assetB : String) (rest : List String) :
    init_transaction w (id :: traderA :: traderB :: assetA :: assetB :: rest) =
      ({ w with kv := fun x =>
          if x = minimalTxStr then
            some (marshalAllTx { TXs := some (log w ++
              [newTransaction w.now id traderA traderB assetA assetB]) })
          else if x = "_debug1" then
            some (marshalTransaction (newTransaction w.now id traderA traderB assetA assetB))
          else w.kv x }, Outcome.ok none) := by
  have hlen : ¬ (id :: traderA :: traderB :: assetA :: assetB :: rest).length < 3 := by
    simp only [List.length_cons]; omega
  have hne : ¬ minimalTxStr = "_debug1" := by decide
  simp only [init_transaction, if_neg hlen, PutState_healthy hw,
    GetState_healthy (healthy_kv hw _), PutState_healthy (healthy_kv hw _), if_neg hne,
    goAppend, log, newTransaction]

/-- Effect of `init_transaction` on the log, on a working ledger. -/
theorem init_transaction_effect (w : World) (id traderA traderB assetA assetB : String)
    (rest : List String) (hw : healthy w) :
    (init_transaction w (id :: traderA :: traderB :: assetA :: assetB :: rest)).2
      = Outcome.ok none ∧
    log (init_transaction w (id :: traderA :: traderB :: assetA :: assetB :: rest)).1
      = log w ++ [newTransaction w.now id traderA traderB assetA assetB] := by
  rw [init_transaction_healthy hw]
  refine ⟨rfl, ?_⟩
  simp only [log, ↓reduceIte, unmarshal_marshalAllTx, elems]

/-- C13: for every world in which no ledger call fails and all five arguments,
`init_transaction` succeeds and the log afterwards is the old log followed by exactly
one new transaction, whose id, traders and points are the arguments and whose related
list is nil; nothing is asked of the id being new or of the points existing. -/
theorem init_transaction_appends (w : World) (id traderA traderB assetA assetB : String)
    (hw : healthy w) :
    (init_transaction w [id, traderA, traderB, assetA, assetB]).2 = Outcome.ok none ∧
    log (init_transaction w [id, traderA, traderB, assetA, assetB]).1
      = log w ++ [{ Id := id, Timestamp := w.now, TraderA := traderA, TraderB := traderB,
                    PointA := assetA, PointB := assetB, Related := none }] :=
  init_transaction_effect w id traderA traderB assetA assetB [] hw

theorem healthy_oneTx : healthy oneTx := fun _ => ⟨rfl, rfl, rfl⟩

/-- Witness of C13: a second transaction with an id already in the log and points
that do not exist. -/
theorem init_transaction_appends_witness :
    healthy oneTx ∧
    ((init_transaction oneTx ["order-bob-1", "carol", "dave", "q1", "q2"]).2
       = Outcome.ok none ∧
     log (init_transaction oneTx ["order-bob-1", "carol", "dave", "q1", "q2"]).1
       = log oneTx ++ [{ Id := "order-bob-1", Timestamp := oneTx.now, TraderA := "carol",
                         TraderB := "dave", PointA := "q1", PointB := "q2",
                         Related := none }]) :=
  ⟨healthy_oneTx, init_transaction_appends oneTx "order-bob-1" "carol" "dave" "q1" "q2"
    healthy_oneTx⟩

/-- The test `strings.Contains` makes is the substring relation. -/
theorem containsChars_iff (sub s : List Char) : containsChars sub s = true ↔ sub <:+: s := by
  induction s with
  | nil => simp [containsChars, List.infix_nil]
  | cons c cs ih =>
    simp only [containsChars, Bool.or_eq_true, ih, List.infix_cons_iff]
    simp

theorem strContains_iff (s substr : String) :
    strContains s substr = true ↔ substr.data <:+: s.data :=
  containsChars_iff substr.data s.data

/-- The loop of `findLatest` appends the matching transactions in their order. -/
theorem findLatestLoop_elems (seller : String) (ts : List Transaction) :
    ∀ acc : Option (List Transaction),
      elems (findLatestLoop seller ts acc)
        = elems acc ++ ts.filter (fun t => strContains t.Id seller) := by
  induction ts with
  | nil => intro acc; simp [findLatestLoop]
  | cons t r ih =>
    intro acc
    by_cases h : strContains t.Id seller = true
    · rw [findLatestLoop, if_pos h, ih]
      have e : elems (goAppend acc t) = elems acc ++ [t] := rfl
      simp [e, h]
    · rw [findLatestLoop, if_neg h, ih]
      simp [h]

/-- Without a match the loop of `findLatest` leaves the result slice nil. -/
theorem findLatestLoop_none (seller : String) (ts : List Transaction)
    (h : ∀ t ∈ ts, strContains t.Id seller = false) : findLatestLoop seller ts none = none := by
  induction ts with
  | nil => rfl
  | cons t r ih =>
    have ht := h t (List.mem_cons_self t r)
    simp only [findLatestLoop, ht, Bool.false_eq_true, if_false]
    exact ih (fun x hx => h x (List.mem_cons_of_mem t hx))

/-- What `read` does in mode `findLatest` when reading the log does not fail. -/
theorem read_findLatest (w : World) (token : String) (rest : List String)
    (hget : w.getErr minimalTxStr = none) :
    read w ("findLatest" :: token :: rest)
      = (w, Outcome.ok (some (marshalAllTx { TXs := findLatestLoop token (log w) none }))) := by
  have hne : ¬ "findLatest" = "read" := by decide
  simp only [read, if_neg hne, if_true, GetState, hget, log]

/-- C14: whenever reading the log does not fail, `read` in mode `findLatest` returns
a successful result that decodes to exactly the transactions of the log whose id
contains the token as a substring, in their original order; when none matches the
result is the empty log text and no error. -/
theorem findLatest_filter (w : World) (token : String)
    (hget : w.getErr minimalTxStr = none) :
    ∃ payload, read w ["findLatest", token] = (w, Outcome.ok (some payload)) ∧
      elems (unmarshal decAllTx (some payload) {}).TXs
        = (log w).filter (fun t => strContains t.Id token) ∧
      (∀ t : Transaction, strContains t.Id token = true ↔ token.data <:+: t.Id.data) ∧
      ((∀ t ∈ log w, strContains t.Id token = false) → payload = marshalAllTx {}) := by
  refine ⟨_, read_findLatest w token [] hget, ?_, ?_, ?_⟩
  · rw [unmarshal_marshalAllTx, findLatestLoop_elems]
    rfl
  · intro t; exact strContains_iff t.Id token
  · intro h; rw [findLatestLoop_none token (log w) h]

/-- Witness of C14: the token `bob` on the log that holds `order-bob-1`. -/
theorem findLatest_filter_witness :
    oneTx.getErr minimalTxStr = none ∧
    ∃ payload, read oneTx ["findLatest", "bob"] = (oneTx, Outcome.ok (some payload)) ∧
      elems (unmarshal decAllTx (some payload) {}).TXs
        = (log oneTx).filter (fun t => strContains t.Id "bob") ∧
      (∀ t : Transaction, strContains t.Id "bob" = true ↔ "bob".data <:+: t.Id.data) ∧
      ((∀ t ∈ log oneTx, strContains t.Id "bob" = false) → payload = marshalAllTx {}) :=
  ⟨rfl, findLatest_filter oneTx "bob" rfl⟩

theorem log_fresh : log fresh = [] := by decide

theorem log_oneTx :
    log oneTx = [newTransaction fresh.now "order-bob-1" "bob" "alice" "p2" "p1"] := by
  have h := (init_transaction_effect fresh "order-bob-1" "bob" "alice" "p2" "p1" []
    healthy_fresh).2
  rw [log_fresh] at h
  exact h

/-- The scenario of the specification: with only `order-bob-1` logged, the token
`bob` selects exactly that transaction and the token `carol` selects nothing, the
result being the empty log text. -/
theorem findLatest_scenario :
    (log oneTx).filter (fun t => strContains t.Id "bob")
      = [newTransaction fresh.now "order-bob-1" "bob" "alice" "p2" "p1"] ∧
    (log oneTx).filter (fun t => strContains t.Id "carol") = [] ∧
    (read oneTx ["findLatest", "carol"]).2 = Outcome.ok (some "\x7b\"tx\":null\x7d") := by
  have h1 : strContains "order-bob-1" "bob" = true := by decide
  have h2 : strContains "order-bob-1" "carol" = false := by decide
  refine ⟨?_, ?_, ?_⟩
  · rw [log_oneTx]; simp [newTransaction, h1]
  · rw [log_oneTx]; simp [newTransaction, h2]
  · rw [read_findLatest oneTx "carol" [] rfl, log_oneTx]
    simp only [findLatestLoop, newTransaction, h2]
    decide

theorem healthy_init_transaction {w : World} (hw : healthy w)
    (id traderA traderB assetA assetB : String) (rest : List String) :
    healthy (init_transaction w (id :: traderA :: traderB :: assetA :: assetB :: rest)).1 := by
  rw [init_transaction_healthy hw]; exact hw

theorem healthy_now {w : World} (hw : healthy w) (t : String) :
    healthy { w with now := t } := hw

/-- C15: starting from an empty log on a working ledger, for every two transactions
and every token that is a substring of both ids, `init_transaction` of the first,
then (at any later time) `init_transaction` of the second, then `findLatest` with the
token returns the two transactions in the order first, second. -/
theorem append_order (w : World)
    (id1 a1 b1 c1 d1 id2 a2 b2 c2 d2 token now2 : String)
    (hw : healthy w) (hempty : log w = [])
    (h1 : token.data <:+: id1.data) (h2 : token.data <:+: id2.data) :
    ∃ payload,
      (read (init_transaction { (init_transaction w [id1, a1, b1, c1, d1]).1 with now := now2 }
        [id2, a2, b2, c2, d2]).1 ["findLatest", token]).2 = Outcome.ok (some payload) ∧
      elems (unmarshal decAllTx (some payload) {}).TXs
        = [newTransaction w.now id1 a1 b1 c1 d1, newTransaction now2 id2 a2 b2 c2 d2] := by
  have hw1 := healthy_init_transaction hw id1 a1 b1 c1 d1 []
  have hw1n := healthy_now hw1 now2
  have hw2 := healthy_init_transaction hw1n id2 a2 b2 c2 d2 []
  have hl1 := (init_transaction_effect w id1 a1 b1 c1 d1 [] hw).2
  have hl1n : log { (init_transaction w [id1, a1, b1, c1, d1]).1 with now := now2 }
      = log (init_transaction w [id1, a1, b1, c1, d1]).1 := log_congr rfl
  have hl2 := (init_transaction_effect _ id2 a2 b2 c2 d2 [] hw1n).2
  rw [hl1n, hl1, hempty] at hl2
  have c1 : strContains id1 token = true := (strContains_iff id1 token).mpr h1
  have c2 : strContains id2 token = true := (strContains_iff id2 token).mpr h2
  refine ⟨_, congrArg Prod.snd (read_findLatest _ token [] (hw2 minimalTxStr).1), ?_⟩
  rw [unmarshal_marshalAllTx, findLatestLoop_elems, hl2]
  simp [elems, newTransaction, c1, c2]

/-- Witness of C15: two orders of `bob` appended to the fresh ledger. -/
theorem append_order_witness :
    healthy fresh ∧ log fresh = [] ∧ "bob".data <:+: "order-bob-1".data ∧
    "bob".data <:+: "bob-order-2".data ∧
    ∃ payload,
      (read (init_transaction
        { (init_transaction fresh ["order-bob-1", "bob", "alice", "p2", "p1"]).1
            with now := "2016-08-02" }
        ["bob-order-2", "bob", "carol", "p3", "p1"]).1 ["findLatest", "bob"]).2
        = Outcome.ok (some payload) ∧
      elems (unmarshal decAllTx (some payload) {}).TXs
        = [newTransaction fresh.now "order-bob-1" "bob" "alice" "p2" "p1",
           newTransaction "2016-08-02" "bob-order-2" "bob" "carol" "p3" "p1"] :=
  ⟨healthy_fresh, log_fresh, (strContains_iff _ _).mp (by decide),
    (strContains_iff _ _).mp (by decide),
    append_order fresh "order-bob-1" "bob" "alice" "p2" "p1" "bob-order-2" "bob" "carol" "p3"
      "p1" "bob" "2016-08-02" healthy_fresh log_fresh ((strContains_iff _ _).mp (by decide))
      ((strContains_iff _ _).mp (by decide))⟩

/-! ## Argument checks -/

/-- C19: `init_point` fails with the argument-count error whenever the argument
list does not have exactly two elements, with the error for the first argument
whenever the id is empty and with the error for the second argument whenever the
owner is empty; in each of these cases the world it returns is the one it was given,
whatever the state of the store. -/
theorem init_point_validation (w : World) (args : List String) :
    (args.length ≠ 2 →
      init_point w args = (w, Outcome.fail "Incorrect number of arguments. Expecting 2")) ∧
    (∀ id owner, args = [id, owner] → id = "" →
      init_point w args = (w, Outcome.fail "1st argument must be a non-empty string")) ∧
    (∀ id owner, args = [id, owner] → id ≠ "" → owner = "" →
      init_point w args = (w, Outcome.fail "2nd argument must be a non-empty string")) := by
  refine ⟨?_, ?_, ?_⟩
  · intro h
    match args, h with
    | [], _ => rfl
    | [_], _ => rfl
    | [_, _], h => exact absurd rfl h
    | _ :: _ :: _ :: _, _ => rfl
  · intro id owner e hid
    subst e; subst hid
    rfl
  · intro id owner e hid ho
    subst e; subst ho
    have h1 : ¬ id.length ≤ 0 := fun h => hid ((length_le_zero_iff id).mp h)
    simp [init_point, h1]

/-- Witness of C19: no argument, three arguments, an empty id, an empty owner. -/
theorem init_point_validation_witness :
    init_point twoPoints [] = (twoPoints, Outcome.fail "Incorrect number of arguments. Expecting 2") ∧
    init_point twoPoints ["p3", "carol", "x"]
      = (twoPoints, Outcome.fail "Incorrect number of arguments. Expecting 2") ∧
    init_point twoPoints ["", "carol"]
      = (twoPoints, Outcome.fail "1st argument must be a non-empty string") ∧
    init_point twoPoints ["p3", ""]
      = (twoPoints, Outcome.fail "2nd argument must be a non-empty string") :=
  ⟨(init_point_validation twoPoints []).1 (by decide),
   (init_point_validation twoPoints ["p3", "carol", "x"]).1 (by decide),
   (init_point_validation twoPoints ["", "carol"]).2.1 "" "carol" rfl rfl,
   (init_point_validation twoPoints ["p3", ""]).2.2 "p3" "" rfl (by decide) rfl⟩

/-- C20: whenever the store's put and get under the key do not fail,
`Write(key, value)` succeeds, a following `read` in mode `read` of the key returns
exactly the value and changes nothing, and every other key holds what it held
before the write. -/
theorem write_read (w : World) (key value : String)
    (hput : w.putErr key = none) (hget : w.getErr key = none) :
    (Write w [key, value]).2 = Outcome.ok none ∧
    read (Write w [key, value]).1 ["read", key]
      = ((Write w [key, value]).1, Outcome.ok (some value)) ∧
    ∀ k, k ≠ key → (Write w [key, value]).1.kv k = w.kv k := by
  have e : Write w [key, value]
      = ({ w with kv := fun x => if x = key then some value else w.kv x }, Outcome.ok none) := by
    simp only [Write, PutState, hput]
  rw [e]
  refine ⟨rfl, ?_, ?_⟩
  · simp only [read, if_true, GetState, hget]
  · intro k hk
    simp only [if_neg hk]

/-- Witness of C20: a raw write over the record of `p1` in the two-point scenario. -/
theorem write_read_witness :
    twoPoints.putErr "p1" = none ∧ twoPoints.getErr "p1" = none ∧
    ((Write twoPoints ["p1", "raw text"]).2 = Outcome.ok none ∧
     read (Write twoPoints ["p1", "raw text"]).1 ["read", "p1"]
       = ((Write twoPoints ["p1", "raw text"]).1, Outcome.ok (some "raw text")) ∧
     ∀ k, k ≠ "p1" → (Write twoPoints ["p1", "raw text"]).1.kv k = twoPoints.kv k) :=
  ⟨rfl, rfl, write_read twoPoints "p1" "raw text" rfl rfl⟩

/-- C17, the code at the failing inputs: `init_transaction` passes its length test
with three or four arguments and then reads the fourth or fifth; `read` and
`findPointWithOwner` read their arguments without any length test.  Each of these
calls ends in a run-time panic, in every world. -/
theorem calls_that_crash (w : World) (a b c d : String) :
    Invoke w "init_transaction" [a, b, c] = (w, Outcome.crash) ∧
    Invoke w "init_transaction" [a, b, c, d] = (w, Outcome.crash) ∧
    Invoke w "init_transaction" [a, b]
      = (w, Outcome.fail "Incorrect number of arguments. Expecting like 4?") ∧
    Query w "read" [] = (w, Outcome.crash) ∧
    Query w "read" ["read"] = (w, Outcome.crash) ∧
    Query w "read" ["findLatest"] = (w, Outcome.crash) ∧
    Invoke w "findPointWithOwner" [] = (w, Outcome.crash) :=
  ⟨rfl, rfl, rfl, rfl, rfl, rfl, rfl⟩

/-- C18, the code at the failing input: with a store whose put under the index key
fails, `init_point` stores the record and reports success although the index was
not written, and `Delete` removes the record and reports success although the index
still lists it. -/
theorem failed_index_write_reported_as_success :
    (PutState indexPutFails pointIndexStr "[]").2 = some "ledger unavailable" ∧
    (init_point indexPutFails ["p1", "alice"]).2 = Outcome.ok none ∧
    live (init_point indexPutFails ["p1", "alice"]).1 "p1" ∧
    index (init_point indexPutFails ["p1", "alice"]).1 = [] ∧
    (Delete twoPointsPutFails ["p1"]).2 = Outcome.ok none ∧
    (Delete twoPointsPutFails ["p1"]).1.kv "p1" = none ∧
    index (Delete twoPointsPutFails ["p1"]).1 = ["p1", "p2"] := by
  decide

/-- C11, the code at the failing input: in the two-point scenario only `p1` is
owned by `alice`, and after the query for `alice` the scratch slot holds the whole
index followed by the match, the id `p2` of a point of another owner included. -/
theorem scratch_slot_holds_index :
    index twoPoints = ["p1", "p2"] ∧
    (record twoPoints "p1").Owner = "alice" ∧ (record twoPoints "p2").Owner = "bob" ∧
    (findPointWithOwner twoPoints ["alice"]).2 = Outcome.ok (some "success") ∧
    (findPointWithOwner twoPoints ["alice"]).1.kv "_tmpRelatedPoint"
      = some "[\"p1\",\"p2\",\"p1\"]" := by
  decide

/-! ## Frame of the ownership query -/

theorem GetState_ok {w : World} {key : String} {v : Option String}
    (h : GetState w key = Except.ok v) : v = w.kv key := by
  unfold GetState at h
  split at h
  · cases h
  · cases h; rfl

/-- A put of a marshalled string slice under the key the variable names keeps the
scratch slot from touching the variable. -/
theorem scratchStable_put (w : World) (v : Option (List String)) (hs : scratchStable w) :
    scratchStable (PutState w w.tmpRelatedPoint (marshalStrings v)).1 := by
  unfold scratchStable
  rw [PutState_tmp]
  rcases PutState_cases w w.tmpRelatedPoint (marshalStrings v) with h | h
  · rw [h]; exact hs
  · rw [h]; exact unmarshal_string_of_strings v _

theorem findLoop_frame_put (owner : String) (k : Nat)
    (ih : ∀ (i : Nat) (w : World) (pointIndex : List String), scratchStable w →
      scratchStable (findLoop owner k i w pointIndex).1 ∧
      (findLoop owner k i w pointIndex).1.tmpRelatedPoint = w.tmpRelatedPoint ∧
      ∀ key, key ≠ w.tmpRelatedPoint →
        (findLoop owner k i w pointIndex).1.kv key = w.kv key)
    (i : Nat) (w : World) (p : List String) (x : String) (hs : scratchStable w) :
    scratchStable (findLoop owner k (i + 1)
        (PutState w w.tmpRelatedPoint (marshalStrings (some (p ++ [x])))).1 (p ++ [x])).1 ∧
      (findLoop owner k (i + 1)
        (PutState w w.tmpRelatedPoint (marshalStrings (some (p ++ [x])))).1
        (p ++ [x])).1.tmpRelatedPoint = w.tmpRelatedPoint ∧
      ∀ key, key ≠ w.tmpRelatedPoint →
        (findLoop owner k (i + 1)
          (PutState w w.tmpRelatedPoint (marshalStrings (some (p ++ [x])))).1
          (p ++ [x])).1.kv key = w.kv key := by
  have hst := scratchStable_put w (some (p ++ [x])) hs
  have htmp := PutState_tmp w w.tmpRelatedPoint (marshalStrings (some (p ++ [x])))
  obtain ⟨a, b, c⟩ := ih (i + 1) _ (p ++ [x]) hst
  refine ⟨a, by rw [b, htmp], ?_⟩
  intro key hk
  rw [c key (by rw [htmp]; exact hk), PutState_kv w _ _ key hk]

/-- While the scratch slot leaves the key variable alone, the loop of
`findPointWithOwner` writes under the key the variable names and nowhere else,
whether or not ledger calls fail. -/
theorem findLoop_frame (owner : String) (k : Nat) :
    ∀ (i : Nat) (w : World) (pointIndex : List String), scratchStable w →
      scratchStable (findLoop owner k i w pointIndex).1 ∧
      (findLoop owner k i w pointIndex).1.tmpRelatedPoint = w.tmpRelatedPoint ∧
      ∀ key, key ≠ w.tmpRelatedPoint →
        (findLoop owner k i w pointIndex).1.kv key = w.kv key := by
  induction k with
  | zero => intro i w p hs; exact ⟨hs, rfl, fun _ _ => rfl⟩
  | succ k ih =>
    intro i w p hs
    simp only [findLoop]
    split
    · exact ⟨hs, rfl, fun _ _ => rfl⟩
    · split
      · exact ⟨hs, rfl, fun _ _ => rfl⟩
      · split
        · split
          · exact ⟨hs, rfl, fun _ _ => rfl⟩
          · next pointAsByte hget =>
            have hv := GetState_ok hget
            subst hv
            have hs2 : unmarshal decString (w.kv w.tmpRelatedPoint) w.tmpRelatedPoint
                = w.tmpRelatedPoint := hs
            rw [hs2]
            exact findLoop_frame_put owner k ih i w p _ hs
        · exact ih _ _ _ hs

/-- While the scratch slot leaves the key variable alone, `findPointWithOwner`
writes under the key the variable names and nowhere else, whether or not ledger
calls fail. -/
theorem findPointWithOwner_frame (w : World) (args : List String) (hs : scratchStable w) :
    scratchStable (findPointWithOwner w args).1 ∧
    (findPointWithOwner w args).1.tmpRelatedPoint = w.tmpRelatedPoint ∧
    ∀ key, key ≠ w.tmpRelatedPoint → (findPointWithOwner w args).1.kv key = w.kv key := by
  unfold findPointWithOwner
  split
  · exact ⟨hs, rfl, fun _ _ => rfl⟩
  · next owner rest =>
    split
    · exact ⟨hs, rfl, fun _ _ => rfl⟩
    · next pointAsBytes _ =>
      have h := findLoop_frame owner
        (elems (unmarshal (decSlice decString "") pointAsBytes none)).length 0 w
        (elems (unmarshal (decSlice decString "") pointAsBytes none)) hs
      simp only
      split
      · next w1 out heq => rw [heq] at h; exact h
      · next w1 heq =>
        rw [heq] at h
        simp only [if_true]
        exact h

/-- C12 (amended): in every world in which the key variable still names the scratch
slot and the slot holds no JSON string, `findPointWithOwner(owner)` writes under the
scratch key only, whether or not ledger calls fail: every other key holds what it
held, so the value under the index key, the index, the log and every asset record
stored under another key are unchanged, and the key variable keeps its value. -/
theorem query_writes_scratch_only (w : World) (owner : String)
    (htmp : w.tmpRelatedPoint = tmpRelatedPointInit) (hs : scratchStable w) :
    (∀ k, k ≠ tmpRelatedPointInit → (findPointWithOwner w [owner]).1.kv k = w.kv k) ∧
    (findPointWithOwner w [owner]).1.kv pointIndexStr = w.kv pointIndexStr ∧
    index (findPointWithOwner w [owner]).1 = index w ∧
    log (findPointWithOwner w [owner]).1 = log w ∧
    (∀ k, k ≠ tmpRelatedPointInit → record (findPointWithOwner w [owner]).1 k = record w k) ∧
    (findPointWithOwner w [owner]).1.tmpRelatedPoint = tmpRelatedPointInit := by
  obtain ⟨_, h2, h3⟩ := findPointWithOwner_frame w [owner] hs
  rw [htmp] at h2 h3
  have hi := h3 pointIndexStr (by decide)
  have hl := h3 minimalTxStr (by decide)
  refine ⟨h3, hi, ?_, log_congr hl, ?_, h2⟩
  · simp only [index, indexSlice, hi]
  · intro k hk
    simp only [record, h3 k hk]

/-- Witness of C12 (amended): the query for `alice` in the two-point scenario. -/
theorem query_writes_scratch_only_witness :
    twoPoints.tmpRelatedPoint = tmpRelatedPointInit ∧ scratchStable twoPoints ∧
    ((∀ k, k ≠ tmpRelatedPointInit →
        (findPointWithOwner twoPoints ["alice"]).1.kv k = twoPoints.kv k) ∧
     (findPointWithOwner twoPoints ["alice"]).1.kv pointIndexStr = twoPoints.kv pointIndexStr ∧
     index (findPointWithOwner twoPoints ["alice"]).1 = index twoPoints ∧
     log (findPointWithOwner twoPoints ["alice"]).1 = log twoPoints ∧
     (∀ k, k ≠ tmpRelatedPointInit →
        record (findPointWithOwner twoPoints ["alice"]).1 k = record twoPoints k) ∧
     (findPointWithOwner twoPoints ["alice"]).1.tmpRelatedPoint = tmpRelatedPointInit) :=
  ⟨rfl, by decide, query_writes_scratch_only twoPoints "alice" rfl (by decide)⟩

/-- C12 as stated fails for a point stored under the scratch key: after
`init_point("_tmpRelatedPoint", bob)` the key holds a live asset record, and the
query for `bob` replaces that record by the list it collects. -/
theorem query_overwrites_asset_counterexample :
    live scratchAsset tmpRelatedPointInit ∧
    (record scratchAsset tmpRelatedPointInit).Owner = "bob" ∧
    index scratchAsset = [tmpRelatedPointInit] ∧
    (findPointWithOwner scratchAsset ["bob"]).2 = Outcome.ok (some "success") ∧
    (findPointWithOwner scratchAsset ["bob"]).1.kv tmpRelatedPointInit
      = some "[\"_tmpRelatedPoint\",\"_tmpRelatedPoint\"]" ∧
    ¬ live (findPointWithOwner scratchAsset ["bob"]).1 tmpRelatedPointInit := by
  decide

/-- The query decodes the scratch slot into the variable that holds the slot's key:
when the slot holds a JSON string, the query writes under that string from then on;
here it replaces the stored index. -/
theorem query_retargets_scratch_key :
    scratchString.kv tmpRelatedPointInit = some "\"_pointindex\"" ∧
    scratchString.kv pointIndexStr = some "[\"p1\",\"p2\"]" ∧
    (findPointWithOwner scratchString ["alice"]).1.tmpRelatedPoint = pointIndexStr ∧
    (findPointWithOwner scratchString ["alice"]).1.kv pointIndexStr
      = some "[\"p1\",\"p2\",\"p1\"]" := by
  decide

/-! ## The log is append-only -/

/-- Whether or not ledger calls fail, `init_point` writes under its id and under the
index key only. -/
theorem init_point_kv (w : World) (args : List String) (k : String)
    (hk : args.head? ≠ some k) (hk2 : k ≠ pointIndexStr) :
    (init_point w args).1.kv k = w.kv k := by
  unfold init_point
  split
  · next a0 a1 =>
    have hk0 : k ≠ a0 := fun e => hk (by rw [e]; rfl)
    split
    · rfl
    · split
      · rfl
      · dsimp only
        split
        · rfl
        · split
          · rfl
          · split
            · next w1 e heq =>
              have : w1 = (PutState w a0 _).1 := (congrArg Prod.fst heq).symm
              rw [this]; exact PutState_kv w _ _ k hk0
            · next w1 heq =>
              have h1 : w1 = (PutState w a0 _).1 := (congrArg Prod.fst heq).symm
              split
              · rw [h1]; exact PutState_kv w _ _ k hk0
              · rw [PutState_kv _ _ _ k hk2, h1]; exact PutState_kv w _ _ k hk0
  · rfl

/-- Whether or not ledger calls fail, `set_user` writes under its id only. -/
theorem set_user_kv (w : World) (args : List String) (k : String)
    (hk : args.head? ≠ some k) : (set_user w args).1.kv k = w.kv k := by
  unfold set_user
  split
  · next a0 a1 rest =>
    have hk0 : k ≠ a0 := fun e => hk (by rw [e]; rfl)
    split
    · rfl
    · dsimp only
      split
      · next w1 e heq =>
        have : w1 = (PutState w a0 _).1 := (congrArg Prod.fst heq).symm
        rw [this]; exact PutState_kv w _ _ k hk0
      · next w1 heq =>
        have : w1 = (PutState w a0 _).1 := (congrArg Prod.fst heq).symm
        rw [this]; exact PutState_kv w _ _ k hk0
  · rfl

/-- Whether or not ledger calls fail, `Delete` writes under its id and under the
index key only. -/
theorem Delete_kv (w : World) (args : List String) (k : String)
    (hk : args.head? ≠ some k) (hk2 : k ≠ pointIndexStr) :
    (Delete w args).1.kv k = w.kv k := by
  unfold Delete
  split
  · next id =>
    have hk0 : k ≠ id := fun e => hk (by rw [e]; rfl)
    split
    · next w1 e heq =>
      have : w1 = (DelState w id).1 := (congrArg Prod.fst heq).symm
      rw [this]; exact DelState_kv w _ k hk0
    · next w1 heq =>
      have h1 : w1 = (DelState w id).1 := (congrArg Prod.fst heq).symm
      split
      · rw [h1]; exact DelState_kv w _ k hk0
      · dsimp only
        rw [PutState_kv _ _ _ k hk2, h1]; exact DelState_kv w _ k hk0
  · rfl

/-- A put of a marshalled log under the log key leaves the log as it is or makes it
the log that was marshalled. -/
theorem log_put (w : World) (a : AllTx) :
    log (PutState w minimalTxStr (marshalAllTx a)).1 = log w ∨
    log (PutState w minimalTxStr (marshalAllTx a)).1 = elems a.TXs := by
  rcases PutState_cases w minimalTxStr (marshalAllTx a) with h | h
  · rw [h]; exact Or.inl rfl
  · right
    simp only [log, h, unmarshal_marshalAllTx]

theorem log_put_append (w1 w : World) (t : Transaction)
    (h : w1.kv minimalTxStr = w.kv minimalTxStr) :
    log (PutState w1 minimalTxStr (marshalAllTx
      { TXs := goAppend (unmarshal decAllTx (w1.kv minimalTxStr) {}).TXs t })).1 = log w ∨
    ∃ t2, log (PutState w1 minimalTxStr (marshalAllTx
      { TXs := goAppend (unmarshal decAllTx (w1.kv minimalTxStr) {}).TXs t })).1
        = log w ++ [t2] := by
  rcases log_put w1 { TXs := goAppend (unmarshal decAllTx (w1.kv minimalTxStr) {}).TXs t }
    with e | e
  · left; rw [e]; exact log_congr h
  · right
    refine ⟨t, ?_⟩
    rw [e, h]
    rfl

/-- Whether or not ledger calls fail, `init_transaction` leaves the log as it is or
adds one transaction at its end. -/
theorem init_transaction_log (w : World) (args : List String) :
    log (init_transaction w args).1 = log w ∨
    ∃ t, log (init_transaction w args).1 = log w ++ [t] := by
  have hkv : ∀ v, (PutState w "_debug1" v).1.kv minimalTxStr = w.kv minimalTxStr :=
    fun v => PutState_kv w _ v minimalTxStr (by decide)
  by_cases hlen : args.length < 3
  · unfold init_transaction
    rw [if_pos hlen]
    exact Or.inl rfl
  · match args, hlen with
    | [], _ => exact Or.inl rfl
    | [_], _ => exact Or.inl rfl
    | [_, _], _ => exact Or.inl rfl
    | [_, _, _], _ => exact Or.inl rfl
    | [_, _, _, _], _ => exact Or.inl rfl
    | a0 :: a1 :: a2 :: a3 :: a4 :: rest, hlen =>
      simp only [init_transaction, if_neg hlen]
      split
      · exact Or.inl (log_congr (hkv _))
      · next tradesAsBytes hget =>
        have hv := GetState_ok hget
        subst hv
        split
        · next w2 e heq =>
          rw [← (congrArg Prod.fst heq)]
          exact log_put_append _ _ _ (hkv _)
        · next w2 heq =>
          rw [← (congrArg Prod.fst heq)]
          exact log_put_append _ _ _ (hkv _)

/-- Calls that stay clear of the log key leave the log as it is or add one
transaction at its end. -/
theorem perform_log (w : World) (op : Op) (h : sparesLog w op) :
    log (perform w op) = log w ∨ ∃ t, log (perform w op) = log w ++ [t] := by
  cases op with
  | create args => exact Or.inl (log_congr (init_point_kv w args minimalTxStr h (by decide)))
  | setOwner args => exact Or.inl (log_congr (set_user_kv w args minimalTxStr h))
  | delete args => exact Or.inl (log_congr (Delete_kv w args minimalTxStr h (by decide)))
  | query args =>
    exact Or.inl (log_congr ((findPointWithOwner_frame w args h.2).2.2 minimalTxStr
      (fun e => h.1 e.symm)))
  | append args => exact init_transaction_log w args

/-- C16 (amended): for every world, whether or not ledger calls fail, and every call
of `init_point`, `set_user`, `Delete`, `findPointWithOwner` or `init_transaction`
with arbitrary arguments that stays clear of the log key (the id of the first three
is not `_minimaltx`; a query runs while the key variable does not name the log key
and the scratch slot holds no JSON string), the log before the call is a prefix of
the log after it. -/
theorem log_append_only (w : World) (op : Op) (h : sparesLog w op) :
    log w <+: log (perform w op) := by
  rcases perform_log w op h with e | ⟨t, e⟩
  · rw [e]
  · rw [e]; exact List.prefix_append _ _

/-- Witness of C16 (amended): a creation on the ledger that holds one
transaction. -/
theorem log_append_only_witness :
    sparesLog oneTx (Op.create ["p1", "alice"]) ∧
    log oneTx <+: log (perform oneTx (Op.create ["p1", "alice"])) :=
  ⟨by decide, log_append_only oneTx (Op.create ["p1", "alice"]) (by decide)⟩

set_option maxRecDepth 100000 in
/-- C16 as stated fails for the log key: `init_point("_minimaltx", x)` on the ledger
that holds one transaction succeeds and stores a point record under the log key,
after which the log decodes to no transaction. -/
theorem log_overwritten_counterexample :
    log oneTx = [newTransaction fresh.now "order-bob-1" "bob" "alice" "p2" "p1"] ∧
    (init_point oneTx [minimalTxStr, "x"]).2 = Outcome.ok none ∧
    log (perform oneTx (Op.create [minimalTxStr, "x"])) = [] ∧
    ¬ (log oneTx <+: log (perform oneTx (Op.create [minimalTxStr, "x"]))) := by
  have h2 : (init_point oneTx [minimalTxStr, "x"]).2 = Outcome.ok none := by decide
  have h3 : log (perform oneTx (Op.create [minimalTxStr, "x"])) = [] := by decide
  refine ⟨log_oneTx, h2, h3, ?_⟩
  rw [h3, log_oneTx]
  intro h
  cases List.prefix_nil.mp h

/-! ## Which calls end in a panic -/

theorem Init_no_crash (w : World) (f : String) (args : List String) :
    (Init w f args).2 ≠ Outcome.crash := by
  unfold Init
  repeat' split
  all_goals simp

theorem Delete_no_crash (w : World) (args : List String) :
    (Delete w args).2 ≠ Outcome.crash := by
  unfold Delete
  repeat' split
  all_goals simp

theorem Write_no_crash (w : World) (args : List String) :
    (Write w args).2 ≠ Outcome.crash := by
  unfold Write
  repeat' split
  all_goals simp

theorem init_point_no_crash (w : World) (args : List String) :
    (init_point w args).2 ≠ Outcome.crash := by
  unfold init_point
  split
  · split
    · simp
    · split
      · simp
      · dsimp only
        split
        · simp
        · split
          · simp
          · split
            · simp
            · split <;> simp
  · simp

theorem set_user_no_crash (w : World) (args : List String) :
    (set_user w args).2 ≠ Outcome.crash := by
  unfold set_user
  split
  · split
    · simp
    · dsimp only
      split <;> simp
  · simp

theorem test_no_crash (w : World) (args : List String) :
    (test w args).2 ≠ Outcome.crash := by
  unfold test
  repeat' split
  all_goals simp

/-- The loop of `findPointWithOwner` stays inside the slice: it never panics. -/
theorem findLoop_no_crash (owner : String) (k : Nat) :
    ∀ (i : Nat) (w : World) (pointIndex : List String), i + k ≤ pointIndex.length →
      (findLoop owner k i w pointIndex).2 ≠ some Outcome.crash := by
  induction k with
  | zero => intro i w p _; simp [findLoop]
  | succ k ih =>
    intro i w p hlen
    have hi : i < p.length := by omega
    simp only [findLoop, List.getElem?_eq_getElem hi]
    split
    · simp
    · split
      · split
        · simp
        · exact ih _ _ _ (by simp; omega)
      · exact ih _ _ _ (by omega)

theorem findPointWithOwner_crash (w : World) (args : List String) :
    (findPointWithOwner w args).2 = Outcome.crash ↔ args = [] := by
  constructor
  · intro h
    cases args with
    | nil => rfl
    | cons owner rest =>
      exfalso
      revert h
      unfold findPointWithOwner
      dsimp only
      split
      · simp
      · next pointAsBytes _ =>
        have hl := findLoop_no_crash owner
          (elems (unmarshal (decSlice decString "") pointAsBytes none)).length 0 w
          (elems (unmarshal (decSlice decString "") pointAsBytes none)) (by omega)
        split
        · next w1 out heq =>
          rw [heq] at hl
          intro h
          exact hl (by rw [← h])
        · simp
  · intro h; subst h; rfl

theorem init_transaction_crash (w : World) (args : List String) :
    (init_transaction w args).2 = Outcome.crash ↔ (args.length = 3 ∨ args.length = 4) := by
  match args with
  | [] => simp [init_transaction]
  | [_] => simp [init_transaction]
  | [_, _] => simp [init_transaction]
  | [_, _, _] => simp [init_transaction]
  | [_, _, _, _] => simp [init_transaction]
  | a0 :: a1 :: a2 :: a3 :: a4 :: rest =>
    have hlen : ¬ (a0 :: a1 :: a2 :: a3 :: a4 :: rest).length < 3 := by
      simp only [List.length_cons]; omega
    have hr : ¬ ((a0 :: a1 :: a2 :: a3 :: a4 :: rest).length = 3 ∨
        (a0 :: a1 :: a2 :: a3 :: a4 :: rest).length = 4) := by
      simp only [List.length_cons]; omega
    simp only [hr, iff_false]
    simp only [init_transaction, if_neg hlen]
    split
    · simp
    · split <;> simp

theorem read_crash (w : World) (args : List String) :
    (read w args).2 = Outcome.crash ↔
      (args = [] ∨ args = ["read"] ∨ args = ["findLatest"]) := by
  match args with
  | [] => simp [read]
  | [fcn] =>
    by_cases h1 : fcn = "read"
    · subst h1; simp [read]
    · by_cases h2 : fcn = "findLatest"
      · subst h2; simp [read]
      · simp [read, h1, h2]
  | fcn :: a1 :: rest =>
    simp only [read]
    have hr : ¬ (fcn :: a1 :: rest = [] ∨ fcn :: a1 :: rest = ["read"] ∨
        fcn :: a1 :: rest = ["findLatest"]) := by simp
    simp only [hr, iff_false]
    split
    · split <;> simp
    · split
      · split <;> simp
      · simp

/-- The calls that end in a panic are exactly these: `findPointWithOwner` without
arguments and `init_transaction` with three or four arguments through `Invoke`, and
`read` without arguments or with a mode and no second argument through `Query`.
Every other call returns a payload or an error. -/
theorem crash_iff (w : World) (function : String) (args : List String) :
    ((Invoke w function args).2 = Outcome.crash ↔
      (function = "findPointWithOwner" ∧ args = []) ∨
      (function = "init_transaction" ∧ (args.length = 3 ∨ args.length = 4))) ∧
    ((Query w function args).2 = Outcome.crash ↔
      function = "read" ∧ (args = [] ∨ args = ["read"] ∨ args = ["findLatest"])) := by
  refine ⟨?_, ?_⟩
  · unfold Invoke
    split_ifs with h1 h2 h3 h4 h5 h6 h7 h8
    · subst h1; simp [Init_no_crash]
    · subst h2; simp [Delete_no_crash]
    · subst h3; simp [Write_no_crash]
    · subst h4; simp [init_point_no_crash]
    · subst h5; simp [set_user_no_crash]
    · subst h6; simp [findPointWithOwner_crash]
    · subst h7; simp [test_no_crash]
    · subst h8; simp [init_transaction_crash]
    · simp [h6, h8]
  · unfold Query
    split_ifs with h1
    · subst h1; simp [read_crash]
    · simp [h1]

/-! ## Creation under a key that holds nothing -/

/-- A value that starts with an opening brace is an object. -/
theorem parseValue_brace (n : Nat) (t r : List Char) (v : Json)
    (h : parseValue n ('{' :: t) = some (v, r)) : ∃ kvs, v = Json.obj kvs := by
  cases n with
  | zero => simp [parseValue] at h
  | succ k =>
    rw [parseValue_succ] at h
    simp only [show ¬ ('{' = '"') by decide, show ¬ ('{' = '[') by decide, if_false,
      if_true] at h
    split at h
    · simp at h
    · split at h
      · cases h; exact ⟨_, rfl⟩
      · split at h
        · cases h; exact ⟨_, rfl⟩
        · simp at h

/-- A text that starts with an opening brace parses to an object or not at all. -/
theorem parseJson_brace (t : List Char) (j : Json) (h : parseJson ('{' :: t) = some j) :
    ∃ kvs, j = Json.obj kvs := by
  unfold parseJson at h
  rw [skipWs_cons '{' t (by decide)] at h
  split at h
  · simp at h
  · next v r hv =>
    obtain ⟨kvs, rfl⟩ := parseValue_brace _ t r v hv
    split at h
    · cases h; exact ⟨_, rfl⟩
    · simp at h

/-- Decoding a text that starts with an opening brace into a slice leaves the slice
as it is, whether the text is valid JSON or not. -/
theorem unmarshal_slice_of_brace (s : String) (t : List Char) (hs : s.data = '{' :: t)
    (cur : Option (List String)) :
    unmarshal (decSlice decString "") (some s) cur = cur := by
  simp only [unmarshal, hs]
  cases hj : parseJson ('{' :: t) with
  | none => rfl
  | some j =>
    obtain ⟨kvs, rfl⟩ := parseJson_brace t j hj
    rfl

/-- A key that holds nothing decodes to the zero point. -/
theorem record_absent {w : World} {k : String} (h : w.kv k = none) : record w k = {} := by
  simp only [record, h, unmarshal]

/-- When the index key holds nothing the index has no entries. -/
theorem index_absent {w : World} (h : w.kv pointIndexStr = none) : index w = [] := by
  simp only [index, indexSlice, h, unmarshal, elems]

/-- Effect of a creation under a key that holds nothing, on a working ledger: the
index is not consulted.  For the index key itself the record just written is read
back as the index; it starts with a brace and so decodes to no entries. -/
theorem init_point_absent (w : World) (id owner : String) (hw : healthy w)
    (hid : id ≠ "") (ho : owner ≠ "") (habsent : w.kv id = none) :
    (init_point w [id, owner]).2 = Outcome.ok none ∧
    index (init_point w [id, owner]).1 = index w ++ [id] := by
  have hnew : (record w id).Id ≠ id := by
    rw [record_absent habsent]; exact fun h => hid h.symm
  rw [init_point_healthy hw id owner hid ho hnew]
  refine ⟨rfl, ?_⟩
  by_cases hkey : pointIndexStr = id
  · subst hkey
    have e1 : ("\x7b\"id\": \"" : String).data = ['{', '"', 'i', 'd', '"', ':', ' ', '"'] := rfl
    rw [index_absent habsent]
    simp only [index, indexSlice, ↓reduceIte, unmarshal_marshalStrings]
    rw [unmarshal_slice_of_brace _ _ (by simp only [String.data_append, e1, List.cons_append]; rfl)]
    rfl
  · simp only [index, indexSlice, ↓reduceIte, if_neg hkey, unmarshal_marshalStrings, goAppend, elems]

theorem healthy_listedOnly : healthy listedOnly := fun _ => ⟨rfl, rfl, rfl⟩

/-- C21: for every world in which no ledger call fails, every non-empty id whose key
holds no value and every non-empty owner, `init_point(id, owner)` succeeds whether
or not `id` occurs in the index, and the index afterwards is the old index with `id`
appended at the end; `id` therefore occurs once more often than before, so an id
listed once before is listed twice afterwards. -/
theorem init_point_ignores_index (w : World) (id owner : String) (hw : healthy w)
    (hid : id ≠ "") (ho : owner ≠ "") (habsent : w.kv id = none) :
    (init_point w [id, owner]).2 = Outcome.ok none ∧
    index (init_point w [id, owner]).1 = index w ++ [id] ∧
    (index (init_point w [id, owner]).1).count id = (index w).count id + 1 := by
  obtain ⟨h1, h2⟩ := init_point_absent w id owner hw hid ho habsent
  refine ⟨h1, h2, ?_⟩
  rw [h2, List.count_append]
  simp

/-- Witness of C21: `p1` is listed in the index while its key holds nothing; the
creation succeeds and lists it a second time. -/
theorem init_point_ignores_index_witness :
    healthy listedOnly ∧ "p1" ≠ "" ∧ "alice" ≠ "" ∧ listedOnly.kv "p1" = none ∧
    index listedOnly = ["p1"] ∧
    ((init_point listedOnly ["p1", "alice"]).2 = Outcome.ok none ∧
     index (init_point listedOnly ["p1", "alice"]).1 = index listedOnly ++ ["p1"] ∧
     (index (init_point listedOnly ["p1", "alice"]).1).count "p1"
       = (index listedOnly).count "p1" + 1) :=
  ⟨healthy_listedOnly, by decide, by decide, by decide, by decide,
    init_point_ignores_index listedOnly "p1" "alice" healthy_listedOnly (by decide) (by decide)
      (by decide)⟩

/-- The index of the scenario after the creation, evaluated: `p1` twice. -/
theorem init_point_lists_twice :
    index (init_point listedOnly ["p1", "alice"]).1 = ["p1", "p1"] := by
  decide

/-! ## Change of owner and the index invariant -/

/-- Whether or not ledger calls fail, `set_user` leaves the world as it is or stores
the old record with the new owner under its id. -/
theorem set_user_cases (w : World) (id newOwner : String) (rest : List String) :
    (set_user w (id :: newOwner :: rest)).1 = w ∨
    (set_user w (id :: newOwner :: rest)).1.kv id
      = some (marshalPoint { record w id with Owner := newOwner }) := by
  simp only [set_user, GetState, PutState, record]
  cases h1 : w.getErr id with
  | some e => exact Or.inl rfl
  | none =>
    cases h2 : w.putErr id with
    | some e => exact Or.inl rfl
    | none => right; simp

/-- Whether or not ledger calls fail, a change of owner under a non-empty id turns
no key from live to not live or back. -/
theorem set_user_live (w : World) (id newOwner : String) (rest : List String)
    (hid : id ≠ "") (k : String) :
    live (set_user w (id :: newOwner :: rest)).1 k ↔ live w k := by
  by_cases hk : k = id
  · subst hk
    rcases set_user_cases w k newOwner rest with h | h
    · rw [h]
    · have hrec : (record (set_user w (k :: newOwner :: rest)).1 k).Id = (record w k).Id := by
        simp only [record, h, unmarshal_marshalPoint]
      constructor
      · intro hl
        have h2 : (record w k).Id = k := by rw [← hrec]; exact hl.2
        refine ⟨?_, h2⟩
        cases hv : w.kv k with
        | some v => rfl
        | none =>
          rw [record_absent hv] at h2
          exact absurd h2.symm hid
      · intro hl
        refine ⟨by rw [h]; rfl, ?_⟩
        rw [hrec]; exact hl.2
  · exact live_congr (set_user_kv w _ k (fun e => hk (Option.some.inj e).symm))

/-- Whether or not ledger calls fail, a change of owner under an id other than the
index key leaves the index as it is. -/
theorem set_user_index (w : World) (id newOwner : String) (rest : List String)
    (hkey : id ≠ pointIndexStr) :
    index (set_user w (id :: newOwner :: rest)).1 = index w := by
  have h : (set_user w (id :: newOwner :: rest)).1.kv pointIndexStr = w.kv pointIndexStr :=
    set_user_kv w _ pointIndexStr (fun e => hkey (Option.some.inj e))
  simp only [index, indexSlice, h]

/-- The invariant holds in the two-point scenario. -/
theorem IndexInv_twoPoints : IndexInv twoPoints := by
  refine IndexInv_run _ fresh healthy_fresh IndexInv_fresh ?_
  intro c hc
  simp only [List.mem_cons, List.mem_singleton, List.not_mem_nil, or_false] at hc
  rcases hc with h | h <;> subst h
  · intro id owner e; cases e; decide
  · intro id owner e; cases e; decide

/-- C22 (amended): for every world, whether or not ledger calls fail, every id other
than the index key and the empty string (an id with no record included) and every
new owner, `set_user(id, newOwner)` leaves the index as it is and turns no key from
live to not live or back; so if the index listed exactly the keys holding a live
asset record before the call it does so after it, and the index invariant, which
adds that no id is listed twice, is preserved as well. -/
theorem set_user_preserves_index (w : World) (id newOwner : String)
    (hkey : id ≠ pointIndexStr) (hid : id ≠ "") :
    index (set_user w [id, newOwner]).1 = index w ∧
    (∀ k, live (set_user w [id, newOwner]).1 k ↔ live w k) ∧
    ((∀ k, k ∈ index w ↔ live w k) →
      ∀ k, k ∈ index (set_user w [id, newOwner]).1 ↔ live (set_user w [id, newOwner]).1 k) ∧
    (IndexInv w → IndexInv (set_user w [id, newOwner]).1) := by
  have h1 := set_user_index w id newOwner [] hkey
  have h2 := set_user_live w id newOwner [] hid
  refine ⟨h1, h2, ?_, ?_⟩
  · intro hinv k
    rw [h1, h2 k]; exact hinv k
  · intro hinv
    refine ⟨by rw [h1]; exact hinv.1, ?_⟩
    intro k
    rw [h1, h2 k]; exact hinv.2 k

/-- Witness of C22 (amended): a change of owner for an id that was never created, in
the two-point scenario, where the invariant holds. -/
theorem set_user_preserves_index_witness :
    "ghost" ≠ pointIndexStr ∧ "ghost" ≠ "" ∧ twoPoints.kv "ghost" = none ∧ IndexInv twoPoints ∧
    (index (set_user twoPoints ["ghost", "carol"]).1 = index twoPoints ∧
     (∀ k, live (set_user twoPoints ["ghost", "carol"]).1 k ↔ live twoPoints k) ∧
     ((∀ k, k ∈ index twoPoints ↔ live twoPoints k) →
       ∀ k, k ∈ index (set_user twoPoints ["ghost", "carol"]).1
         ↔ live (set_user twoPoints ["ghost", "carol"]).1 k) ∧
     (IndexInv twoPoints → IndexInv (set_user twoPoints ["ghost", "carol"]).1)) :=
  ⟨by decide, by decide, by decide, IndexInv_twoPoints,
    set_user_preserves_index twoPoints "ghost" "carol" (by decide) (by decide)⟩

/-- C22 as stated fails for the index key: in the two-point scenario, where the
invariant holds, `set_user("_pointindex", x)` succeeds and replaces the stored index
by a point record; the index then decodes to no entries while `p1` still holds a
live record. -/
theorem set_user_breaks_invariant_counterexample :
    healthy twoPoints ∧ IndexInv twoPoints ∧
    (set_user twoPoints [pointIndexStr, "carol"]).2 = Outcome.ok none ∧
    index (set_user twoPoints [pointIndexStr, "carol"]).1 = [] ∧
    live (set_user twoPoints [pointIndexStr, "carol"]).1 "p1" ∧
    ¬ (∀ k, k ∈ index (set_user twoPoints [pointIndexStr, "carol"]).1
        ↔ live (set_user twoPoints [pointIndexStr, "carol"]).1 k) := by
  have h1 : index (set_user twoPoints [pointIndexStr, "carol"]).1 = [] := by decide
  have h2 : live (set_user twoPoints [pointIndexStr, "carol"]).1 "p1" := by decide
  refine ⟨healthy_twoPoints, IndexInv_twoPoints, by decide, h1, h2, ?_⟩
  intro h
  have h3 := (h "p1").mpr h2
  rw [h1] at h3
  cases h3

/-- The empty id, which `init_point` rejects and `set_user` does not test for: on the
fresh ledger, where the key `""` holds nothing, `set_user("", x)` stores a record
with the empty id under the empty key; the key then holds a record that carries its
key as id and is not listed. -/
theorem set_user_empty_id :
    IndexInv fresh ∧ fresh.kv "" = none ∧
    (set_user fresh ["", "carol"]).2 = Outcome.ok none ∧
    live (set_user fresh ["", "carol"]).1 "" ∧
    index (set_user fresh ["", "carol"]).1 = [] := by
  refine ⟨IndexInv_fresh, by decide, by decide, by decide, by decide⟩

/-! ## The reset -/

theorem digitChar_ne_brace (m : Nat) : Nat.digitChar m ≠ '{' := by
  by_cases h : m < 16
  · interval_cases m <;> decide
  · obtain ⟨k, rfl⟩ : ∃ k, m = k + 16 := ⟨m - 16, by omega⟩
    unfold Nat.digitChar
    simp

theorem toDigitsCore_no_brace : ∀ (fuel n : Nat) (ds : List Char), '{' ∉ ds →
    '{' ∉ Nat.toDigitsCore 10 fuel n ds := by
  intro fuel
  induction fuel with
  | zero => intro n ds h; simpa [Nat.toDigitsCore] using h
  | succ f ih =>
    intro n ds h
    have hd : '{' ∉ Nat.digitChar (n % 10) :: ds := by
      intro hm
      rcases List.mem_cons.mp hm with e | e
      · exact digitChar_ne_brace _ e.symm
      · exact h e
    rw [Nat.toDigitsCore]
    split
    · exact hd
    · exact ih _ _ hd

/-- The decimal text of an integer holds no opening brace. -/
theorem itoa_no_brace (i : Int) : '{' ∉ (itoa i).data := by
  cases i with
  | ofNat m =>
    show '{' ∉ (Nat.repr m).data
    exact toDigitsCore_no_brace _ _ [] (by simp)
  | negSucc m =>
    show '{' ∉ ("-" ++ Nat.repr (m + 1)).data
    rw [String.data_append]
    intro hm
    rcases List.mem_append.mp hm with e | e
    · revert e; decide
    · exact toDigitsCore_no_brace _ _ [] (by simp) e

theorem skipWs_subset (cs : List Char) : ∀ c ∈ skipWs cs, c ∈ cs := by
  induction cs with
  | nil => intro c h; simp [skipWs] at h
  | cons d t ih =>
    intro c h
    rw [skipWs] at h
    split at h
    · exact List.mem_cons_of_mem _ (ih c h)
    · exact h

/-- A value that is an object starts with an opening brace. -/
theorem parseValue_obj_head (n : Nat) (cs r : List Char) (kvs : List (List Char × Json))
    (h : parseValue n cs = some (Json.obj kvs, r)) : '{' ∈ cs := by
  cases n with
  | zero => simp [parseValue] at h
  | succ k =>
    cases cs with
    | nil => simp [parseValue] at h
    | cons c rest =>
      by_cases hc : c = '{'
      · subst hc; exact List.mem_cons_self _ _
      · rw [parseValue_succ] at h
        simp only [if_neg hc] at h
        exfalso
        repeat' split at h
        all_goals simp at h

/-- A text without an opening brace does not parse to an object. -/
theorem parseJson_no_brace (cs : List Char) (hcs : '{' ∉ cs) (kvs : List (List Char × Json)) :
    parseJson cs ≠ some (Json.obj kvs) := by
  intro h
  unfold parseJson at h
  split at h
  · simp at h
  · next v r hv =>
    split at h
    · cases h
      exact hcs (skipWs_subset cs _ (parseValue_obj_head _ _ _ _ hv))
    · simp at h

/-- Decoding a text without an opening brace into a point leaves the point as it
is. -/
theorem unmarshal_point_no_brace (s : String) (hs : '{' ∉ s.data) (cur : Point) :
    unmarshal decPoint (some s) cur = cur := by
  simp only [unmarshal]
  cases hj : parseJson s.data with
  | none => rfl
  | some j =>
    cases j with
    | obj kvs => exact absurd hj (parseJson_no_brace s.data hs kvs)
    | _ => rfl

/-- What `Init` does when no ledger call fails and the argument is an integer: six
writes, none of them a deletion. -/
theorem Init_healthy {w : World} (hw : healthy w) (function a0 : String) (Aval : Int)
    (hint : atoi a0 = some Aval) :
    Init w function [a0] =
      ({ w with kv := fun x =>
          if x = minimalTxStr then some (marshalAllTx {})
          else if x = transectionStr then some (marshalAllTx {})
          else if x = tmpStr then some (marshalStrings none)
          else if x = w.tmpRelatedPoint then some (marshalStrings none)
          else if x = pointIndexStr then some (marshalStrings none)
          else if x = "abc" then some (itoa Aval)
          else w.kv x }, Outcome.ok none) := by
  simp only [Init, hint, PutState_healthy hw, PutState_healthy (healthy_kv hw _)]

/-- Whether or not ledger calls fail, `Init` rejects every argument list other than
one integer and leaves the world as it is. -/
theorem Init_rejects (w : World) (function : String) (args : List String)
    (hbad : ∀ a, args = [a] → atoi a = none) :
    ∃ msg, Init w function args = (w, Outcome.fail msg) := by
  match args, hbad with
  | [], _ => exact ⟨_, rfl⟩
  | _ :: _ :: _, _ => exact ⟨_, rfl⟩
  | [a], hbad =>
    have h := hbad a rfl
    exact ⟨"Expecting integer value for asset holding", by simp only [Init, h]⟩

/-- Value of every key after a successful `Init`. -/
theorem Init_kv {w : World} (hw : healthy w) (function a0 : String) (Aval : Int)
    (hint : atoi a0 = some Aval) (k : String) :
    (Init w function [a0]).1.kv k =
      if k = minimalTxStr then some (marshalAllTx {})
      else if k = transectionStr then some (marshalAllTx {})
      else if k = tmpStr then some (marshalStrings none)
      else if k = w.tmpRelatedPoint then some (marshalStrings none)
      else if k = pointIndexStr then some (marshalStrings none)
      else if k = "abc" then some (itoa Aval)
      else w.kv k := by
  rw [Init_healthy hw function a0 Aval hint]

/-- After a successful `Init` a key it writes holds one of the three texts written,
and every other key holds what it held before. -/
theorem Init_kv_cases {w : World} (hw : healthy w) (function a0 : String) (Aval : Int)
    (hint : atoi a0 = some Aval) (k : String) :
    (k ∈ resetKeys w ∧
      ((Init w function [a0]).1.kv k = some (marshalAllTx {}) ∨
       (Init w function [a0]).1.kv k = some (marshalStrings none) ∨
       (Init w function [a0]).1.kv k = some (itoa Aval))) ∨
    (k ∉ resetKeys w ∧ (Init w function [a0]).1.kv k = w.kv k) := by
  have hkv := Init_kv hw function a0 Aval hint k
  have hmem : k ∈ resetKeys w ↔ (k = "abc" ∨ k = pointIndexStr ∨ k = w.tmpRelatedPoint ∨
      k = tmpStr ∨ k = transectionStr ∨ k = minimalTxStr) := by
    simp only [resetKeys, List.mem_cons, List.mem_singleton, List.not_mem_nil, or_false]
  by_cases h1 : k = minimalTxStr
  · rw [if_pos h1] at hkv
    exact Or.inl ⟨hmem.mpr (by tauto), Or.inl hkv⟩
  rw [if_neg h1] at hkv
  by_cases h2 : k = transectionStr
  · rw [if_pos h2] at hkv
    exact Or.inl ⟨hmem.mpr (by tauto), Or.inl hkv⟩
  rw [if_neg h2] at hkv
  by_cases h3 : k = tmpStr
  · rw [if_pos h3] at hkv
    exact Or.inl ⟨hmem.mpr (by tauto), Or.inr (Or.inl hkv)⟩
  rw [if_neg h3] at hkv
  by_cases h4 : k = w.tmpRelatedPoint
  · rw [if_pos h4] at hkv
    exact Or.inl ⟨hmem.mpr (by tauto), Or.inr (Or.inl hkv)⟩
  rw [if_neg h4] at hkv
  by_cases h5 : k = pointIndexStr
  · rw [if_pos h5] at hkv
    exact Or.inl ⟨hmem.mpr (by tauto), Or.inr (Or.inl hkv)⟩
  rw [if_neg h5] at hkv
  by_cases h6 : k = "abc"
  · rw [if_pos h6] at hkv
    exact Or.inl ⟨hmem.mpr (by tauto), Or.inr (Or.inr hkv)⟩
  rw [if_neg h6] at hkv
  exact Or.inr ⟨fun hm => by rcases hmem.mp hm with h | h | h | h | h | h <;> contradiction, hkv⟩

/-- None of the texts `Init` writes decodes to a point with an id, so a non-empty
key it has written holds no live record. -/
theorem Init_key_not_live {w : World} (hw : healthy w) (function a0 : String) (Aval : Int)
    (hint : atoi a0 = some Aval) (k : String) (hk : k ∈ resetKeys w) (hne : k ≠ "") :
    ¬ live (Init w function [a0]).1 k := by
  intro hl
  have hid := hl.2
  rcases Init_kv_cases hw function a0 Aval hint k with ⟨_, h | h | h⟩ | ⟨h, _⟩
  · rw [record, h] at hid
    exact hne (Eq.trans hid.symm (show (unmarshal decPoint (some (marshalAllTx {})) {}).Id = ""
      by decide))
  · rw [record, h, unmarshal_point_of_strings] at hid
    exact hne hid.symm
  · rw [record, h, unmarshal_point_no_brace _ (itoa_no_brace Aval)] at hid
    exact hne hid.symm
  · exact h hk

/-- Effect of `Init` on a working ledger. -/
theorem Init_effect (w : World) (function a0 : String) (Aval : Int) (hw : healthy w)
    (hint : atoi a0 = some Aval) :
    (Init w function [a0]).2 = Outcome.ok none ∧
    index (Init w function [a0]).1 = [] ∧
    log (Init w function [a0]).1 = [] ∧
    (∀ k, k ∉ resetKeys w → (Init w function [a0]).1.kv k = w.kv k) ∧
    (∀ k, k ∉ resetKeys w → (live (Init w function [a0]).1 k ↔ live w k)) ∧
    (IndexInv (Init w function [a0]).1 ↔
      w.tmpRelatedPoint ≠ "" ∧ ∀ k, k ∉ resetKeys w → ¬ live w k) := by
  have hframe : ∀ k, k ∉ resetKeys w → (Init w function [a0]).1.kv k = w.kv k := by
    intro k hk
    rcases Init_kv_cases hw function a0 Aval hint k with ⟨h, _⟩ | ⟨_, h⟩
    · exact absurd h hk
    · exact h
  have hkvi : (Init w function [a0]).1.kv pointIndexStr = some (marshalStrings none) := by
    rw [Init_kv hw function a0 Aval hint, if_neg (show ¬ pointIndexStr = minimalTxStr by decide),
      if_neg (show ¬ pointIndexStr = transectionStr by decide),
      if_neg (show ¬ pointIndexStr = tmpStr by decide)]
    by_cases h : pointIndexStr = w.tmpRelatedPoint
    · rw [if_pos h]
    · rw [if_neg h, if_pos rfl]
  have hidx : index (Init w function [a0]).1 = [] := by
    rw [index, indexSlice, hkvi, unmarshal_marshalStrings]; rfl
  have hlog : log (Init w function [a0]).1 = [] := by
    rw [log, Init_kv hw function a0 Aval hint, if_pos rfl, unmarshal_marshalAllTx]; rfl
  have hlive : ∀ k, k ∉ resetKeys w → (live (Init w function [a0]).1 k ↔ live w k) :=
    fun k hk => live_congr (hframe k hk)
  refine ⟨by rw [Init_healthy hw function a0 Aval hint], hidx, hlog, hframe, hlive, ?_⟩
  constructor
  · intro hinv
    have hnone : ∀ k, ¬ live (Init w function [a0]).1 k := by
      intro k hl
      have hm := (hinv.2 k).mpr hl
      rw [hidx] at hm
      cases hm
    refine ⟨?_, fun k hk hl => hnone k ((hlive k hk).mpr hl)⟩
    intro ht
    apply hnone ""
    have hkv : (Init w function [a0]).1.kv "" = some (marshalStrings none) := by
      rw [Init_kv hw function a0 Aval hint, if_neg (show ¬ "" = minimalTxStr by decide),
        if_neg (show ¬ "" = transectionStr by decide), if_neg (show ¬ "" = tmpStr by decide),
        if_pos ht.symm]
    refine ⟨by rw [hkv]; rfl, ?_⟩
    rw [record, hkv, unmarshal_point_of_strings]
  · rintro ⟨ht, hdead⟩
    refine ⟨by rw [hidx]; exact List.nodup_nil, ?_⟩
    intro k
    rw [hidx]
    constructor
    · intro hm; cases hm
    · intro hl
      exfalso
      by_cases hk : k ∈ resetKeys w
      · by_cases hne : k = ""
        · subst hne
          simp only [resetKeys, List.mem_cons, List.mem_singleton, List.not_mem_nil,
            or_false] at hk
          rcases hk with h | h | h | h | h | h
          · revert h; decide
          · revert h; decide
          · exact ht h.symm
          · revert h; decide
          · revert h; decide
          · revert h; decide
        · exact Init_key_not_live hw function a0 Aval hint k hk hne hl
      · exact hdead k hk ((hlive k hk).mp hl)

/-- C23 (amended): for every world in which no ledger call fails and every single
argument that `strconv.Atoi` accepts, `Init` succeeds and afterwards the index
decodes to the empty list and the transaction log decodes to the empty list; `Init`
deletes nothing: every key other than the six it writes holds what it held before,
so a record that was live under such a key stays live, and the index invariant holds
in the reset state exactly when no such key held a live record (and the variable
`tmpRelatedPoint` does not name the empty key).  With any other argument list, in
any world, `Init` fails and leaves the world as it is. -/
theorem Init_resets (w : World) (function a0 : String) (Aval : Int) (hw : healthy w)
    (hint : atoi a0 = some Aval) :
    (Init w function [a0]).2 = Outcome.ok none ∧
    index (Init w function [a0]).1 = [] ∧
    log (Init w function [a0]).1 = [] ∧
    (∀ k, k ∉ resetKeys w → (Init w function [a0]).1.kv k = w.kv k) ∧
    (∀ k, k ∉ resetKeys w → (live (Init w function [a0]).1 k ↔ live w k)) ∧
    (IndexInv (Init w function [a0]).1 ↔
      w.tmpRelatedPoint ≠ "" ∧ ∀ k, k ∉ resetKeys w → ¬ live w k) ∧
    (∀ (u : World) (args : List String), (∀ a, args = [a] → atoi a = none) →
      ∃ msg, Init u function args = (u, Outcome.fail msg)) := by
  obtain ⟨h1, h2, h3, h4, h5, h6⟩ := Init_effect w function a0 Aval hw hint
  exact ⟨h1, h2, h3, h4, h5, h6, fun u args hbad => Init_rejects u function args hbad⟩

/-- Witness of C23 (amended): the reset of the two-point scenario with the argument
`42`. -/
theorem Init_resets_witness :
    healthy twoPoints ∧ atoi "42" = some 42 ∧
    ((Init twoPoints "init" ["42"]).2 = Outcome.ok none ∧
     index (Init twoPoints "init" ["42"]).1 = [] ∧
     log (Init twoPoints "init" ["42"]).1 = [] ∧
     (∀ k, k ∉ resetKeys twoPoints → (Init twoPoints "init" ["42"]).1.kv k = twoPoints.kv k) ∧
     (∀ k, k ∉ resetKeys twoPoints →
       (live (Init twoPoints "init" ["42"]).1 k ↔ live twoPoints k)) ∧
     (IndexInv (Init twoPoints "init" ["42"]).1 ↔
       twoPoints.tmpRelatedPoint ≠ "" ∧ ∀ k, k ∉ resetKeys twoPoints → ¬ live twoPoints k) ∧
     (∀ (u : World) (args : List String), (∀ a, args = [a] → atoi a = none) →
       ∃ msg, Init u "init" args = (u, Outcome.fail msg))) :=
  ⟨healthy_twoPoints, by decide, Init_resets twoPoints "init" "42" 42 healthy_twoPoints (by decide)⟩

/-- C23 as stated fails for a ledger that holds a record: in the two-point scenario
`Init` with the argument `0` succeeds and empties the index, the value under `p1` is
untouched and `p1` still holds a live record, so the index invariant does not hold
in the reset state. -/
theorem Init_keeps_records_counterexample :
    healthy twoPoints ∧ atoi "0" = some 0 ∧ live twoPoints "p1" ∧
    (Init twoPoints "init" ["0"]).2 = Outcome.ok none ∧
    index (Init twoPoints "init" ["0"]).1 = [] ∧
    (Init twoPoints "init" ["0"]).1.kv "p1" = twoPoints.kv "p1" ∧
    live (Init twoPoints "init" ["0"]).1 "p1" ∧
    ¬ IndexInv (Init twoPoints "init" ["0"]).1 := by
  have h1 : index (Init twoPoints "init" ["0"]).1 = [] := by decide
  have h2 : live (Init twoPoints "init" ["0"]).1 "p1" := by decide
  refine ⟨healthy_twoPoints, by decide, by decide, by decide, h1, by decide, h2, ?_⟩
  intro h
  have h3 := (h.2 "p1").mpr h2
  rw [h1] at h3
  cases h3

/-- Argument lists `Init` rejects, evaluated: none, two, no number, and the first
integer beyond the 64-bit range; the smallest 64-bit integer is accepted. -/
theorem Init_rejects_examples :
    Init twoPoints "init" []
      = (twoPoints, Outcome.fail "Incorrect number of arguments. Expecting 1") ∧
    Init twoPoints "init" ["1", "2"]
      = (twoPoints, Outcome.fail "Incorrect number of arguments. Expecting 1") ∧
    Init twoPoints "init" ["x"]
      = (twoPoints, Outcome.fail "Expecting integer value for asset holding") ∧
    Init twoPoints "init" ["9223372036854775808"]
      = (twoPoints, Outcome.fail "Expecting integer value for asset holding") ∧
    atoi "-9223372036854775808" = some (-9223372036854775808) := by
  refine ⟨rfl, rfl, ?_, ?_, by decide⟩
  · have h : atoi "x" = none := by decide
    simp only [Init, h]
  · have h : atoi "9223372036854775808" = none := by decide
    simp only [Init, h]

/-! ## The empty token -/

/-- The empty token occurs in every id. -/
theorem strContains_empty (s : String) : strContains s "" = true :=
  (strContains_iff s "").mpr List.nil_infix

/-- Filtering a log with the empty token keeps every transaction. -/
theorem filter_empty_token (ts : List Transaction) :
    ts.filter (fun t => strContains t.Id "") = ts := by
  rw [List.filter_eq_self]
  intro t _
  exact strContains_empty t.Id

/-- C24: whenever reading the log does not fail, `read` in mode `findLatest` with
the empty string as token returns a successful result that decodes to the entire
log in its original order, and with any token it returns a successful result that
decodes to a sublist of the log, its transactions in the order of the log, of at
most the length of the log. -/
theorem findLatest_empty_token (w : World) (token : String)
    (hget : w.getErr minimalTxStr = none) :
    (∃ payload, read w ["findLatest", ""] = (w, Outcome.ok (some payload)) ∧
      elems (unmarshal decAllTx (some payload) {}).TXs = log w) ∧
    (∃ payload, read w ["findLatest", token] = (w, Outcome.ok (some payload)) ∧
      (elems (unmarshal decAllTx (some payload) {}).TXs).Sublist (log w) ∧
      (elems (unmarshal decAllTx (some payload) {}).TXs).length ≤ (log w).length) := by
  refine ⟨⟨_, read_findLatest w "" [] hget, ?_⟩, ⟨_, read_findLatest w token [] hget, ?_, ?_⟩⟩
  · rw [unmarshal_marshalAllTx, findLatestLoop_elems]
    exact filter_empty_token (log w)
  · rw [unmarshal_marshalAllTx, findLatestLoop_elems]
    exact List.filter_sublist (log w)
  · rw [unmarshal_marshalAllTx, findLatestLoop_elems]
    exact List.length_filter_le _ (log w)

/-- Witness of C24: the empty token and the token `alice` on the log that holds
`order-bob-1`. -/
theorem findLatest_empty_token_witness :
    oneTx.getErr minimalTxStr = none ∧
    (∃ payload, read oneTx ["findLatest", ""] = (oneTx, Outcome.ok (some payload)) ∧
      elems (unmarshal decAllTx (some payload) {}).TXs = log oneTx) ∧
    (∃ payload, read oneTx ["findLatest", "alice"] = (oneTx, Outcome.ok (some payload)) ∧
      (elems (unmarshal decAllTx (some payload) {}).TXs).Sublist (log oneTx) ∧
      (elems (unmarshal decAllTx (some payload) {}).TXs).length ≤ (log oneTx).length) :=
  ⟨rfl, findLatest_empty_token oneTx "alice" rfl⟩

end CCPX
